import Mathlib

/-!
# Value converters and literal evaluation of `EvalEnvironment.cpp`

A shallow embedding of `pothos-util/EvalEnvironment.cpp`:

* `mupValueToObject` (parser value to object) and `objectToMupValue` (object to parser value),
  including the encoding of a map as an array that starts with the string `mapTypeId`;
* `EvalEnvironment.eval` with its list mode, map mode and parser mode;
* `EvalEnvironment.registerConstantExpr` and `EvalEnvironment.registerConstantObj`.

What the file calls but does not define is kept outside the embedding:

* the expression engine (`mup::ParserX::Eval`), the literal splitter
  (`EvalEnvironment::splitExpr`) and the key order of `std::map<Proxy, Proxy>` are the
  fields of `Lib`, and every theorem holds for every `Lib`;
* the constructors of `mup::Value` choose the type tag of the value they build. For a
  string, a boolean and an integer the tag is that of the C++ type; what a `double` and a
  `std::complex<double>` become is left to the fields of `ValueLib` (a library may tag them
  by value), and every theorem holds for every `ValueLib`. Assigning a value to a cell of
  an array keeps its tag and payload;
* a `double` is carried as its bit pattern, because the converters copy floating-point
  payloads and never compute with them;
* a `Pothos::Proxy` made by a managed environment is a boxed `Pothos::Object`, so
  `convertObjectToProxy` and `convertProxyToObject` are the identity on the model, and two
  keys of a `Pothos::ProxyMap` are the same key when they are equal objects;
* the constant table of the parser binds names to values: `DefineConst` binds a name that
  is not defined yet and refuses a defined one, `RemoveConst` takes a binding out;
* `assert` is checked (a build without `NDEBUG`), and the mutex is left out: the calls are
  sequential.

A text (`std::string`) is a `String`; `size()`, `front()`, `back()` and `substr` act on
its list of characters, which agrees with the bytes of C++ on the ASCII brackets and
braces that `eval` looks for.
-/

/-! ## Data model -/

/-- The payload of `mup::float_type` (a `double`), carried as its bit pattern. -/
structure float_type where
  bits : Nat
deriving DecidableEq, Repr

/-- The payload of `mup::cmplx_type` (`std::complex<double>`): real and imaginary part. -/
structure cmplx_type where
  re : float_type
  im : float_type
deriving DecidableEq, Repr

/-- The parser value `mup::IValue`, by type tag. An array is given by the cells of its
row 0: the converters build arrays with `Value(1, n, 0.0)` and read them with `GetCols()`
and `At(0, i)` only. `void` is the value whose tag (`'v'`) is none of the six that
`mupValueToObject` lists. -/
inductive MupValue where
  | bool (b : Bool)
  | int (i : Int)
  | float (f : float_type)
  | cmplx (c : cmplx_type)
  | str (s : String)
  | matrix (cells : List MupValue)
  | void
deriving Repr

/-- The dynamically typed `Pothos::Object`, by held type, in the order in which
`objectToMupValue` tests `obj.type()`. `vec` is a `Pothos::ProxyVector`, `map` a
`Pothos::ProxyMap` given by its entries in iteration order, and `other` is an object of any
other held type, with the text of `getTypeString()`. -/
inductive Object where
  | str (s : String)
  | float (f : float_type)
  | bool (b : Bool)
  | int (i : Int)
  | cmplx (c : cmplx_type)
  | vec (xs : List Object)
  | map (m : List (Object × Object))
  | other (typeString : String)
deriving Repr

mutual
/-- Structural equality test on parser values. -/
def MupValue.beq : MupValue → MupValue → Bool
  | .bool a, .bool b => a == b
  | .int a, .int b => a == b
  | .float a, .float b => a == b
  | .cmplx a, .cmplx b => a == b
  | .str a, .str b => a == b
  | .matrix a, .matrix b => MupValue.beqList a b
  | .void, .void => true
  | _, _ => false
/-- Structural equality test on lists of parser values. -/
def MupValue.beqList : List MupValue → List MupValue → Bool
  | [], [] => true
  | a :: as, b :: bs => MupValue.beq a b && MupValue.beqList as bs
  | _, _ => false
end

mutual
/-- Structural equality test on objects. -/
def Object.beq : Object → Object → Bool
  | .str a, .str b => a == b
  | .float a, .float b => a == b
  | .bool a, .bool b => a == b
  | .int a, .int b => a == b
  | .cmplx a, .cmplx b => a == b
  | .vec a, .vec b => Object.beqList a b
  | .map a, .map b => Object.beqPairs a b
  | .other a, .other b => a == b
  | _, _ => false
/-- Structural equality test on lists of objects. -/
def Object.beqList : List Object → List Object → Bool
  | [], [] => true
  | a :: as, b :: bs => Object.beq a b && Object.beqList as bs
  | _, _ => false
/-- Structural equality test on lists of key/value entries. -/
def Object.beqPairs : List (Object × Object) → List (Object × Object) → Bool
  | [], [] => true
  | (a1, a2) :: as, (b1, b2) :: bs =>
      Object.beq a1 b1 && (Object.beq a2 b2 && Object.beqPairs as bs)
  | _, _ => false
end

instance : BEq MupValue := ⟨MupValue.beq⟩

instance : BEq Object := ⟨Object.beq⟩

/-- A thrown `Pothos::Exception`, by the text that `ex.message()` returns. -/
structure Exception where
  message : String
deriving DecidableEq, Repr

/-- The constructor `Pothos::Exception(msg, arg)`. The class is declared outside this
file; its message is `msg`, followed by `": "` and `arg` when `arg` is not empty (the Poco
convention it is derived from). -/
def Exception.make (msg arg : String) : Exception :=
  ⟨if arg.data = [] then msg else msg ++ ": " ++ arg⟩

/-- The ways in which a call ends without returning a value. -/
inductive Failure where
  /-- A `Pothos::Exception` was thrown. -/
  | exception (ex : Exception)
  /-- A `mup::ParserError` with this message was thrown. -/
  | parserError (msg : String)
  /-- An `assert` failed. -/
  | assertion
  /-- A `std::vector` was indexed past its end. -/
  | outOfRange
  /-- The recursion budget of the model ran out (no counterpart in the program). -/
  | fuel
deriving DecidableEq, Repr

/-- The outcome of a call: a value or a failure. -/
abbrev Result (α : Type) := Except Failure α

/-- The entries of a `Pothos::ProxyMap` (`std::map<Proxy, Proxy>`) in iteration order. -/
abbrev ProxyMap := List (Object × Object)

/-- The position at which `std::map` places a key that is not yet present, given the key
and the present entries. It is fixed by the comparison of `Pothos::Proxy`, which is outside
this file. -/
abbrev Slot := Object → ProxyMap → Nat

/-- The sentinel `mapTypeId` (line 19). -/
def mapTypeId : String := "__map__B098D7A2__"

/-- The type tag `val.GetType()`. -/
def MupValue.GetType : MupValue → Char
  | .bool _ => 'b'
  | .int _ => 'i'
  | .float _ => 'f'
  | .cmplx _ => 'c'
  | .str _ => 's'
  | .matrix _ => 'm'
  | .void => 'v'

/-- The column count `val.GetCols()` of an array. -/
def GetCols (cells : List MupValue) : Nat := cells.length

/-- The cell `val.At(0, i)` of an array; past the last column `At` throws a
`mup::ParserError`. -/
def At (cells : List MupValue) (i : Nat) : Result MupValue :=
  match cells[i]? with
  | some c => .ok c
  | none => .error (.parserError "index out of bounds")

/-- The element `vec[i]` of a `std::vector`. -/
def vecAt (vec : List Object) (i : Nat) : Result Object :=
  match vec[i]? with
  | some o => .ok o
  | none => .error .outOfRange

/-- Whether the map has an entry for the key. -/
def ProxyMap.hasKey (m : ProxyMap) (k : Object) : Bool :=
  m.any (fun e => e.1 == k)

/-- A new entry put at the position the key order gives it. -/
def ProxyMap.insertNew (slot : Slot) (m : ProxyMap) (k v : Object) : ProxyMap :=
  m.take (slot k m) ++ (k, v) :: m.drop (slot k m)

/-- The statement `map[k] = v`: the entry of a present key gets the value, a new key is
inserted with it. -/
def ProxyMap.assign (slot : Slot) (m : ProxyMap) (k v : Object) : ProxyMap :=
  if m.hasKey k then m.map (fun e => if e.1 == k then (e.1, v) else e)
  else m.insertNew slot k v

/-- The call `map.emplace(k, v)`: a present key keeps its entry, a new key is inserted. -/
def ProxyMap.emplace (slot : Slot) (m : ProxyMap) (k v : Object) : ProxyMap :=
  if m.hasKey k then m else m.insertNew slot k v

/-! ## Parser value to object (lines 24-61) -/

/-- The detection of a flattened map (lines 41-43); `and` evaluates its right operand only
when the left one holds, so cell 0 is read only for an odd column count. -/
def isMapArray (cells : List MupValue) : Result Bool :=
  if GetCols cells % 2 = 1 then
    match At cells 0 with
    | .error f => .error f
    | .ok c =>
      if c.GetType = 's' then
        match c with
        | .str s => .ok (s == mapTypeId)
        | _ => .ok false
      else .ok false
  else .ok false

/-- The loop of lines 56-59, over the values `i` still to run: `map[vec[i*2 + 1]] =
vec[i*2 + 2]`. -/
def fillMap (slot : Slot) (vec : List Object) : List Nat → ProxyMap → Result ProxyMap
  | [], m => .ok m
  | i :: rest, m =>
    match vecAt vec (i * 2 + 1), vecAt vec (i * 2 + 2) with
    | .ok k, .ok v => fillMap slot vec rest (ProxyMap.assign slot m k v)
    | .error f, _ => .error f
    | _, .error f => .error f

mutual
/-- The function `mupValueToObject` (lines 24-61). In the `default` branch of the switch
the exception is built but not thrown, so control leaves the switch and reaches the
`assert` of line 37. -/
def mupValueToObject (slot : Slot) : MupValue → Result Object
  | .bool b => .ok (.bool b)
  | .int i => .ok (.int i)
  | .float f => .ok (.float f)
  | .cmplx c => .ok (.cmplx c)
  | .str s => .ok (.str s)
  | .void => .error .assertion
  | .matrix cells =>
    match isMapArray cells with
    | .error f => .error f
    | .ok isMap =>
      match mupValuesToObjects slot cells with
      | .error f => .error f
      | .ok vec =>
        if !isMap then .ok (.vec vec)
        else
          match fillMap slot vec (List.range (vec.length / 2)) [] with
          | .error f => .error f
          | .ok map => .ok (.map map)
/-- The loop of lines 47-51: the cells of row 0 converted from column 0 on, stopping at the
first failure. -/
def mupValuesToObjects (slot : Slot) : List MupValue → Result (List Object)
  | [] => .ok []
  | c :: cs =>
    match mupValueToObject slot c with
    | .error f => .error f
    | .ok obj_i =>
      match mupValuesToObjects slot cs with
      | .error f => .error f
      | .ok vec => .ok (obj_i :: vec)
end

/-! ## Object to parser value (lines 66-105) -/

/-- The numeric kinds of a parser value: the tags `'i'`, `'f'` and `'c'`. -/
def MupValue.isNumber : MupValue → Bool
  | .int _ => true
  | .float _ => true
  | .cmplx _ => true
  | _ => false

/-- What the constructors `mup::Value(double)` and `mup::Value(std::complex<double>)` of
the parser library build (lines 69 and 72). The source hands them the payload and does not
set the type tag; the library chooses it, and may choose it by value (an integral `double`
tagged `'i'`). Whatever it chooses, the value is a number. -/
structure ValueLib where
  ofFloat : float_type → MupValue
  ofCmplx : cmplx_type → MupValue
  ofFloat_number : ∀ f, (ofFloat f).isNumber = true
  ofCmplx_number : ∀ c, (ofCmplx c).isNumber = true

mutual
/-- The function `objectToMupValue` (lines 66-105). -/
def objectToMupValue (V : ValueLib) : Object → Result MupValue
  | .str s => .ok (.str s)
  | .float f => .ok (V.ofFloat f)
  | .bool b => .ok (.bool b)
  | .int i => .ok (.int i)
  | .cmplx c => .ok (V.ofCmplx c)
  | .vec vec =>
    match objectsToMupValues V vec with
    | .error f => .error f
    | .ok cells => .ok (.matrix cells)
  | .map map =>
    match pairsToMupValues V map with
    | .error f => .error f
    | .ok cells => .ok (.matrix (.str mapTypeId :: cells))
  | .other typeString =>
    .error (.exception
      (.make "EvalEnvironment::objectToMupValue()" ("unknown type " ++ typeString)))
/-- The loop of lines 79-83: the cells of the array, one per element, in order. -/
def objectsToMupValues (V : ValueLib) : List Object → Result (List MupValue)
  | [] => .ok []
  | obj_i :: rest =>
    match objectToMupValue V obj_i with
    | .error f => .error f
    | .ok c =>
      match objectsToMupValues V rest with
      | .error f => .error f
      | .ok cells => .ok (c :: cells)
/-- The loop of lines 94-100: the cells after the sentinel, the converted key and then the
converted value of each entry, in iteration order. -/
def pairsToMupValues (V : ValueLib) : List (Object × Object) → Result (List MupValue)
  | [] => .ok []
  | (key_i, val_i) :: rest =>
    match objectToMupValue V key_i with
    | .error f => .error f
    | .ok k =>
      match objectToMupValue V val_i with
      | .error f => .error f
      | .ok v =>
        match pairsToMupValues V rest with
        | .error f => .error f
        | .ok cells => .ok (k :: v :: cells)
end

/-- The scalar kinds: boolean, integer, float, complex, string. -/
def Object.isScalar : Object → Bool
  | .str _ => true
  | .float _ => true
  | .bool _ => true
  | .int _ => true
  | .cmplx _ => true
  | _ => false

mutual
/-- Whether the object is built only from the variants `objectToMupValue` tests for:
string, float, boolean, integer, complex, sequence and map, at every depth. -/
def Object.supported : Object → Bool
  | .vec xs => Object.supportedList xs
  | .map m => Object.supportedPairs m
  | .other _ => false
  | _ => true
/-- Whether every element is `supported`. -/
def Object.supportedList : List Object → Bool
  | [] => true
  | x :: xs => Object.supported x && Object.supportedList xs
/-- Whether every key and every value is `supported`. -/
def Object.supportedPairs : List (Object × Object) → Bool
  | [] => true
  | (k, v) :: rest => Object.supported k && (Object.supported v && Object.supportedPairs rest)
end

/-- The round trip `nativeToObject(objectToNative(v))`. -/
def roundTrip (V : ValueLib) (slot : Slot) (v : Object) : Result Object :=
  match objectToMupValue V v with
  | .error f => .error f
  | .ok n => mupValueToObject slot n

/-! ## The evaluator (lines 110-213) -/

/-- The part of the parser `_impl->p` that this file reads and writes: the constant table,
and the expression texts handed to `SetExpr` so far, oldest first. -/
structure ParserX where
  consts : List (String × MupValue)
  exprs : List String
deriving Repr

/-- What `eval` calls and this file does not define. `Eval consts expr` is the outcome of
`p.SetExpr(expr)` followed by `p.Eval()` in a parser whose constants are `consts`: a value,
or the message of the `mup::ParserError` thrown. `splitExpr` is
`EvalEnvironment::splitExpr`; a token is never longer than the text it is cut from. `slot`
is the key order of `Pothos::ProxyMap`. -/
structure Lib where
  Eval : List (String × MupValue) → String → Except String MupValue
  splitExpr : String → Char → List String
  splitExpr_le : ∀ s d t, t ∈ splitExpr s d → t.length ≤ s.length
  slot : Slot

/-- The text `s.substr(pos, n)`. -/
def substr (s : String) (pos n : Nat) : String := ⟨(s.data.drop pos).take n⟩

/-- The test `expr.size() >= 2 and expr.front() == open and expr.back() == close`. -/
def wrappedIn (open_ close : Char) (expr : String) : Bool :=
  decide (expr.length ≥ 2) && expr.data.head? == some open_ && expr.data.getLast? == some close

/-- The flag `inBrackets` of line 153. -/
def inBrackets (expr : String) : Bool := wrappedIn '[' ']' expr

/-- The flag `inBraces` of line 154. -/
def inBraces (expr : String) : Bool := wrappedIn '{' '}' expr

/-- The text `noBrackets` of lines 161 and 181. -/
def noBrackets (expr : String) : String := substr expr 1 (expr.length - 2)

/-- The first constructor argument of the exceptions of `eval`. -/
def evalName (expr : String) : String := "EvalEnvironment::eval(" ++ expr ++ ")"

/-- The handlers `catch (const Pothos::Exception &ex)` of lines 168-171 and 192-195: a
`Pothos::Exception` is thrown again under the name of `expr` with `ex.message()` as its
argument; any other failure is not caught. -/
def rethrow (expr : String) : Failure → Failure
  | .exception ex => .exception (.make (evalName expr) ex.message)
  | f => f

/-- The loop of lines 162-172 over the tokens still to evaluate; `ev` is `this->eval`. -/
def evalListLoop (ev : ParserX → String → Result Object × ParserX) (expr : String) :
    List String → List Object → ParserX → Result Object × ParserX
  | [], vec, p => (.ok (.vec vec), p)
  | tok :: rest, vec, p =>
    match ev p tok with
    | (.error f, p1) => (.error (rethrow expr f), p1)
    | (.ok obj, p1) => evalListLoop ev expr rest (vec ++ [obj]) p1

/-- The loop of lines 182-196 over the tokens still to evaluate; `ev` is `this->eval`. -/
def evalMapLoop (L : Lib) (ev : ParserX → String → Result Object × ParserX) (expr : String) :
    List String → ProxyMap → ParserX → Result Object × ParserX
  | [], map, p => (.ok (.map map), p)
  | tok :: rest, map, p =>
    match L.splitExpr tok ':' with
    | [k, v] =>
      match ev p k with
      | (.error f, p1) => (.error (rethrow expr f), p1)
      | (.ok key, p1) =>
        match ev p1 v with
        | (.error f, p2) => (.error (rethrow expr f), p2)
        | (.ok val, p2) => evalMapLoop L ev expr rest (ProxyMap.emplace L.slot map key val) p2
    | _ => (.error (.exception (.make (evalName tok) "not key:value")), p)

/-- The parser mode of lines 200-210. A `mup::ParserError`, from `Eval` or from the
conversion of its result, is thrown again as a `Pothos::Exception` named after `expr`. -/
def evalParser (L : Lib) (p : ParserX) (expr : String) : Result Object × ParserX :=
  let p1 : ParserX := { p with exprs := p.exprs ++ [expr] }
  match L.Eval p1.consts expr with
  | .error msg => (.error (.exception (.make (evalName expr) msg)), p1)
  | .ok result =>
    match mupValueToObject L.slot result with
    | .error (.parserError msg) => (.error (.exception (.make (evalName expr) msg)), p1)
    | r => (r, p1)

/-- The method `EvalEnvironment::eval` (lines 150-213) with a budget of nested calls. -/
def evalFuel (L : Lib) : Nat → ParserX → String → Result Object × ParserX
  | 0, p, _ => (.error .fuel, p)
  | fuel + 1, p, expr =>
    if expr.data = [] then
      (.error (.exception (.make "EvalEnvironment::eval()" "expression is empty")), p)
    else if inBrackets expr then
      evalListLoop (evalFuel L fuel) expr (L.splitExpr (noBrackets expr) ',') [] p
    else if inBraces expr then
      evalMapLoop L (evalFuel L fuel) expr (L.splitExpr (noBrackets expr) ',') [] p
    else evalParser L p expr

/-- The method `EvalEnvironment::eval`: the outcome and the parser afterwards. A nested
call gets a strictly shorter text, so a budget of one more than the length is never used
up (`eval_ne_fuel`). -/
def EvalEnvironment.eval (L : Lib) (p : ParserX) (expr : String) : Result Object × ParserX :=
  evalFuel L (expr.length + 1) p expr

/-! ## Constant registration (lines 129-148) -/

/-- The test `p.IsConstDefined(key)` of the parser library. -/
def ParserX.IsConstDefined (p : ParserX) (key : String) : Bool :=
  p.consts.any (fun e => e.1 == key)

/-- The call `p.RemoveConst(key)` of the parser library: the binding of `key` is taken out
of the constant table. -/
def ParserX.RemoveConst (p : ParserX) (key : String) : ParserX :=
  { p with consts := p.consts.filter (fun e => !(e.1 == key)) }

/-- The call `p.DefineConst(key, val)` of the parser library: a name that is already
defined is refused with a `mup::ParserError` (which is why both callers remove the name
first), any other name is bound to the value. -/
def ParserX.DefineConst (p : ParserX) (key : String) (val : MupValue) : Result ParserX :=
  if p.IsConstDefined key then .error (.parserError ("constant already defined: " ++ key))
  else .ok { p with consts := p.consts ++ [(key, val)] }

/-- Lines 134-135 and 146-147: the name is removed when it is defined, and then defined. -/
def redefineConst (p : ParserX) (key : String) (result : MupValue) : Result Unit × ParserX :=
  let p1 := if p.IsConstDefined key then p.RemoveConst key else p
  match p1.DefineConst key result with
  | .error f => (.error f, p1)
  | .ok p2 => (.ok (), p2)

/-- The method `EvalEnvironment::registerConstantObj` (lines 143-148): the outcome and the
parser afterwards. -/
def EvalEnvironment.registerConstantObj (V : ValueLib) (p : ParserX) (key : String)
    (obj : Object) : Result Unit × ParserX :=
  match objectToMupValue V obj with
  | .error f => (.error f, p)
  | .ok result => redefineConst p key result

/-- The handler `catch (const mup::ParserError &ex)` of lines 137-140: a parser error is
thrown again as a `Pothos::Exception` named after `expr`; any other failure is not
caught. -/
def catchParserError (expr : String) : Failure → Failure
  | .parserError msg => .exception (.make (evalName expr) msg)
  | f => f

/-- The method `EvalEnvironment::registerConstantExpr` (lines 129-141): the outcome and
the parser afterwards. -/
def EvalEnvironment.registerConstantExpr (L : Lib) (V : ValueLib) (p : ParserX)
    (key expr : String) : Result Unit × ParserX :=
  match EvalEnvironment.eval L p expr with
  | (.error f, p1) => (.error (catchParserError expr f), p1)
  | (.ok obj, p1) =>
    match objectToMupValue V obj with
    | .error f => (.error (catchParserError expr f), p1)
    | .ok result =>
      match redefineConst p1 key result with
      | (.error f, p2) => (.error (catchParserError expr f), p2)
      | (.ok u, p2) => (.ok u, p2)

/-! ## Well-formed objects -/

mutual
/-- Whether no sequence in the object, at any depth, has odd length and the string
`mapTypeId` as its first element. -/
def Object.plain : Object → Bool
  | .vec xs => !(decide (xs.length % 2 = 1) && xs.head? == some (.str mapTypeId))
      && Object.plainList xs
  | .map m => Object.plainPairs m
  | _ => true
/-- Whether every element is `plain`. -/
def Object.plainList : List Object → Bool
  | [] => true
  | x :: xs => Object.plain x && Object.plainList xs
/-- Whether every key and every value is `plain`. -/
def Object.plainPairs : List (Object × Object) → Bool
  | [] => true
  | (k, v) :: rest => Object.plain k && (Object.plain v && Object.plainPairs rest)
end

mutual
/-- Whether every float and every complex number in the object, at any depth, is built by
`mup::Value`'s constructor as a value of its own kind: tag `'f'` with the float as payload,
tag `'c'` with the complex number as payload. -/
def Object.keepsTag (V : ValueLib) : Object → Bool
  | .float f => V.ofFloat f == .float f
  | .cmplx c => V.ofCmplx c == .cmplx c
  | .vec xs => Object.keepsTagList V xs
  | .map m => Object.keepsTagPairs V m
  | _ => true
/-- Whether every element is `keepsTag`. -/
def Object.keepsTagList (V : ValueLib) : List Object → Bool
  | [] => true
  | x :: xs => Object.keepsTag V x && Object.keepsTagList V xs
/-- Whether every key and every value is `keepsTag`. -/
def Object.keepsTagPairs (V : ValueLib) : List (Object × Object) → Bool
  | [] => true
  | (k, v) :: rest =>
      Object.keepsTag V k && (Object.keepsTag V v && Object.keepsTagPairs V rest)
end

/-- Equality of objects in which a map counts as the set of its entries: the least
equivalence relation that relates two maps with the same entries in another order, and
that relates two sequences or two maps when one element, one key or one value is replaced
by a related one. Sequences are related element by element in order, so objects without
maps are related only when they are equal (`same_mapFree`). -/
inductive Object.Same : Object → Object → Prop
  | refl (a : Object) : Object.Same a a
  | symm {a b : Object} : Object.Same a b → Object.Same b a
  | trans {a b c : Object} : Object.Same a b → Object.Same b c → Object.Same a c
  | perm {m1 m2 : List (Object × Object)} : m1.Perm m2 → Object.Same (.map m1) (.map m2)
  | elem (pre post : List Object) {x y : Object} :
      Object.Same x y → Object.Same (.vec (pre ++ x :: post)) (.vec (pre ++ y :: post))
  | key (pre post : List (Object × Object)) (v : Object) {k1 k2 : Object} :
      Object.Same k1 k2 →
      Object.Same (.map (pre ++ (k1, v) :: post)) (.map (pre ++ (k2, v) :: post))
  | val (pre post : List (Object × Object)) (k : Object) {v1 v2 : Object} :
      Object.Same v1 v2 →
      Object.Same (.map (pre ++ (k, v1) :: post)) (.map (pre ++ (k, v2) :: post))

mutual
/-- Whether every map in the object, at any depth, has pairwise different keys, as the
keys of a `std::map` are: no two of them are the same object in the sense of
`Object.Same`. -/
def Object.distinctKeys : Object → Prop
  | .vec xs => Object.distinctKeysList xs
  | .map m => Object.distinctKeysPairs m ∧
      (m.map Prod.fst).Pairwise (fun a b => ¬ Object.Same a b)
  | _ => True
/-- Whether every element is `distinctKeys`. -/
def Object.distinctKeysList : List Object → Prop
  | [] => True
  | x :: xs => Object.distinctKeys x ∧ Object.distinctKeysList xs
/-- Whether every key and every value is `distinctKeys`. -/
def Object.distinctKeysPairs : List (Object × Object) → Prop
  | [] => True
  | (k, v) :: rest =>
      Object.distinctKeys k ∧ Object.distinctKeys v ∧ Object.distinctKeysPairs rest
end

mutual
/-- Whether the object holds no map, at any depth. -/
def Object.mapFree : Object → Bool
  | .vec xs => Object.mapFreeList xs
  | .map _ => false
  | _ => true
/-- Whether every element is `mapFree`. -/
def Object.mapFreeList : List Object → Bool
  | [] => true
  | x :: xs => Object.mapFree x && Object.mapFreeList xs
end

mutual
/-- The object with the entries of its maps left out: what `Object.Same` cannot change. -/
def Object.skeleton : Object → Object
  | .vec xs => .vec (Object.skeletonList xs)
  | .map _ => .map []
  | o => o
/-- The skeletons of the elements. -/
def Object.skeletonList : List Object → List Object
  | [] => []
  | x :: xs => Object.skeleton x :: Object.skeletonList xs
end

/-! ## Instances of `Lib` for the examples -/

/-- A placement for the examples: a new key goes after the present entries. -/
def slotEnd : Slot := fun _ m => m.length

/-- The scanner state of `splitExprSpec`: finished tokens, the token being read, the depth
inside `[ ]`, the depth inside `{ }`, and whether a quote is open. -/
structure SplitState where
  tokens : List String
  field : List Char
  bracketDepth : Nat
  braceDepth : Nat
  inQuotes : Bool

/-- One character of `splitExprSpec`. -/
def splitStep (delim : Char) (st : SplitState) (ch : Char) : SplitState :=
  if st.inQuotes then
    { st with field := st.field ++ [ch], inQuotes := !(ch == Char.ofNat 34) }
  else if ch == Char.ofNat 34 then { st with field := st.field ++ [ch], inQuotes := true }
  else if ch == delim && st.bracketDepth == 0 && st.braceDepth == 0 then
    { st with tokens := st.tokens ++ [String.mk st.field], field := [] }
  else if ch == '[' then
    { st with field := st.field ++ [ch], bracketDepth := st.bracketDepth + 1 }
  else if ch == ']' then
    { st with field := st.field ++ [ch], bracketDepth := st.bracketDepth - 1 }
  else if ch == '{' then
    { st with field := st.field ++ [ch], braceDepth := st.braceDepth + 1 }
  else if ch == '}' then
    { st with field := st.field ++ [ch], braceDepth := st.braceDepth - 1 }
  else { st with field := st.field ++ [ch] }

/-- Modelled from the spec: the literal splitter `EvalEnvironment::splitExpr`, which
`eval` calls and whose definition is in another file. The body is scanned left to right
with a depth counter per bracket kind; a delimiter outside `[...]`, `{...}` and quote pairs
ends the current token; every token is emitted, an empty one too. -/
def splitExprSpec (body : String) (delim : Char) : List String :=
  let st := body.data.foldl (splitStep delim) ⟨[], [], 0, 0, false⟩
  st.tokens ++ [String.mk st.field]

/-- The value of a text of decimal digits. -/
def digitsValue (cs : List Char) : Nat :=
  cs.foldl (fun n c => 10 * n + (c.toNat - '0'.toNat)) 0

/-- A small expression engine for the examples: a text of decimal digits is that integer,
the name of a constant is its value, and any other text is a parser error. -/
def evalSmall (consts : List (String × MupValue)) (expr : String) : Except String MupValue :=
  if expr.data ≠ [] ∧ expr.data.all Char.isDigit then .ok (.int (digitsValue expr.data))
  else
    match consts.lookup expr with
    | some v => .ok v
    | none => .error ("Undefined token " ++ expr)

/-- The total length of the tokens finished and the token being read. -/
def SplitState.total (st : SplitState) : Nat :=
  (st.tokens.map String.length).sum + st.field.length

/-- The instance of `Lib` for the examples: the small engine, the splitter modelled from
the spec, and new keys placed last. -/
def libSmall : Lib where
  Eval := evalSmall
  splitExpr := splitExprSpec
  slot := slotEnd
  splitExpr_le := by
    have step : ∀ (d : Char) (st : SplitState) (ch : Char),
        (splitStep d st ch).total ≤ st.total + 1 := by
      intro d st ch
      unfold splitStep
      split_ifs <;> simp [SplitState.total, String.length] <;> omega
    have fold : ∀ (d : Char) (cs : List Char) (st : SplitState),
        (cs.foldl (splitStep d) st).total ≤ st.total + cs.length := by
      intro d cs
      induction cs with
      | nil => intro st; simp
      | cons c cs ih =>
        intro st
        have h1 := ih (splitStep d st c)
        have h2 := step d st c
        simp only [List.foldl_cons, List.length_cons]
        omega
    intro s d t ht
    have h := fold d s.data ⟨[], [], 0, 0, false⟩
    simp only [splitExprSpec, List.mem_append, List.mem_singleton] at ht
    have hle : t.length ≤ (s.data.foldl (splitStep d) ⟨[], [], 0, 0, false⟩).total := by
      rcases ht with ht | ht
      · have := List.single_le_sum (by intro x _; exact Nat.zero_le x) _
          (List.mem_map_of_mem String.length ht)
        simp only [SplitState.total]
        omega
      · subst ht
        simp [SplitState.total, String.length]
    have h0 : (⟨[], [], 0, 0, false⟩ : SplitState).total = 0 := rfl
    have hs : s.length = s.data.length := rfl
    omega

/-- The integer that a `double` holds, when its value is a whole number of magnitude below
`2 ^ 63`, read off the sign, exponent and fraction of its bit pattern. -/
def float_type.toInt? (f : float_type) : Option Int :=
  let sign : Int := if f.bits / 2 ^ 63 % 2 = 1 then -1 else 1
  let e := f.bits / 2 ^ 52 % 2 ^ 11
  let m := f.bits % 2 ^ 52
  if e = 0 then (if m = 0 then some 0 else none)
  else if e < 1023 ∨ 1086 ≤ e then none
  else if e ≤ 1075 then
    (if (2 ^ 52 + m) % 2 ^ (1075 - e) = 0 then
      some (sign * ((2 ^ 52 + m) / 2 ^ (1075 - e) : Nat)) else none)
  else some (sign * ((2 ^ 52 + m) * 2 ^ (e - 1075) : Nat))

/-- Whether a `double` is `+0.0` or `-0.0`. -/
def float_type.isZero (f : float_type) : Bool := f.bits % 2 ^ 63 == 0

/-- A value library for the examples that keeps the kind: a `double` gets the tag `'f'`, a
complex number the tag `'c'`. -/
def valueByType : ValueLib where
  ofFloat := fun f => .float f
  ofCmplx := fun c => .cmplx c
  ofFloat_number := fun _ => rfl
  ofCmplx_number := fun _ => rfl

/-- A value library for the examples that tags by value, the way the constructors of
muparserx do: a `double` that holds a whole number gets the tag `'i'` and any other the
tag `'f'`; a complex number with imaginary part zero is tagged as its real part is, and
any other gets the tag `'c'`. -/
def valueByValue : ValueLib where
  ofFloat := fun f =>
    match f.toInt? with
    | some i => .int i
    | none => .float f
  ofCmplx := fun c =>
    if c.im.isZero then
      match c.re.toInt? with
      | some i => .int i
      | none => .float c.re
    else .cmplx c
  ofFloat_number := by
    intro f
    cases h : f.toInt? <;> simp [h, MupValue.isNumber]
  ofCmplx_number := by
    intro c
    by_cases hz : c.im.isZero = true
    · cases h : c.re.toInt? <;> simp [hz, h, MupValue.isNumber]
    · simp [hz, MupValue.isNumber]

/-! ## Equality of values -/

mutual
theorem mupValue_beq_iff : ∀ a b : MupValue, MupValue.beq a b = true ↔ a = b
  | .bool a, b => by cases b <;> simp [MupValue.beq]
  | .int a, b => by cases b <;> simp [MupValue.beq]
  | .float a, b => by cases b <;> simp [MupValue.beq]
  | .cmplx a, b => by cases b <;> simp [MupValue.beq]
  | .str a, b => by cases b <;> simp [MupValue.beq]
  | .matrix a, b => by cases b <;> simp [MupValue.beq, mupValue_beqList_iff a]
  | .void, b => by cases b <;> simp [MupValue.beq]
theorem mupValue_beqList_iff : ∀ a b : List MupValue, MupValue.beqList a b = true ↔ a = b
  | [], b => by cases b <;> simp [MupValue.beqList]
  | x :: xs, b => by
      cases b <;> simp [MupValue.beqList, mupValue_beq_iff x, mupValue_beqList_iff xs]
end

mutual
theorem object_beq_iff : ∀ a b : Object, Object.beq a b = true ↔ a = b
  | .str a, b => by cases b <;> simp [Object.beq]
  | .float a, b => by cases b <;> simp [Object.beq]
  | .bool a, b => by cases b <;> simp [Object.beq]
  | .int a, b => by cases b <;> simp [Object.beq]
  | .cmplx a, b => by cases b <;> simp [Object.beq]
  | .vec a, b => by cases b <;> simp [Object.beq, object_beqList_iff a]
  | .map a, b => by cases b <;> simp [Object.beq, object_beqPairs_iff a]
  | .other a, b => by cases b <;> simp [Object.beq]
theorem object_beqList_iff : ∀ a b : List Object, Object.beqList a b = true ↔ a = b
  | [], b => by cases b <;> simp [Object.beqList]
  | x :: xs, b => by
      cases b <;> simp [Object.beqList, object_beq_iff x, object_beqList_iff xs]
theorem object_beqPairs_iff :
    ∀ a b : List (Object × Object), Object.beqPairs a b = true ↔ a = b
  | [], b => by cases b <;> simp [Object.beqPairs]
  | (x1, x2) :: xs, b => by
      rcases b with _ | ⟨⟨y1, y2⟩, ys⟩
      · simp [Object.beqPairs]
      · simp [Object.beqPairs, object_beq_iff x1, object_beq_iff x2, object_beqPairs_iff xs,
          and_assoc]
end

instance : LawfulBEq Object where
  eq_of_beq h := (object_beq_iff _ _).1 h
  rfl := (object_beq_iff _ _).2 rfl

instance : LawfulBEq MupValue where
  eq_of_beq h := (mupValue_beq_iff _ _).1 h
  rfl := (mupValue_beq_iff _ _).2 rfl

/-! ## Round trip of scalars -/

/-- A scalar is encoded as a parser value that decodes to a scalar; the value is the
sentinel string only when the scalar is, and the scalar comes back itself when its value
is built with the tag of its kind. -/
theorem scalar_encode (V : ValueLib) (slot : Slot) (x : Object) (hx : x.isScalar = true) :
    ∃ c y, objectToMupValue V x = .ok c ∧ mupValueToObject slot c = .ok y ∧
      y.isScalar = true ∧
      (c = .str mapTypeId ↔ x = .str mapTypeId) ∧
      (y = x ↔ x.keepsTag V = true) := by
  cases x with
  | str s => exact ⟨.str s, .str s, rfl, rfl, rfl, by simp, by simp [Object.keepsTag]⟩
  | bool b => exact ⟨.bool b, .bool b, rfl, rfl, rfl, by simp, by simp [Object.keepsTag]⟩
  | int i => exact ⟨.int i, .int i, rfl, rfl, rfl, by simp, by simp [Object.keepsTag]⟩
  | float f =>
    have hn := V.ofFloat_number f
    cases hc : V.ofFloat f with
    | int i =>
      exact ⟨.int i, .int i, by simp [objectToMupValue, hc], rfl, rfl, by simp,
        by simp [Object.keepsTag, hc]⟩
    | float g =>
      exact ⟨.float g, .float g, by simp [objectToMupValue, hc], rfl, rfl, by simp,
        by simp [Object.keepsTag, hc]⟩
    | cmplx c =>
      exact ⟨.cmplx c, .cmplx c, by simp [objectToMupValue, hc], rfl, rfl, by simp,
        by simp [Object.keepsTag, hc]⟩
    | bool b => simp [hc, MupValue.isNumber] at hn
    | str s => simp [hc, MupValue.isNumber] at hn
    | matrix cells => simp [hc, MupValue.isNumber] at hn
    | void => simp [hc, MupValue.isNumber] at hn
  | cmplx z =>
    have hn := V.ofCmplx_number z
    cases hc : V.ofCmplx z with
    | int i =>
      exact ⟨.int i, .int i, by simp [objectToMupValue, hc], rfl, rfl, by simp,
        by simp [Object.keepsTag, hc]⟩
    | float g =>
      exact ⟨.float g, .float g, by simp [objectToMupValue, hc], rfl, rfl, by simp,
        by simp [Object.keepsTag, hc]⟩
    | cmplx c =>
      exact ⟨.cmplx c, .cmplx c, by simp [objectToMupValue, hc], rfl, rfl, by simp,
        by simp [Object.keepsTag, hc]⟩
    | bool b => simp [hc, MupValue.isNumber] at hn
    | str s => simp [hc, MupValue.isNumber] at hn
    | matrix cells => simp [hc, MupValue.isNumber] at hn
    | void => simp [hc, MupValue.isNumber] at hn
  | vec xs => simp [Object.isScalar] at hx
  | map m => simp [Object.isScalar] at hx
  | other t => simp [Object.isScalar] at hx

/-- C1 fails as stated: with a library that tags a `double` by value, the float `2.0` goes
into the parser value of tag `'i'` (line 69 leaves the tag to `mup::Value`), and line 29
returns the integer `2`, an object of another kind. -/
theorem C1_counterexample :
    (Object.float ⟨4611686018427387904⟩).isScalar = true ∧
    objectToMupValue valueByValue (.float ⟨4611686018427387904⟩) = .ok (.int 2) ∧
    roundTrip valueByValue slotEnd (.float ⟨4611686018427387904⟩) = .ok (.int 2) ∧
    roundTrip valueByValue slotEnd (.float ⟨4611686018427387904⟩)
      ≠ .ok (.float ⟨4611686018427387904⟩) := by
  refine ⟨rfl, rfl, rfl, ?_⟩
  intro h
  have h2 : roundTrip valueByValue slotEnd (.float ⟨4611686018427387904⟩)
      = .ok (.int 2) := rfl
  rw [h2] at h
  simp at h

/-- C1, amended: the round trip of a scalar object returns a scalar object, and it
returns the object itself exactly when `mup::Value`'s constructor builds its value with
the tag of its kind (`Object.keepsTag`); that is always so for a string, a boolean and an
integer, and for a float or a complex number it depends on the library. -/
theorem C1_scalar_round_trip (V : ValueLib) (slot : Slot) (v : Object)
    (hv : v.isScalar = true) :
    (∃ w, roundTrip V slot v = .ok w ∧ w.isScalar = true) ∧
    (roundTrip V slot v = .ok v ↔ v.keepsTag V = true) ∧
    ((∃ s, v = .str s) ∨ (∃ b, v = .bool b) ∨ (∃ i, v = .int i) →
      roundTrip V slot v = .ok v) := by
  obtain ⟨c, y, h1, h2, h3, _, h5⟩ := scalar_encode V slot v hv
  have hr : roundTrip V slot v = .ok y := by simp only [roundTrip, h1, h2]
  refine ⟨⟨y, hr, h3⟩, ?_, ?_⟩
  · rw [hr, ← h5]
    simp
  · intro hk
    have ht : v.keepsTag V = true := by
      rcases hk with ⟨s, rfl⟩ | ⟨b, rfl⟩ | ⟨i, rfl⟩ <;> rfl
    rw [hr, h5.2 ht]

/-- C1 amended, at the float `2.5` with the library that tags by value: it is tagged
`'f'` and comes back as the float `2.5`. -/
theorem C1_scalar_round_trip_witness :
    (Object.float ⟨4612811918334230528⟩).keepsTag valueByValue = true ∧
    roundTrip valueByValue slotEnd (.float ⟨4612811918334230528⟩)
      = .ok (.float ⟨4612811918334230528⟩) :=
  ⟨rfl, (C1_scalar_round_trip valueByValue slotEnd (.float ⟨4612811918334230528⟩) rfl).2.1.2
    rfl⟩

/-! ## Facts about the converters -/

/-- The detection of a flattened map never fails, and holds exactly for an odd column
count with the sentinel string in cell 0. -/
theorem isMapArray_spec (cells : List MupValue) :
    ∃ b, isMapArray cells = .ok b ∧
      (b = true ↔ cells.length % 2 = 1 ∧ cells.head? = some (.str mapTypeId)) := by
  unfold isMapArray GetCols At
  by_cases hodd : cells.length % 2 = 1
  · rcases cells with _ | ⟨c, cs⟩
    · simp at hodd
    · have hodd2 : (cs.length + 1) % 2 = 1 := by simpa using hodd
      cases c <;> simp [hodd2, MupValue.GetType]
  · simp [hodd]

/-- The conversion loop succeeds with `vec` exactly when each cell converts to the element
of `vec` at its index. -/
theorem mupValuesToObjects_iff (slot : Slot) :
    ∀ (cells : List MupValue) (vec : List Object),
      mupValuesToObjects slot cells = .ok vec ↔
        List.Forall₂ (fun c o => mupValueToObject slot c = .ok o) cells vec
  | [], vec => by
      cases vec <;> simp [mupValuesToObjects]
  | c :: cs, vec => by
      rw [mupValuesToObjects]
      cases hc : mupValueToObject slot c with
      | error f =>
        cases vec <;> simp [hc]
      | ok o =>
        cases hcs : mupValuesToObjects slot cs with
        | error f =>
          cases vec with
          | nil => simp
          | cons o2 os =>
            have := mupValuesToObjects_iff slot cs os
            simp [hc, hcs] at this ⊢
            intro _
            exact this
        | ok os2 =>
          cases vec with
          | nil => simp
          | cons o2 os =>
            have := mupValuesToObjects_iff slot cs os
            simp [hc, hcs] at this ⊢
            intro _
            exact this

/-- The map loop run over `n` consecutive values of `i` from `k` on: when `vec` holds the
key and the value of the `j`-th pair at `(k + j) * 2 + 1` and `(k + j) * 2 + 2`, the loop
assigns the pairs in order. -/
theorem fillMap_pairs (slot : Slot) (vec : List Object) :
    ∀ (pairs : List (Object × Object)) (k : Nat) (m : ProxyMap),
      (∀ j (hj : j < pairs.length),
        vec[(k + j) * 2 + 1]? = some pairs[j].1 ∧ vec[(k + j) * 2 + 2]? = some pairs[j].2) →
      fillMap slot vec (List.range' k pairs.length) m
        = .ok (pairs.foldl (fun acc e => ProxyMap.assign slot acc e.1 e.2) m)
  | [], k, m, _ => by simp [fillMap]
  | e :: rest, k, m, h => by
      have h0 := h 0 (by simp)
      simp only [Nat.add_zero, List.getElem_cons_zero] at h0
      have hrest := fillMap_pairs slot vec rest (k + 1) (ProxyMap.assign slot m e.1 e.2)
        (by
          intro j hj
          have := h (j + 1) (by simp; omega)
          simp only [List.getElem_cons_succ] at this
          have e1 : k + 1 + j = k + (j + 1) := by omega
          rw [e1]
          exact this)
      simp only [List.length_cons, List.range', List.foldl_cons]
      rw [fillMap]
      simp only [vecAt, h0.1, h0.2]
      exact hrest

/-- An array of at least `2 * n + 1` elements holds `n` pairs after its first element. -/
theorem pairs_of_vec (vec : List Object) :
    ∀ n, 2 * n + 1 ≤ vec.length →
      ∃ pairs : List (Object × Object), pairs.length = n ∧
        ∀ j (hj : j < pairs.length),
          vec[j * 2 + 1]? = some pairs[j].1 ∧ vec[j * 2 + 2]? = some pairs[j].2
  | 0, _ => ⟨[], rfl, by intro j hj; simp at hj⟩
  | n + 1, h => by
      obtain ⟨pairs, hlen, hp⟩ := pairs_of_vec vec n (by omega)
      have h1 : n * 2 + 1 < vec.length := by omega
      have h2 : n * 2 + 2 < vec.length := by omega
      refine ⟨pairs ++ [(vec[n * 2 + 1], vec[n * 2 + 2])], by simp [hlen], ?_⟩
      intro j hj
      by_cases hjn : j < pairs.length
      · have := hp j hjn
        simp only [List.getElem_append_left hjn]
        exact this
      · have hj2 : j = n := by
          simp at hj
          omega
        subst hj2
        have hle : pairs.length ≤ j := by omega
        simp only [List.getElem_append_right hle, hlen, Nat.sub_self, List.getElem_cons_zero]
        exact ⟨List.getElem?_eq_getElem h1, List.getElem?_eq_getElem h2⟩

/-! ## Arrays: sequence or flattened map -/

/-- An array with an odd column count and the sentinel in cell 0, whose cells convert to
`vec`, becomes the map assigned from the pairs that follow element 0 of `vec`. -/
theorem matrix_map_case (slot : Slot) (cells : List MupValue) (vec : List Object)
    (hcells : List.Forall₂ (fun c o => mupValueToObject slot c = .ok o) cells vec)
    (hcond : cells.length % 2 = 1 ∧ cells.head? = some (.str mapTypeId)) :
    ∃ pairs : List (Object × Object),
      pairs.length = (cells.length - 1) / 2 ∧
      (∀ j (hj : j < pairs.length),
        vec[j * 2 + 1]? = some pairs[j].1 ∧ vec[j * 2 + 2]? = some pairs[j].2) ∧
      mupValueToObject slot (.matrix cells)
        = .ok (.map (pairs.foldl (fun acc e => ProxyMap.assign slot acc e.1 e.2) [])) := by
  have hlen : cells.length = vec.length := hcells.length_eq
  have hvec : mupValuesToObjects slot cells = .ok vec :=
    (mupValuesToObjects_iff slot cells vec).2 hcells
  obtain ⟨b, hb, hiff⟩ := isMapArray_spec cells
  have hbt : b = true := hiff.2 hcond
  subst hbt
  obtain ⟨pairs, hpl, hp⟩ := pairs_of_vec vec ((cells.length - 1) / 2) (by omega)
  refine ⟨pairs, hpl, hp, ?_⟩
  have hfill := fillMap_pairs slot vec pairs 0 [] (by
    intro j hj
    simpa using hp j hj)
  have hr : List.range (vec.length / 2) = List.range' 0 pairs.length := by
    rw [List.range_eq_range', hpl]
    congr 1
    omega
  rw [mupValueToObject]
  simp only [hb, hvec, hr, hfill, Bool.not_true, Bool.false_eq_true, if_false]

/-- An array that has an even column count, or whose cell 0 is not the sentinel, and whose
cells convert to `vec`, becomes the sequence `vec`. -/
theorem matrix_seq_case (slot : Slot) (cells : List MupValue) (vec : List Object)
    (hcells : List.Forall₂ (fun c o => mupValueToObject slot c = .ok o) cells vec)
    (hcond : ¬ (cells.length % 2 = 1 ∧ cells.head? = some (.str mapTypeId))) :
    mupValueToObject slot (.matrix cells) = .ok (.vec vec) := by
  have hvec : mupValuesToObjects slot cells = .ok vec :=
    (mupValuesToObjects_iff slot cells vec).2 hcells
  obtain ⟨b, hb, hiff⟩ := isMapArray_spec cells
  have hbf : b = false := by
    cases b with
    | false => rfl
    | true => exact absurd (hiff.1 rfl) hcond
  subst hbf
  rw [mupValueToObject]
  simp [hb, hvec]

/-- C4: for an array whose cells convert (cell `i` to `vec[i]`), `mupValueToObject` returns
a map if and only if the column count is odd and cell 0 is the string `mapTypeId`. In that
case the map is built by assigning, for `j = 0 .. (cols - 1) / 2 - 1` in order, the
converted cell `j * 2 + 1` as key to the converted cell `j * 2 + 2` as value. Otherwise the
result is the sequence `vec`, which has exactly `cols` elements, the `i`-th being the
conversion of cell `i`. -/
theorem C4_array_to_object (slot : Slot) (cells : List MupValue) (vec : List Object)
    (hcells : List.Forall₂ (fun c o => mupValueToObject slot c = .ok o) cells vec) :
    ((cells.length % 2 = 1 ∧ cells.head? = some (.str mapTypeId)) →
        ∃ pairs : List (Object × Object),
          pairs.length = (cells.length - 1) / 2 ∧
          (∀ j (hj : j < pairs.length),
            vec[j * 2 + 1]? = some pairs[j].1 ∧ vec[j * 2 + 2]? = some pairs[j].2) ∧
          mupValueToObject slot (.matrix cells)
            = .ok (.map (pairs.foldl (fun acc e => ProxyMap.assign slot acc e.1 e.2) []))) ∧
    (¬ (cells.length % 2 = 1 ∧ cells.head? = some (.str mapTypeId)) →
        mupValueToObject slot (.matrix cells) = .ok (.vec vec) ∧ vec.length = cells.length) ∧
    ((∃ m, mupValueToObject slot (.matrix cells) = .ok (.map m)) ↔
        (cells.length % 2 = 1 ∧ cells.head? = some (.str mapTypeId))) := by
  refine ⟨matrix_map_case slot cells vec hcells, ?_, ?_⟩
  · intro hcond
    exact ⟨matrix_seq_case slot cells vec hcells hcond, hcells.length_eq.symm⟩
  · constructor
    · rintro ⟨m, hm⟩
      by_contra hcond
      rw [matrix_seq_case slot cells vec hcells hcond] at hm
      simp at hm
    · intro hcond
      obtain ⟨pairs, _, _, hres⟩ := matrix_map_case slot cells vec hcells hcond
      exact ⟨_, hres⟩

/-- C4, at the array `[mapTypeId, 1, 2]`, which decodes to a map. -/
theorem C4_array_to_object_witness :
    List.Forall₂ (fun c o => mupValueToObject slotEnd c = .ok o)
      [.str mapTypeId, .int 1, .int 2] [.str mapTypeId, .int 1, .int 2] ∧
    ((∃ m, mupValueToObject slotEnd (.matrix [.str mapTypeId, .int 1, .int 2]) = .ok (.map m)) ↔
      ([MupValue.str mapTypeId, .int 1, .int 2].length % 2 = 1 ∧
        [MupValue.str mapTypeId, .int 1, .int 2].head? = some (.str mapTypeId))) :=
  ⟨.cons rfl (.cons rfl (.cons rfl .nil)),
    (C4_array_to_object slotEnd [.str mapTypeId, .int 1, .int 2]
      [.str mapTypeId, .int 1, .int 2] (.cons rfl (.cons rfl (.cons rfl .nil)))).2.2⟩

/-! ## Round trip of sequences and maps of scalars -/

/-- A sequence of scalars is encoded cell by cell, the cells decode to the round trips of
the elements, and cell 0 is the sentinel string exactly when the first element is. -/
theorem objectsToMupValues_scalars (V : ValueLib) (slot : Slot) :
    ∀ xs : List Object, (∀ x ∈ xs, x.isScalar = true) →
      ∃ cells ys, objectsToMupValues V xs = .ok cells ∧
        mupValuesToObjects slot cells = .ok ys ∧
        List.Forall₂ (fun x y => roundTrip V slot x = .ok y) xs ys ∧
        (cells.head? = some (.str mapTypeId) ↔ xs.head? = some (.str mapTypeId)) ∧
        ((∀ x ∈ xs, x.keepsTag V = true) → ys = xs)
  | [], _ => ⟨[], [], by simp [objectsToMupValues, mupValuesToObjects]⟩
  | x :: xs, h => by
      obtain ⟨cells, ys, h1, h2, h3, _, h5⟩ :=
        objectsToMupValues_scalars V slot xs (fun y hy => h y (List.mem_cons_of_mem _ hy))
      obtain ⟨c, y, g1, g2, _, g4, g5⟩ :=
        scalar_encode V slot x (h x (List.mem_cons_self _ _))
      refine ⟨c :: cells, y :: ys, by simp [objectsToMupValues, g1, h1],
        by simp [mupValuesToObjects, g2, h2],
        .cons (by simp only [roundTrip, g1, g2]) h3, by simpa using g4, ?_⟩
      intro ht
      rw [g5.2 (ht x (List.mem_cons_self _ _)),
        h5 (fun z hz => ht z (List.mem_cons_of_mem _ hz))]

/-- C2 fails as stated, in two ways. The sequence `[mapTypeId, 1, 2]` of three scalars
comes back from the round trip as the map `{1: 2}`, not as a sequence. And with a library
that tags a `double` by value, the sequence `[2.0]` comes back as `[2]`, a sequence whose
element is an integer. -/
theorem C2_counterexample :
    (∀ x ∈ [Object.str mapTypeId, .int 1, .int 2], x.isScalar = true) ∧
    roundTrip valueByValue slotEnd (.vec [.str mapTypeId, .int 1, .int 2])
      = .ok (.map [(.int 1, .int 2)]) ∧
    roundTrip valueByValue slotEnd (.vec [.str mapTypeId, .int 1, .int 2])
      ≠ .ok (.vec [.str mapTypeId, .int 1, .int 2]) ∧
    roundTrip valueByValue slotEnd (.vec [.float ⟨4611686018427387904⟩])
      = .ok (.vec [.int 2]) ∧
    roundTrip valueByValue slotEnd (.vec [.float ⟨4611686018427387904⟩])
      ≠ .ok (.vec [.float ⟨4611686018427387904⟩]) := by
  refine ⟨?_, rfl, ?_, rfl, ?_⟩
  · intro x hx
    simp at hx
    rcases hx with rfl | rfl | rfl <;> rfl
  · intro h
    have h2 : roundTrip valueByValue slotEnd (.vec [.str mapTypeId, .int 1, .int 2])
        = .ok (.map [(.int 1, .int 2)]) := rfl
    rw [h2] at h
    simp at h
  · intro h
    have h2 : roundTrip valueByValue slotEnd (.vec [.float ⟨4611686018427387904⟩])
        = .ok (.vec [.int 2]) := rfl
    rw [h2] at h
    simp at h

/-- C2, amended: a sequence of scalars that does not both have odd length and start with
the string `mapTypeId` comes back from the round trip as a sequence of the round trips of
its elements, in order; it comes back as the same sequence when every float and complex
number in it is built by `mup::Value` with the tag of its kind. -/
theorem C2_sequence_round_trip (V : ValueLib) (slot : Slot) (xs : List Object)
    (hs : ∀ x ∈ xs, x.isScalar = true)
    (hno : ¬ (xs.length % 2 = 1 ∧ xs.head? = some (.str mapTypeId))) :
    (∃ ys, roundTrip V slot (.vec xs) = .ok (.vec ys) ∧
      List.Forall₂ (fun x y => roundTrip V slot x = .ok y) xs ys) ∧
    ((∀ x ∈ xs, x.keepsTag V = true) → roundTrip V slot (.vec xs) = .ok (.vec xs)) := by
  obtain ⟨cells, ys, h1, h2, h3, h4, h5⟩ := objectsToMupValues_scalars V slot xs hs
  have hcells := (mupValuesToObjects_iff slot cells ys).1 h2
  have hno2 : ¬ (cells.length % 2 = 1 ∧ cells.head? = some (.str mapTypeId)) := by
    rw [hcells.length_eq, ← h3.length_eq, h4]
    exact hno
  have hres := matrix_seq_case slot cells ys hcells hno2
  have hr : roundTrip V slot (.vec xs) = .ok (.vec ys) := by
    simp [roundTrip, objectToMupValue, h1, hres]
  refine ⟨⟨ys, hr, h3⟩, ?_⟩
  intro ht
  rw [hr, h5 ht]

/-- C2 amended, at the sequence `[true, 2.5, "x"]` with the library that tags by value. -/
theorem C2_sequence_round_trip_witness :
    roundTrip valueByValue slotEnd (.vec [.bool true, .float ⟨4612811918334230528⟩, .str "x"])
      = .ok (.vec [.bool true, .float ⟨4612811918334230528⟩, .str "x"]) :=
  (C2_sequence_round_trip valueByValue slotEnd
      [.bool true, .float ⟨4612811918334230528⟩, .str "x"]
    (by
      intro x hx
      simp at hx
      rcases hx with rfl | rfl | rfl <;> rfl)
    (by
      intro h
      have := h.2
      simp at this)).2
    (by
      intro x hx
      simp at hx
      rcases hx with rfl | rfl | rfl <;> rfl)

/-- A key is present exactly when some entry has it. -/
theorem hasKey_iff (m : ProxyMap) (k : Object) :
    m.hasKey k = true ↔ ∃ e ∈ m, e.1 = k := by
  simp [ProxyMap.hasKey, List.any_eq_true]

/-- Inserting a new entry adds it to the entries, wherever the key order puts it. -/
theorem insertNew_perm (slot : Slot) (m : ProxyMap) (k v : Object) :
    (ProxyMap.insertNew slot m k v).Perm ((k, v) :: m) := by
  unfold ProxyMap.insertNew
  have h := @List.perm_middle _ (k, v) (m.take (slot k m)) (m.drop (slot k m))
  rw [List.take_append_drop] at h
  exact h

/-- Assigning entries with pairwise distinct keys, none of them present before, adds
exactly these entries. -/
theorem foldl_assign_perm (slot : Slot) :
    ∀ (l : List (Object × Object)) (m : ProxyMap),
      (l.map Prod.fst).Nodup → (∀ e ∈ l, m.hasKey e.1 = false) →
      (l.foldl (fun acc e => ProxyMap.assign slot acc e.1 e.2) m).Perm (m ++ l)
  | [], m, _, _ => by simp
  | e :: rest, m, hnd, hfresh => by
      have hk : m.hasKey e.1 = false := hfresh e (List.mem_cons_self _ _)
      have hassign : ProxyMap.assign slot m e.1 e.2 = ProxyMap.insertNew slot m e.1 e.2 := by
        simp [ProxyMap.assign, hk]
      have hperm := insertNew_perm slot m e.1 e.2
      simp only [List.map_cons, List.nodup_cons] at hnd
      have hfresh2 : ∀ x ∈ rest, (ProxyMap.insertNew slot m e.1 e.2).hasKey x.1 = false := by
        intro x hx
        cases hcase : (ProxyMap.insertNew slot m e.1 e.2).hasKey x.1 with
        | false => rfl
        | true =>
          exfalso
          obtain ⟨y, hy, hyk⟩ := (hasKey_iff _ _).1 hcase
          have hy2 : y ∈ (e.1, e.2) :: m := hperm.mem_iff.1 hy
          rcases List.mem_cons.1 hy2 with rfl | hym
          · exact hnd.1 (List.mem_map.2 ⟨x, hx, hyk.symm⟩)
          · have hmx : m.hasKey x.1 = true := (hasKey_iff _ _).2 ⟨y, hym, hyk⟩
            rw [hfresh x (List.mem_cons_of_mem _ hx)] at hmx
            exact Bool.noConfusion hmx
      have ih := foldl_assign_perm slot rest (ProxyMap.insertNew slot m e.1 e.2) hnd.2 hfresh2
      simp only [List.foldl_cons, hassign]
      refine ih.trans ?_
      have h1 : (ProxyMap.insertNew slot m e.1 e.2 ++ rest).Perm (((e.1, e.2) :: m) ++ rest) :=
        hperm.append_right rest
      refine h1.trans ?_
      simp only [List.cons_append]
      exact (@List.perm_middle _ (e.1, e.2) m rest).symm

/-- The keys and values of the entries, flattened in order, sit at the even and odd
indices. -/
theorem flatten_getElem :
    ∀ (l : List (Object × Object)) (j : Nat) (hj : j < l.length),
      (l.flatMap (fun e => [e.1, e.2]))[j * 2]? = some l[j].1 ∧
      (l.flatMap (fun e => [e.1, e.2]))[j * 2 + 1]? = some l[j].2
  | [], j, hj => by simp at hj
  | e :: rest, 0, _ => by simp [List.flatMap_cons]
  | e :: rest, j + 1, hj => by
      have ih := flatten_getElem rest j (by simpa using hj)
      have e1 : (j + 1) * 2 = (j * 2) + 1 + 1 := by omega
      have e2 : (j + 1) * 2 + 1 = (j * 2 + 1) + 1 + 1 := by omega
      simp only [List.flatMap_cons, List.cons_append, List.nil_append, List.getElem_cons_succ]
      rw [e2, e1]
      simpa using ih

/-- The entries of a map convert pair by pair: when every key and value converts, the
cells after the sentinel hold the converted key of entry `i` at `2 * i` and its
converted value at `2 * i + 1`. -/
theorem pairsToMupValues_spec (V : ValueLib) :
    ∀ m : List (Object × Object),
      (∀ e ∈ m, (∃ a, objectToMupValue V e.1 = .ok a) ∧ (∃ b, objectToMupValue V e.2 = .ok b)) →
      ∃ cells, pairsToMupValues V m = .ok cells ∧ cells.length = 2 * m.length ∧
        ∀ i (hi : i < m.length), ∃ a b,
          cells[2 * i]? = some a ∧ cells[2 * i + 1]? = some b ∧
          objectToMupValue V m[i].1 = .ok a ∧ objectToMupValue V m[i].2 = .ok b
  | [], _ => ⟨[], by simp [pairsToMupValues]⟩
  | (k, v) :: rest, h => by
      obtain ⟨cells, h1, h2, h3⟩ :=
        pairsToMupValues_spec V rest (fun e he => h e (List.mem_cons_of_mem _ he))
      obtain ⟨⟨a, ha⟩, ⟨b, hb⟩⟩ := h (k, v) (List.mem_cons_self _ _)
      refine ⟨a :: b :: cells, by simp [pairsToMupValues, ha, hb, h1], by simp [h2]; omega, ?_⟩
      intro i hi
      cases i with
      | zero => exact ⟨a, b, by simp, by simp, ha, hb⟩
      | succ i =>
        obtain ⟨a2, b2, g1, g2, g3, g4⟩ := h3 i (by simpa using hi)
        refine ⟨a2, b2, ?_, ?_, by simpa using g3, by simpa using g4⟩
        · have e1 : 2 * (i + 1) = (2 * i) + 1 + 1 := by omega
          rw [e1]
          simpa using g1
        · have e2 : 2 * (i + 1) + 1 = (2 * i + 1) + 1 + 1 := by omega
          rw [e2]
          simpa using g2

/-- C5: for a map with `M` entries whose keys and values convert, `objectToMupValue`
returns an array of exactly `2 * M + 1` cells, with the string `mapTypeId` in cell 0 and,
for the `i`-th entry in iteration order, the converted key in cell `2 * i + 1` and the
converted value in cell `2 * i + 2`. -/
theorem C5_map_to_array (V : ValueLib) (m : List (Object × Object))
    (hm : ∀ e ∈ m, (∃ a, objectToMupValue V e.1 = .ok a) ∧ (∃ b, objectToMupValue V e.2 = .ok b)) :
    ∃ cells, objectToMupValue V (.map m) = .ok (.matrix cells) ∧
      cells.length = 2 * m.length + 1 ∧
      cells[0]? = some (.str mapTypeId) ∧
      ∀ i (hi : i < m.length), ∃ a b,
        cells[2 * i + 1]? = some a ∧ cells[2 * i + 2]? = some b ∧
        objectToMupValue V m[i].1 = .ok a ∧ objectToMupValue V m[i].2 = .ok b := by
  obtain ⟨cells, h1, h2, h3⟩ := pairsToMupValues_spec V m hm
  refine ⟨.str mapTypeId :: cells, by simp [objectToMupValue, h1], by simp [h2], by simp, ?_⟩
  intro i hi
  obtain ⟨a, b, g1, g2, g3, g4⟩ := h3 i hi
  exact ⟨a, b, by simpa using g1, by simpa using g2, g3, g4⟩

/-- C5, at the map `{1: [3], "k": true}`. -/
theorem C5_map_to_array_witness :
    ∃ cells, objectToMupValue valueByValue
        (.map [(.int 1, .vec [.int 3]), (.str "k", .bool true)])
        = .ok (.matrix cells) ∧
      cells.length = 2 * [(Object.int 1, Object.vec [.int 3]), (.str "k", .bool true)].length + 1 ∧
      cells[0]? = some (.str mapTypeId) ∧
      ∀ i (hi : i < [(Object.int 1, Object.vec [.int 3]), (.str "k", .bool true)].length),
        ∃ a b, cells[2 * i + 1]? = some a ∧ cells[2 * i + 2]? = some b ∧
          objectToMupValue valueByValue
            [(Object.int 1, Object.vec [.int 3]), (.str "k", .bool true)][i].1
            = .ok a ∧
          objectToMupValue valueByValue
            [(Object.int 1, Object.vec [.int 3]), (.str "k", .bool true)][i].2
            = .ok b :=
  C5_map_to_array valueByValue [(.int 1, .vec [.int 3]), (.str "k", .bool true)] (by
    intro e he
    simp at he
    rcases he with rfl | rfl
    · exact ⟨⟨_, rfl⟩, ⟨_, rfl⟩⟩
    · exact ⟨⟨_, rfl⟩, ⟨_, rfl⟩⟩)

/-- A scalar whose value is built with the tag of its kind is encoded as a parser value
that decodes to it. -/
theorem scalar_decode (V : ValueLib) (slot : Slot) (v : Object) (hv : v.isScalar = true)
    (ht : v.keepsTag V = true) :
    ∃ n, objectToMupValue V v = .ok n ∧ mupValueToObject slot n = .ok v := by
  obtain ⟨c, y, h1, h2, _, _, h5⟩ := scalar_encode V slot v hv
  have hy := h5.2 ht
  subst hy
  exact ⟨c, h1, h2⟩

/-- The entries of a map of scalars that keep their tags are encoded pair by pair, and the
cells decode to the keys and values in order. -/
theorem pairsToMupValues_scalars (V : ValueLib) (slot : Slot) :
    ∀ m : List (Object × Object),
      (∀ e ∈ m, e.1.isScalar = true ∧ e.2.isScalar = true) →
      (∀ e ∈ m, e.1.keepsTag V = true ∧ e.2.keepsTag V = true) →
      ∃ cells, pairsToMupValues V m = .ok cells ∧
        mupValuesToObjects slot cells = .ok (m.flatMap (fun e => [e.1, e.2])) ∧
        cells.length = 2 * m.length
  | [], _, _ => ⟨[], by simp [pairsToMupValues, mupValuesToObjects]⟩
  | (k, v) :: rest, h, ht => by
      obtain ⟨cells, h1, h2, h3⟩ :=
        pairsToMupValues_scalars V slot rest (fun e he => h e (List.mem_cons_of_mem _ he))
          (fun e he => ht e (List.mem_cons_of_mem _ he))
      obtain ⟨hk, hv⟩ := h (k, v) (List.mem_cons_self _ _)
      obtain ⟨tk, tv⟩ := ht (k, v) (List.mem_cons_self _ _)
      obtain ⟨a, ha, ha2⟩ := scalar_decode V slot k hk tk
      obtain ⟨b, hb, hb2⟩ := scalar_decode V slot v hv tv
      refine ⟨a :: b :: cells, by simp [pairsToMupValues, ha, hb, h1], ?_, by simp [h3]; omega⟩
      simp [mupValuesToObjects, ha2, hb2, h2, List.flatMap_cons]

/-- C3 fails as stated: with a library that tags a `double` by value, the map `{1: 2.0}`
comes back from the round trip as `{1: 2}`, a map whose one entry is another key/value
pair. -/
theorem C3_counterexample :
    (∀ e ∈ [(Object.int 1, Object.float ⟨4611686018427387904⟩)],
      e.1.isScalar = true ∧ e.2.isScalar = true) ∧
    roundTrip valueByValue slotEnd (.map [(.int 1, .float ⟨4611686018427387904⟩)])
      = .ok (.map [(.int 1, .int 2)]) ∧
    (Object.int 1, Object.float ⟨4611686018427387904⟩) ∉ [(Object.int 1, Object.int 2)] := by
  refine ⟨?_, rfl, by simp⟩
  intro e he
  simp at he
  subst he
  exact ⟨rfl, rfl⟩

/-- C3, amended: a map whose keys and values are scalars, each float and complex number
among them built by `mup::Value` with the tag of its kind, comes back from the round trip
as a map with exactly the same entries, in whatever order the key order gives them. The
entries of a `std::map` have pairwise distinct keys (`hkeys`). -/
theorem C3_map_round_trip (V : ValueLib) (slot : Slot) (m : List (Object × Object))
    (hs : ∀ e ∈ m, e.1.isScalar = true ∧ e.2.isScalar = true)
    (ht : ∀ e ∈ m, e.1.keepsTag V = true ∧ e.2.keepsTag V = true)
    (hkeys : (m.map Prod.fst).Nodup) :
    ∃ m2, roundTrip V slot (.map m) = .ok (.map m2) ∧ m2.Perm m ∧ ∀ e, e ∈ m2 ↔ e ∈ m := by
  obtain ⟨cells, h1, h2, h3⟩ := pairsToMupValues_scalars V slot m hs ht
  have hperm := foldl_assign_perm slot m [] hkeys (by intro e _; rfl)
  simp only [List.nil_append] at hperm
  refine ⟨_, ?_, hperm, fun e => hperm.mem_iff⟩
  obtain ⟨b, hb, hiff⟩ := isMapArray_spec (.str mapTypeId :: cells)
  have hbt : b = true := hiff.2 ⟨by simp [h3]; omega, by simp⟩
  subst hbt
  have hvec : mupValuesToObjects slot (.str mapTypeId :: cells)
      = .ok (.str mapTypeId :: m.flatMap (fun e => [e.1, e.2])) := by
    rw [mupValuesToObjects]
    simp [mupValueToObject, h2]
  have hflat : (m.flatMap (fun e => [e.1, e.2])).length = 2 * m.length := by
    have := (mupValuesToObjects_iff slot cells _).1 h2
    rw [← this.length_eq, h3]
  have hfill := fillMap_pairs slot (.str mapTypeId :: m.flatMap (fun e => [e.1, e.2])) m 0 []
    (by
      intro j hj
      have := flatten_getElem m j hj
      simpa using this)
  have hr : List.range ((Object.str mapTypeId :: m.flatMap (fun e => [e.1, e.2])).length / 2)
      = List.range' 0 m.length := by
    rw [List.range_eq_range']
    congr 1
    simp only [List.length_cons, hflat]
    omega
  simp only [roundTrip, objectToMupValue, h1]
  rw [mupValueToObject]
  simp only [hb, hvec, hr, hfill, Bool.not_true, Bool.false_eq_true, if_false]

/-- C3 amended, at the map `{1: 2.5, "k": true}` with the library that tags by value. -/
theorem C3_map_round_trip_witness :
    ∃ m2, roundTrip valueByValue slotEnd
        (.map [(.int 1, .float ⟨4612811918334230528⟩), (.str "k", .bool true)])
        = .ok (.map m2) ∧
      m2.Perm [(.int 1, .float ⟨4612811918334230528⟩), (.str "k", .bool true)] ∧
      ∀ e, e ∈ m2 ↔
        e ∈ [(Object.int 1, Object.float ⟨4612811918334230528⟩), (.str "k", .bool true)] :=
  C3_map_round_trip valueByValue slotEnd
    [(.int 1, .float ⟨4612811918334230528⟩), (.str "k", .bool true)]
    (by
      intro e he
      simp at he
      rcases he with rfl | rfl <;> exact ⟨rfl, rfl⟩)
    (by
      intro e he
      simp at he
      rcases he with rfl | rfl <;> exact ⟨rfl, rfl⟩)
    (by simp)

/-! ## Kinds outside the enumerated sets -/

mutual
/-- The only failure of `mupValueToObject` is the `assert` of line 37: no exception is
thrown and no cell or element is read out of range. -/
theorem mupValueToObject_error (slot : Slot) :
    ∀ (v : MupValue) (f : Failure), mupValueToObject slot v = .error f → f = .assertion
  | .bool _, f, h => by simp [mupValueToObject] at h
  | .int _, f, h => by simp [mupValueToObject] at h
  | .float _, f, h => by simp [mupValueToObject] at h
  | .cmplx _, f, h => by simp [mupValueToObject] at h
  | .str _, f, h => by simp [mupValueToObject] at h
  | .void, f, h => by
      simp [mupValueToObject] at h
      exact h.symm
  | .matrix cells, f, h => by
      rw [mupValueToObject] at h
      obtain ⟨b, hb, hiff⟩ := isMapArray_spec cells
      rw [hb] at h
      cases hvec : mupValuesToObjects slot cells with
      | error g =>
        rw [hvec] at h
        simp only [Except.error.injEq] at h
        subst h
        exact mupValuesToObjects_error slot cells g hvec
      | ok vec =>
        rw [hvec] at h
        cases b with
        | false => simp at h
        | true =>
          exfalso
          have hlen : cells.length = vec.length :=
            ((mupValuesToObjects_iff slot cells vec).1 hvec).length_eq
          have hodd := (hiff.1 rfl).1
          obtain ⟨pairs, hpl, hp⟩ := pairs_of_vec vec (vec.length / 2) (by omega)
          have hfill := fillMap_pairs slot vec pairs 0 [] (by
            intro j hj
            simpa using hp j hj)
          rw [hpl, ← List.range_eq_range'] at hfill
          simp [hfill] at h
/-- The only failure of the conversion loop is the `assert` of line 37. -/
theorem mupValuesToObjects_error (slot : Slot) :
    ∀ (cells : List MupValue) (f : Failure),
      mupValuesToObjects slot cells = .error f → f = .assertion
  | [], f, h => by simp [mupValuesToObjects] at h
  | c :: cs, f, h => by
      rw [mupValuesToObjects] at h
      cases hc : mupValueToObject slot c with
      | error g =>
        rw [hc] at h
        simp only [Except.error.injEq] at h
        subst h
        exact mupValueToObject_error slot c g hc
      | ok o =>
        rw [hc] at h
        cases hcs : mupValuesToObjects slot cs with
        | error g =>
          rw [hcs] at h
          simp only [Except.error.injEq] at h
          subst h
          exact mupValuesToObjects_error slot cs g hcs
        | ok os =>
          rw [hcs] at h
          simp at h
end

/-- C6 fails on the code: the value of type tag `'v'`, which is none of the six tags the
switch lists, is not answered with an "unknown type" exception. The exception of the
`default` branch is built but not thrown, and the call ends in the `assert` of line 37. -/
theorem C6_void_not_thrown :
    MupValue.void.GetType ∉ ['b', 'i', 'f', 'c', 's', 'm'] ∧
    mupValueToObject slotEnd .void = .error .assertion ∧
    ∀ ex, mupValueToObject slotEnd .void ≠ .error (.exception ex) :=
  ⟨by decide, rfl, fun ex => by simp [mupValueToObject]⟩

mutual
/-- The conversion of an object succeeds when it is `supported`, and otherwise throws
"unknown type". -/
theorem objectToMupValue_cases (V : ValueLib) :
    ∀ o : Object,
      (o.supported = true → ∃ n, objectToMupValue V o = .ok n) ∧
      (o.supported = false → ∃ t, objectToMupValue V o
          = .error (.exception
              (.make "EvalEnvironment::objectToMupValue()" ("unknown type " ++ t))))
  | .str _ => by simp [Object.supported, objectToMupValue]
  | .float _ => by simp [Object.supported, objectToMupValue]
  | .bool _ => by simp [Object.supported, objectToMupValue]
  | .int _ => by simp [Object.supported, objectToMupValue]
  | .cmplx _ => by simp [Object.supported, objectToMupValue]
  | .other t => by
      simp [Object.supported, objectToMupValue]
      exact ⟨t, rfl⟩
  | .vec xs => by
      obtain ⟨h1, h2⟩ := objectsToMupValues_cases V xs
      constructor
      · intro h
        obtain ⟨cells, hc⟩ := h1 (by simpa [Object.supported] using h)
        exact ⟨.matrix cells, by simp [objectToMupValue, hc]⟩
      · intro h
        obtain ⟨t, ht⟩ := h2 (by simpa [Object.supported] using h)
        exact ⟨t, by simp [objectToMupValue, ht]⟩
  | .map m => by
      obtain ⟨h1, h2⟩ := pairsToMupValues_cases V m
      constructor
      · intro h
        obtain ⟨cells, hc⟩ := h1 (by simpa [Object.supported] using h)
        exact ⟨.matrix (.str mapTypeId :: cells), by simp [objectToMupValue, hc]⟩
      · intro h
        obtain ⟨t, ht⟩ := h2 (by simpa [Object.supported] using h)
        exact ⟨t, by simp [objectToMupValue, ht]⟩
/-- The element loop succeeds when every element is `supported`, and otherwise throws
"unknown type". -/
theorem objectsToMupValues_cases (V : ValueLib) :
    ∀ xs : List Object,
      (Object.supportedList xs = true → ∃ cells, objectsToMupValues V xs = .ok cells) ∧
      (Object.supportedList xs = false → ∃ t, objectsToMupValues V xs
          = .error (.exception
              (.make "EvalEnvironment::objectToMupValue()" ("unknown type " ++ t))))
  | [] => by simp [Object.supportedList, objectsToMupValues]
  | x :: xs => by
      obtain ⟨h1, h2⟩ := objectToMupValue_cases V x
      obtain ⟨g1, g2⟩ := objectsToMupValues_cases V xs
      cases hx : Object.supported x with
      | false =>
        obtain ⟨t, ht⟩ := h2 hx
        simp [Object.supportedList, objectsToMupValues, hx, ht]
        exact ⟨t, rfl⟩
      | true =>
        obtain ⟨n, hn⟩ := h1 hx
        cases hxs : Object.supportedList xs with
        | false =>
          obtain ⟨t, ht⟩ := g2 hxs
          simp [Object.supportedList, objectsToMupValues, hx, hn, hxs, ht]
          exact ⟨t, rfl⟩
        | true =>
          obtain ⟨cells, hc⟩ := g1 hxs
          simp [Object.supportedList, objectsToMupValues, hx, hn, hxs, hc]
/-- The entry loop succeeds when every key and value is `supported`, and otherwise throws
"unknown type". -/
theorem pairsToMupValues_cases (V : ValueLib) :
    ∀ m : List (Object × Object),
      (Object.supportedPairs m = true → ∃ cells, pairsToMupValues V m = .ok cells) ∧
      (Object.supportedPairs m = false → ∃ t, pairsToMupValues V m
          = .error (.exception
              (.make "EvalEnvironment::objectToMupValue()" ("unknown type " ++ t))))
  | [] => by simp [Object.supportedPairs, pairsToMupValues]
  | (k, v) :: rest => by
      obtain ⟨h1, h2⟩ := objectToMupValue_cases V k
      obtain ⟨h3, h4⟩ := objectToMupValue_cases V v
      obtain ⟨g1, g2⟩ := pairsToMupValues_cases V rest
      cases hk : Object.supported k with
      | false =>
        obtain ⟨t, ht⟩ := h2 hk
        simp [Object.supportedPairs, pairsToMupValues, hk, ht]
        exact ⟨t, rfl⟩
      | true =>
        obtain ⟨a, ha⟩ := h1 hk
        cases hv : Object.supported v with
        | false =>
          obtain ⟨t, ht⟩ := h4 hv
          simp [Object.supportedPairs, pairsToMupValues, hk, ha, hv, ht]
          exact ⟨t, rfl⟩
        | true =>
          obtain ⟨b, hb⟩ := h3 hv
          cases hr : Object.supportedPairs rest with
          | false =>
            obtain ⟨t, ht⟩ := g2 hr
            simp [Object.supportedPairs, pairsToMupValues, hk, ha, hv, hb, hr, ht]
            exact ⟨t, rfl⟩
          | true =>
            obtain ⟨cells, hc⟩ := g1 hr
            simp [Object.supportedPairs, pairsToMupValues, hk, ha, hv, hb, hr, hc]
end

/-- C7: `objectToMupValue` throws "unknown type" exactly when the object, or an element,
key or value nested in it at any depth, is of a variant other than string, float, boolean,
integer, complex, sequence and map; and it returns a value exactly when the object is
built only from those variants. -/
theorem C7_unknown_type_iff (V : ValueLib) (o : Object) :
    ((∃ t, objectToMupValue V o
        = .error (.exception
            (.make "EvalEnvironment::objectToMupValue()" ("unknown type " ++ t))))
      ↔ o.supported = false) ∧
    ((∃ n, objectToMupValue V o = .ok n) ↔ o.supported = true) := by
  obtain ⟨h1, h2⟩ := objectToMupValue_cases V o
  constructor
  · constructor
    · rintro ⟨t, ht⟩
      cases hs : o.supported with
      | false => rfl
      | true =>
        obtain ⟨n, hn⟩ := h1 hs
        rw [hn] at ht
        simp at ht
    · exact h2
  · constructor
    · rintro ⟨n, hn⟩
      cases hs : o.supported with
      | true => rfl
      | false =>
        obtain ⟨t, ht⟩ := h2 hs
        rw [ht] at hn
        simp at hn
    · exact h1

/-! ## The evaluator: the empty expression -/

/-- The text after the name in the message of line 152 has no closing parenthesis. -/
theorem no_paren (e rest : List Char) : e ++ ')' :: rest ≠ ": expression is empty".data := by
  intro h
  have hmem : ')' ∈ ": expression is empty".data := by
    rw [← h]
    simp
  revert hmem
  decide

/-- A message that starts with the name of a non-empty expression is not the message of
line 152. -/
theorem name_message_ne (expr : String) (h : expr.data ≠ []) (rest : List Char) :
    "EvalEnvironment::eval(".data ++ (expr.data ++ ')' :: rest)
      ≠ "EvalEnvironment::eval(): expression is empty".data := by
  intro heq
  have ht : "EvalEnvironment::eval(): expression is empty".data
      = "EvalEnvironment::eval(".data ++ (')' :: ": expression is empty".data) := by decide
  rw [ht] at heq
  have h2 := List.append_cancel_left heq
  rcases hd : expr.data with _ | ⟨c, e⟩
  · exact h hd
  · rw [hd] at h2
    simp only [List.cons_append, List.cons.injEq] at h2
    exact no_paren e rest h2.2

/-- The message of an exception made under the name of `expr`. -/
theorem make_evalName_data (expr arg : String) :
    ∃ rest, (Exception.make (evalName expr) arg).message.data
      = "EvalEnvironment::eval(".data ++ (expr.data ++ ')' :: rest) ∧
      (arg.data ≠ [] → rest = ": ".data ++ arg.data) := by
  by_cases ha : arg.data = []
  · refine ⟨[], ?_, fun h => absurd ha h⟩
    simp only [Exception.make, ha, if_true, evalName, String.data_append, List.append_assoc]
  · refine ⟨": ".data ++ arg.data, ?_, fun _ => rfl⟩
    simp only [Exception.make, ha, if_false, evalName, String.data_append, List.append_assoc]
    rfl

/-- An exception made under the name of a non-empty expression is not the exception of
line 152. -/
theorem make_evalName_ne (expr arg : String) (h : expr.data ≠ []) :
    Exception.make (evalName expr) arg
      ≠ Exception.make "EvalEnvironment::eval()" "expression is empty" := by
  intro heq
  obtain ⟨rest, hrest, _⟩ := make_evalName_data expr arg
  rw [heq] at hrest
  exact name_message_ne expr h rest hrest.symm

/-- The exception "not key:value" is not the exception of line 152, whatever the token. -/
theorem make_not_key_value_ne (tok : String) :
    Exception.make (evalName tok) "not key:value"
      ≠ Exception.make "EvalEnvironment::eval()" "expression is empty" := by
  by_cases h : tok.data = []
  · have ht : tok = "" := String.ext_iff.2 h
    subst ht
    decide
  · exact make_evalName_ne tok _ h

/-- A failure passed through a handler of a non-empty expression is not the exception of
line 152. -/
theorem rethrow_ne (expr : String) (h : expr.data ≠ []) (f : Failure) :
    rethrow expr f
      ≠ .exception (.make "EvalEnvironment::eval()" "expression is empty") := by
  cases f <;> simp [rethrow]
  exact make_evalName_ne expr _ h

/-- The list loop of a non-empty expression does not end in the exception of line 152. -/
theorem evalListLoop_ne (ev : ParserX → String → Result Object × ParserX) (expr : String)
    (h : expr.data ≠ []) :
    ∀ (toks : List String) (vec : List Object) (p : ParserX),
      (evalListLoop ev expr toks vec p).1
        ≠ .error (.exception (.make "EvalEnvironment::eval()" "expression is empty"))
  | [], vec, p => by simp [evalListLoop]
  | tok :: rest, vec, p => by
      rw [evalListLoop]
      rcases hev : ev p tok with ⟨r, p1⟩
      cases r with
      | error f =>
        simp only [Except.error.injEq, ne_eq]
        exact rethrow_ne expr h f
      | ok o => exact evalListLoop_ne ev expr h rest _ p1

/-- The map loop of a non-empty expression does not end in the exception of line 152. -/
theorem evalMapLoop_ne (L : Lib) (ev : ParserX → String → Result Object × ParserX)
    (expr : String) (h : expr.data ≠ []) :
    ∀ (toks : List String) (map : ProxyMap) (p : ParserX),
      (evalMapLoop L ev expr toks map p).1
        ≠ .error (.exception (.make "EvalEnvironment::eval()" "expression is empty"))
  | [], map, p => by simp [evalMapLoop]
  | tok :: rest, map, p => by
      rw [evalMapLoop]
      split
      · rename_i k v hkv
        rcases hk : ev p k with ⟨r, p1⟩
        cases r with
        | error f =>
          simp only [Except.error.injEq, ne_eq]
          exact rethrow_ne expr h f
        | ok key =>
          simp only
          rcases hv : ev p1 v with ⟨r2, p2⟩
          cases r2 with
          | error f =>
            simp only [Except.error.injEq, ne_eq]
            exact rethrow_ne expr h f
          | ok val => exact evalMapLoop_ne L ev expr h rest _ p2
      · simp only [ne_eq, Except.error.injEq, Failure.exception.injEq]
        exact make_not_key_value_ne tok

/-- The parser mode of a non-empty expression does not end in the exception of line 152. -/
theorem evalParser_ne (L : Lib) (p : ParserX) (expr : String) (h : expr.data ≠ []) :
    (evalParser L p expr).1
      ≠ .error (.exception (.make "EvalEnvironment::eval()" "expression is empty")) := by
  unfold evalParser
  simp only
  cases hE : L.Eval p.consts expr with
  | error msg =>
    simp only [ne_eq, Except.error.injEq, Failure.exception.injEq]
    exact make_evalName_ne expr msg h
  | ok result =>
    simp only
    cases hr : mupValueToObject L.slot result with
    | ok o => simp
    | error f =>
      cases f with
      | exception ex =>
        exact Failure.noConfusion (mupValueToObject_error L.slot result _ hr)
      | parserError msg =>
        simp only [ne_eq, Except.error.injEq, Failure.exception.injEq]
        exact make_evalName_ne expr msg h
      | assertion => simp
      | outOfRange => simp
      | fuel => simp

/-- C8: `eval("")` throws "expression is empty" and leaves the parser as it was, its
constant table and the texts handed to `SetExpr` included, whatever the parser would
answer; and `eval` of a non-empty expression never throws that exception from its own
frame. -/
theorem C8_empty_expression (L : Lib) (p : ParserX) :
    EvalEnvironment.eval L p ""
      = (.error (.exception (.make "EvalEnvironment::eval()" "expression is empty")), p) ∧
    ∀ expr : String, expr ≠ "" →
      (EvalEnvironment.eval L p expr).1
        ≠ .error (.exception (.make "EvalEnvironment::eval()" "expression is empty")) := by
  refine ⟨rfl, ?_⟩
  intro expr hne
  have h : expr.data ≠ [] := by
    intro hd
    exact hne (String.ext_iff.2 hd)
  unfold EvalEnvironment.eval
  rw [evalFuel]
  simp only [h, if_false]
  split_ifs
  · exact evalListLoop_ne _ expr h _ _ _
  · exact evalMapLoop_ne L _ expr h _ _ _
  · exact evalParser_ne L p expr h

/-- C8, at the parser of the examples and the expression `"7"`. -/
theorem C8_empty_expression_witness :
    ("7" : String) ≠ "" ∧
    (EvalEnvironment.eval libSmall ⟨[], []⟩ "7").1
      ≠ .error (.exception (.make "EvalEnvironment::eval()" "expression is empty")) :=
  ⟨by decide, (C8_empty_expression libSmall ⟨[], []⟩).2 "7" (by decide)⟩

/-! ## The evaluator: the constant table and the budget -/

/-- The list loop depends on the parser only through its constant table, which it keeps,
when `ev` does. -/
theorem evalListLoop_consts (ev : ParserX → String → Result Object × ParserX) (expr : String)
    (hev : ∀ (p q : ParserX) (t : String), p.consts = q.consts →
      (ev p t).1 = (ev q t).1 ∧ (ev p t).2.consts = p.consts) :
    ∀ (toks : List String) (vec : List Object) (p q : ParserX), p.consts = q.consts →
      (evalListLoop ev expr toks vec p).1 = (evalListLoop ev expr toks vec q).1 ∧
      (evalListLoop ev expr toks vec p).2.consts = p.consts
  | [], vec, p, q, _ => by simp [evalListLoop]
  | tok :: rest, vec, p, q, hpq => by
      have h1 := hev p q tok hpq
      have h2 := hev q p tok hpq.symm
      rw [evalListLoop, evalListLoop]
      rcases hp : ev p tok with ⟨r, p1⟩
      rcases hq : ev q tok with ⟨r2, q1⟩
      rw [hp, hq] at h1
      rw [hq, hp] at h2
      simp only at h1 h2
      obtain ⟨hr, hp1⟩ := h1
      subst hr
      cases r with
      | error f => exact ⟨rfl, hp1⟩
      | ok o =>
        have ih := evalListLoop_consts ev expr hev rest (vec ++ [o]) p1 q1
          (by rw [hp1, h2.2, hpq])
        exact ⟨ih.1, by rw [ih.2, hp1]⟩

/-- The map loop depends on the parser only through its constant table, which it keeps,
when `ev` does. -/
theorem evalMapLoop_consts (L : Lib) (ev : ParserX → String → Result Object × ParserX)
    (expr : String)
    (hev : ∀ (p q : ParserX) (t : String), p.consts = q.consts →
      (ev p t).1 = (ev q t).1 ∧ (ev p t).2.consts = p.consts) :
    ∀ (toks : List String) (map : ProxyMap) (p q : ParserX), p.consts = q.consts →
      (evalMapLoop L ev expr toks map p).1 = (evalMapLoop L ev expr toks map q).1 ∧
      (evalMapLoop L ev expr toks map p).2.consts = p.consts
  | [], map, p, q, _ => by simp [evalMapLoop]
  | tok :: rest, map, p, q, hpq => by
      rw [evalMapLoop, evalMapLoop]
      split
      · rename_i k v hkv
        have h1 := hev p q k hpq
        have h2 := hev q p k hpq.symm
        rcases hp : ev p k with ⟨r, p1⟩
        rcases hq : ev q k with ⟨r2, q1⟩
        rw [hp, hq] at h1
        rw [hq, hp] at h2
        simp only at h1 h2
        obtain ⟨hr, hp1⟩ := h1
        subst hr
        cases r with
        | error f => exact ⟨rfl, hp1⟩
        | ok key =>
          simp only
          have hpq1 : p1.consts = q1.consts := by rw [hp1, h2.2, hpq]
          have h3 := hev p1 q1 v hpq1
          have h4 := hev q1 p1 v hpq1.symm
          rcases hp2 : ev p1 v with ⟨s, p2⟩
          rcases hq2 : ev q1 v with ⟨s2, q2⟩
          rw [hp2, hq2] at h3
          rw [hq2, hp2] at h4
          simp only at h3 h4
          obtain ⟨hs, hp2c⟩ := h3
          subst hs
          cases s with
          | error f => exact ⟨rfl, by rw [hp2c, hp1]⟩
          | ok val =>
            have ih := evalMapLoop_consts L ev expr hev rest
              (ProxyMap.emplace L.slot map key val) p2 q2 (by rw [hp2c, h4.2, hpq1])
            exact ⟨ih.1, by rw [ih.2, hp2c, hp1]⟩
      · exact ⟨rfl, rfl⟩

/-- The parser mode depends on the parser only through its constant table, and keeps the
constant table. -/
theorem evalParser_consts (L : Lib) (p q : ParserX) (expr : String)
    (hpq : p.consts = q.consts) :
    (evalParser L p expr).1 = (evalParser L q expr).1 ∧
    (evalParser L p expr).2.consts = p.consts := by
  unfold evalParser
  simp only [hpq]
  cases L.Eval q.consts expr with
  | error msg => exact ⟨rfl, rfl⟩
  | ok result =>
    simp only
    cases mupValueToObject L.slot result with
    | ok o => exact ⟨rfl, rfl⟩
    | error f => cases f <;> exact ⟨rfl, rfl⟩

/-- The method `eval` depends on the parser only through its constant table, and keeps
the constant table. -/
theorem evalFuel_consts (L : Lib) :
    ∀ (n : Nat) (p q : ParserX) (expr : String), p.consts = q.consts →
      (evalFuel L n p expr).1 = (evalFuel L n q expr).1 ∧
      (evalFuel L n p expr).2.consts = p.consts
  | 0, p, q, expr, _ => by simp [evalFuel]
  | n + 1, p, q, expr, hpq => by
      rw [evalFuel, evalFuel]
      split_ifs
      · exact ⟨rfl, rfl⟩
      · exact evalListLoop_consts _ expr (evalFuel_consts L n) _ _ p q hpq
      · exact evalMapLoop_consts L _ expr (evalFuel_consts L n) _ _ p q hpq
      · exact evalParser_consts L p q expr hpq

/-- The list loop is the same under two evaluators that agree on its tokens. -/
theorem evalListLoop_congr (ev1 ev2 : ParserX → String → Result Object × ParserX)
    (expr : String) :
    ∀ (toks : List String) (vec : List Object) (p : ParserX),
      (∀ t ∈ toks, ∀ q, ev1 q t = ev2 q t) →
      evalListLoop ev1 expr toks vec p = evalListLoop ev2 expr toks vec p
  | [], vec, p, _ => by simp [evalListLoop]
  | tok :: rest, vec, p, h => by
      rw [evalListLoop, evalListLoop, h tok (List.mem_cons_self _ _) p]
      rcases ev2 p tok with ⟨r, p1⟩
      cases r with
      | error f => rfl
      | ok o =>
        exact evalListLoop_congr ev1 ev2 expr rest _ p1
          (fun t ht => h t (List.mem_cons_of_mem _ ht))

/-- The map loop is the same under two evaluators that agree on the parts of its
tokens. -/
theorem evalMapLoop_congr (L : Lib) (ev1 ev2 : ParserX → String → Result Object × ParserX)
    (expr : String) :
    ∀ (toks : List String) (map : ProxyMap) (p : ParserX),
      (∀ t ∈ toks, ∀ s ∈ L.splitExpr t ':', ∀ q, ev1 q s = ev2 q s) →
      evalMapLoop L ev1 expr toks map p = evalMapLoop L ev2 expr toks map p
  | [], map, p, _ => by simp [evalMapLoop]
  | tok :: rest, map, p, h => by
      rw [evalMapLoop, evalMapLoop]
      split
      · rename_i k v hkv
        have hk := h tok (List.mem_cons_self _ _) k (by simp [hkv])
        have hv := h tok (List.mem_cons_self _ _) v (by simp [hkv])
        rw [hk p]
        rcases ev2 p k with ⟨r, p1⟩
        cases r with
        | error f => rfl
        | ok key =>
          simp only
          rw [hv p1]
          rcases ev2 p1 v with ⟨s, p2⟩
          cases s with
          | error f => rfl
          | ok val =>
            exact evalMapLoop_congr L ev1 ev2 expr rest _ p2
              (fun t ht => h t (List.mem_cons_of_mem _ ht))
      · rfl

/-- A wrapped expression has at least two characters. -/
theorem wrappedIn_length (a b : Char) (expr : String) (h : wrappedIn a b expr = true) :
    2 ≤ expr.length := by
  simp [wrappedIn] at h
  exact h.1.1

/-- The text between the first and the last character is two characters shorter. -/
theorem noBrackets_length (expr : String) : (noBrackets expr).length = expr.length - 2 := by
  show ((expr.data.drop 1).take (expr.data.length - 2)).length = expr.data.length - 2
  rw [List.length_take, List.length_drop]
  omega

/-- A token of the body of a wrapped expression is shorter than the expression. -/
theorem token_lt (L : Lib) (a b : Char) (expr : String) (h : wrappedIn a b expr = true)
    (d : Char) (t : String) (ht : t ∈ L.splitExpr (noBrackets expr) d) :
    t.length < expr.length := by
  have h1 := L.splitExpr_le _ _ _ ht
  have h2 := noBrackets_length expr
  have h3 := wrappedIn_length a b expr h
  omega

/-- The outcome of `eval` is the same under every budget above the length of the
expression. -/
theorem evalFuel_budget (L : Lib) :
    ∀ (n m : Nat) (p : ParserX) (expr : String), expr.length < n → expr.length < m →
      evalFuel L n p expr = evalFuel L m p expr
  | 0, _, _, _, h, _ => by omega
  | _ + 1, 0, _, _, _, h => by omega
  | n + 1, m + 1, p, expr, hn, hm => by
      rw [evalFuel, evalFuel]
      split_ifs with h1 h2 h3
      · rfl
      · apply evalListLoop_congr
        intro t ht q
        have := token_lt L _ _ expr h2 _ t ht
        exact evalFuel_budget L n m q t (by omega) (by omega)
      · apply evalMapLoop_congr
        intro t ht s hs q
        have h4 := token_lt L _ _ expr h3 _ t ht
        have h5 := L.splitExpr_le _ _ _ hs
        exact evalFuel_budget L n m q s (by omega) (by omega)
      · rfl

/-- A handler never turns a failure into the exhausted budget. -/
theorem rethrow_fuel (expr : String) (f : Failure) (h : rethrow expr f = .fuel) :
    f = .fuel := by
  cases f <;> simp [rethrow] at h ⊢

/-- The list loop does not exhaust the budget when `ev` does not on its tokens. -/
theorem evalListLoop_ne_fuel (ev : ParserX → String → Result Object × ParserX)
    (expr : String) :
    ∀ (toks : List String) (vec : List Object) (p : ParserX),
      (∀ t ∈ toks, ∀ q, (ev q t).1 ≠ .error .fuel) →
      (evalListLoop ev expr toks vec p).1 ≠ .error .fuel
  | [], vec, p, _ => by simp [evalListLoop]
  | tok :: rest, vec, p, h => by
      have h1 := h tok (List.mem_cons_self _ _) p
      rw [evalListLoop]
      rcases hev : ev p tok with ⟨r, p1⟩
      rw [hev] at h1
      cases r with
      | error f =>
        simp only [ne_eq, Except.error.injEq] at h1 ⊢
        exact fun hf => h1 (rethrow_fuel expr f hf)
      | ok o =>
        exact evalListLoop_ne_fuel ev expr rest _ p1
          (fun t ht => h t (List.mem_cons_of_mem _ ht))

/-- The map loop does not exhaust the budget when `ev` does not on the parts of its
tokens. -/
theorem evalMapLoop_ne_fuel (L : Lib) (ev : ParserX → String → Result Object × ParserX)
    (expr : String) :
    ∀ (toks : List String) (map : ProxyMap) (p : ParserX),
      (∀ t ∈ toks, ∀ s ∈ L.splitExpr t ':', ∀ q, (ev q s).1 ≠ .error .fuel) →
      (evalMapLoop L ev expr toks map p).1 ≠ .error .fuel
  | [], map, p, _ => by simp [evalMapLoop]
  | tok :: rest, map, p, h => by
      rw [evalMapLoop]
      split
      · rename_i k v hkv
        have hk := h tok (List.mem_cons_self _ _) k (by simp [hkv]) p
        rcases hevk : ev p k with ⟨r, p1⟩
        rw [hevk] at hk
        cases r with
        | error f =>
          simp only [ne_eq, Except.error.injEq] at hk ⊢
          exact fun hf => hk (rethrow_fuel expr f hf)
        | ok key =>
          simp only
          have hv := h tok (List.mem_cons_self _ _) v (by simp [hkv]) p1
          rcases hevv : ev p1 v with ⟨s, p2⟩
          rw [hevv] at hv
          cases s with
          | error f =>
            simp only [ne_eq, Except.error.injEq] at hv ⊢
            exact fun hf => hv (rethrow_fuel expr f hf)
          | ok val =>
            exact evalMapLoop_ne_fuel L ev expr rest _ p2
              (fun t ht => h t (List.mem_cons_of_mem _ ht))
      · simp

/-- A budget above the length of the expression is never used up. -/
theorem evalFuel_ne_fuel (L : Lib) :
    ∀ (n : Nat) (p : ParserX) (expr : String), expr.length < n →
      (evalFuel L n p expr).1 ≠ .error .fuel
  | 0, _, _, h => by omega
  | n + 1, p, expr, hn => by
      rw [evalFuel]
      split_ifs with h1 h2 h3
      · simp
      · apply evalListLoop_ne_fuel
        intro t ht q
        have := token_lt L _ _ expr h2 _ t ht
        exact evalFuel_ne_fuel L n q t (by omega)
      · apply evalMapLoop_ne_fuel
        intro t ht s hs q
        have h4 := token_lt L _ _ expr h3 _ t ht
        have h5 := L.splitExpr_le _ _ _ hs
        exact evalFuel_ne_fuel L n q s (by omega)
      · unfold evalParser
        simp only
        cases L.Eval p.consts expr with
        | error msg => simp
        | ok result =>
          simp only
          cases hr : mupValueToObject L.slot result with
          | ok o => simp
          | error f =>
            have := mupValueToObject_error L.slot result f hr
            subst this
            simp

/-- The budget that `EvalEnvironment.eval` starts with is never used up: every failure of
the model is a failure of the program. -/
theorem eval_ne_fuel (L : Lib) (p : ParserX) (expr : String) :
    (EvalEnvironment.eval L p expr).1 ≠ .error .fuel :=
  evalFuel_ne_fuel L (expr.length + 1) p expr (Nat.lt_succ_self _)

/-- A nested call of `eval` returns what a call of `eval` from outside returns, in every
parser with the same constant table. -/
theorem evalFuel_eq_eval (L : Lib) (n : Nat) (p q : ParserX) (t : String)
    (hn : t.length < n) (hpq : q.consts = p.consts) :
    (evalFuel L n q t).1 = (EvalEnvironment.eval L p t).1 ∧
    (evalFuel L n q t).2.consts = p.consts := by
  have h1 := evalFuel_budget L n (t.length + 1) q t hn (by omega)
  have h2 := evalFuel_consts L (t.length + 1) q p t hpq
  unfold EvalEnvironment.eval
  rw [h1]
  exact ⟨h2.1, by rw [h2.2, hpq]⟩

/-! ## The evaluator: list literals -/

/-- The list loop over tokens that all evaluate: the results are appended in token
order. -/
theorem evalListLoop_ok (L : Lib) (n : Nat) (p : ParserX) (expr : String) :
    ∀ (toks : List String) (vec : List Object) (q : ParserX), q.consts = p.consts →
      (∀ t ∈ toks, t.length < n) →
      (∀ t ∈ toks, ∃ o, (EvalEnvironment.eval L p t).1 = .ok o) →
      ∃ objs, (evalListLoop (evalFuel L n) expr toks vec q).1 = .ok (.vec (vec ++ objs)) ∧
        List.Forall₂ (fun t o => (EvalEnvironment.eval L p t).1 = .ok o) toks objs
  | [], vec, q, _, _, _ => ⟨[], by simp [evalListLoop]⟩
  | tok :: rest, vec, q, hq, hlen, hok => by
      obtain ⟨o, ho⟩ := hok tok (List.mem_cons_self _ _)
      have h1 := evalFuel_eq_eval L n p q tok (hlen tok (List.mem_cons_self _ _)) hq
      rw [evalListLoop]
      rcases hev : evalFuel L n q tok with ⟨r, q1⟩
      rw [hev] at h1
      simp only at h1
      rw [ho] at h1
      obtain ⟨hr, hq1⟩ := h1
      subst hr
      obtain ⟨objs, h2, h3⟩ := evalListLoop_ok L n p expr rest (vec ++ [o]) q1 hq1
        (fun t ht => hlen t (List.mem_cons_of_mem _ ht))
        (fun t ht => hok t (List.mem_cons_of_mem _ ht))
      refine ⟨o :: objs, ?_, .cons ho h3⟩
      simp only [h2]
      simp

/-- C9: for an expression of length at least 2 that starts with `[` and ends with `]`, if
`eval` succeeds on every token of `splitExpr` of the text between the brackets, split at
`,`, then `eval` returns a sequence with one element per token, the `i`-th element being
`eval` of the `i`-th token. -/
theorem C9_list_literal (L : Lib) (p : ParserX) (expr : String)
    (hb : inBrackets expr = true)
    (hok : ∀ tok ∈ L.splitExpr (noBrackets expr) ',',
      ∃ o, (EvalEnvironment.eval L p tok).1 = .ok o) :
    ∃ vec, (EvalEnvironment.eval L p expr).1 = .ok (.vec vec) ∧
      vec.length = (L.splitExpr (noBrackets expr) ',').length ∧
      List.Forall₂ (fun tok o => (EvalEnvironment.eval L p tok).1 = .ok o)
        (L.splitExpr (noBrackets expr) ',') vec := by
  have hlen := wrappedIn_length _ _ expr hb
  have hne : expr.data ≠ [] := by
    intro h
    simp [String.length, h] at hlen
  obtain ⟨objs, h1, h2⟩ := evalListLoop_ok L expr.length p expr
    (L.splitExpr (noBrackets expr) ',') [] p rfl
    (fun t ht => token_lt L _ _ expr hb _ t ht) hok
  refine ⟨objs, ?_, h2.length_eq.symm, h2⟩
  unfold EvalEnvironment.eval
  rw [evalFuel]
  simp only [hne, if_false, hb, if_true]
  simpa using h1

/-- C9, at `"[1,[2,3],4]"` with the splitter modelled from the spec: the result is the
nested sequence. -/
theorem C9_list_literal_witness :
    inBrackets "[1,[2,3],4]" = true ∧
    ∃ vec, (EvalEnvironment.eval libSmall ⟨[], []⟩ "[1,[2,3],4]").1 = .ok (.vec vec) ∧
      vec.length = (libSmall.splitExpr (noBrackets "[1,[2,3],4]") ',').length ∧
      List.Forall₂ (fun tok o => (EvalEnvironment.eval libSmall ⟨[], []⟩ tok).1 = .ok o)
        (libSmall.splitExpr (noBrackets "[1,[2,3],4]") ',') vec :=
  ⟨by decide, C9_list_literal libSmall ⟨[], []⟩ "[1,[2,3],4]" (by decide) (by
    intro tok htok
    have hs : libSmall.splitExpr (noBrackets "[1,[2,3],4]") ',' = ["1", "[2,3]", "4"] := by
      decide
    rw [hs] at htok
    simp at htok
    rcases htok with rfl | rfl | rfl
    · exact ⟨_, rfl⟩
    · exact ⟨_, rfl⟩
    · exact ⟨_, rfl⟩)⟩

/-! ## The evaluator: map literals -/

/-- An expression in braces is not in brackets. -/
theorem not_inBrackets_of_inBraces (expr : String) (h : inBraces expr = true) :
    inBrackets expr = false := by
  cases hb : inBrackets expr with
  | false => rfl
  | true =>
    simp only [inBraces, inBrackets, wrappedIn, Bool.and_eq_true, beq_iff_eq] at h hb
    have h1 := h.1.2
    rw [hb.1.2] at h1
    simp at h1

/-- The map loop reaches a token that does not split into two parts, when the tokens
before it split into a key and a value that both evaluate, and throws "not key:value"
under the name of that token. -/
theorem evalMapLoop_bad (L : Lib) (n : Nat) (p : ParserX) (expr tok : String)
    (post : List String) (hbad : (L.splitExpr tok ':').length ≠ 2) :
    ∀ (pre : List String) (map : ProxyMap) (q : ParserX), q.consts = p.consts →
      (∀ t ∈ pre, ∀ s ∈ L.splitExpr t ':', s.length < n) →
      (∀ t ∈ pre, ∃ k v, L.splitExpr t ':' = [k, v] ∧
        (∃ a, (EvalEnvironment.eval L p k).1 = .ok a) ∧
        (∃ b, (EvalEnvironment.eval L p v).1 = .ok b)) →
      (evalMapLoop L (evalFuel L n) expr (pre ++ tok :: post) map q).1
        = .error (.exception (.make (evalName tok) "not key:value"))
  | [], map, q, _, _, _ => by
      rw [List.nil_append, evalMapLoop]
      split
      · rename_i k v hkv
        simp [hkv] at hbad
      · rfl
  | t :: pre, map, q, hq, hlen, hpre => by
      obtain ⟨k, v, hkv, ⟨a, ha⟩, ⟨b, hb⟩⟩ := hpre t (List.mem_cons_self _ _)
      have hk := evalFuel_eq_eval L n p q k
        (hlen t (List.mem_cons_self _ _) k (by simp [hkv])) hq
      rw [List.cons_append, evalMapLoop]
      simp only [hkv]
      rcases hevk : evalFuel L n q k with ⟨r, q1⟩
      rw [hevk] at hk
      simp only at hk
      rw [ha] at hk
      obtain ⟨hr, hq1⟩ := hk
      subst hr
      simp only
      have hv := evalFuel_eq_eval L n p q1 v
        (hlen t (List.mem_cons_self _ _) v (by simp [hkv])) hq1
      rcases hevv : evalFuel L n q1 v with ⟨s, q2⟩
      rw [hevv] at hv
      simp only at hv
      rw [hb] at hv
      obtain ⟨hs, hq2⟩ := hv
      subst hs
      exact evalMapLoop_bad L n p expr tok post hbad pre _ q2 hq2
        (fun t2 ht2 => hlen t2 (List.mem_cons_of_mem _ ht2))
        (fun t2 ht2 => hpre t2 (List.mem_cons_of_mem _ ht2))

/-- C10 fails as stated: in `{x:1,2}` the token `2` does not split at `:` into two
parts, yet `eval` does not fail with "not key:value". The token `x:1` comes first, its key
`x` is no constant, and `eval` fails with the parser error of `x`, thrown again under the
name of the whole expression. -/
theorem C10_counterexample :
    inBraces "\x7bx:1,2\x7d" = true ∧
    "2" ∈ libSmall.splitExpr (noBrackets "\x7bx:1,2\x7d") ',' ∧
    (libSmall.splitExpr "2" ':').length ≠ 2 ∧
    (EvalEnvironment.eval libSmall ⟨[], []⟩ "\x7bx:1,2\x7d").1
      = .error (.exception (.make "EvalEnvironment::eval(\x7bx:1,2\x7d)"
          "EvalEnvironment::eval(x): Undefined token x")) ∧
    ∀ tok : String, (EvalEnvironment.eval libSmall ⟨[], []⟩ "\x7bx:1,2\x7d").1
      ≠ .error (.exception (.make (evalName tok) "not key:value")) := by
  refine ⟨by decide, by decide, by decide, rfl, ?_⟩
  intro tok h
  have h2 : (EvalEnvironment.eval libSmall ⟨[], []⟩ "\x7bx:1,2\x7d").1
      = .error (.exception (.make "EvalEnvironment::eval(\x7bx:1,2\x7d)"
          "EvalEnvironment::eval(x): Undefined token x")) := rfl
  rw [h2] at h
  simp only [Except.error.injEq, Failure.exception.injEq] at h
  obtain ⟨rest, hrest, hr⟩ := make_evalName_data tok "not key:value"
  rw [← h, hr (by decide)] at hrest
  have hlast := congrArg List.getLast? hrest
  have hsplit : (')' :: (": ".data ++ "not key:value".data))
      = ("): not key:valu".data ++ ['e']) := by decide
  rw [hsplit, ← List.append_assoc, ← List.append_assoc, List.getLast?_concat] at hlast
  revert hlast
  decide

/-- C10, amended: for an expression of length at least 2 that starts with `{` and ends
with `}`, if a token of the body does not split at `:` into exactly two parts, and every
token before it splits into exactly two parts that both evaluate, then `eval` fails with
"not key:value" under the name of that token. -/
theorem C10_not_key_value (L : Lib) (p : ParserX) (expr : String)
    (hb : inBraces expr = true) (pre : List String) (tok : String) (post : List String)
    (hsplit : L.splitExpr (noBrackets expr) ',' = pre ++ tok :: post)
    (hpre : ∀ t ∈ pre, ∃ k v, L.splitExpr t ':' = [k, v] ∧
      (∃ a, (EvalEnvironment.eval L p k).1 = .ok a) ∧
      (∃ b, (EvalEnvironment.eval L p v).1 = .ok b))
    (hbad : (L.splitExpr tok ':').length ≠ 2) :
    (EvalEnvironment.eval L p expr).1
      = .error (.exception (.make (evalName tok) "not key:value")) := by
  have hlen := wrappedIn_length _ _ expr hb
  have hne : expr.data ≠ [] := by
    intro h
    simp [String.length, h] at hlen
  have hnb := not_inBrackets_of_inBraces expr hb
  have hloop := evalMapLoop_bad L expr.length p expr tok post hbad pre [] p rfl
    (by
      intro t ht s hs
      have h1 := token_lt L _ _ expr hb ',' t (by rw [hsplit]; simp [ht])
      have h2 := L.splitExpr_le _ _ _ hs
      omega)
    hpre
  unfold EvalEnvironment.eval
  rw [evalFuel]
  simp only [hne, if_false, hnb, Bool.false_eq_true, hb, if_true, hsplit]
  exact hloop

/-- C10 amended, at `{1}` and at `{1:2,3}` with the splitter modelled from the spec. -/
theorem C10_not_key_value_witness :
    (inBraces "\x7b1\x7d" = true ∧
      libSmall.splitExpr (noBrackets "\x7b1\x7d") ',' = [] ++ "1" :: [] ∧
      (libSmall.splitExpr "1" ':').length ≠ 2 ∧
      (EvalEnvironment.eval libSmall ⟨[], []⟩ "\x7b1\x7d").1
        = .error (.exception (.make (evalName "1") "not key:value"))) ∧
    (inBraces "\x7b1:2,3\x7d" = true ∧
      libSmall.splitExpr (noBrackets "\x7b1:2,3\x7d") ',' = ["1:2"] ++ "3" :: [] ∧
      (libSmall.splitExpr "3" ':').length ≠ 2 ∧
      (EvalEnvironment.eval libSmall ⟨[], []⟩ "\x7b1:2,3\x7d").1
        = .error (.exception (.make (evalName "3") "not key:value"))) :=
  ⟨⟨by decide, by decide, by decide,
    C10_not_key_value libSmall ⟨[], []⟩ "\x7b1\x7d" (by decide) [] "1" [] (by decide)
      (by intro t ht; simp at ht) (by decide)⟩,
   ⟨by decide, by decide, by decide,
    C10_not_key_value libSmall ⟨[], []⟩ "\x7b1:2,3\x7d" (by decide) ["1:2"] "3" [] (by decide)
      (by
        intro t ht
        simp at ht
        subst ht
        exact ⟨"1", "2", by decide, ⟨_, rfl⟩, ⟨_, rfl⟩⟩)
      (by decide)⟩⟩

/-! ## Entries of a map after insertions -/

/-- The entries after inserting a new entry: the new one and the old ones. -/
theorem insertNew_mem (slot : Slot) (m : ProxyMap) (k v : Object) (e : Object × Object) :
    e ∈ ProxyMap.insertNew slot m k v ↔ e = (k, v) ∨ e ∈ m := by
  rw [(insertNew_perm slot m k v).mem_iff, List.mem_cons]

/-- Inserting a key that is not present keeps the keys pairwise distinct. -/
theorem insertNew_nodup (slot : Slot) (m : ProxyMap) (k v : Object)
    (hm : (m.map Prod.fst).Nodup) (hk : m.hasKey k = false) :
    ((ProxyMap.insertNew slot m k v).map Prod.fst).Nodup := by
  rw [((insertNew_perm slot m k v).map Prod.fst).nodup_iff, List.map_cons, List.nodup_cons]
  refine ⟨?_, hm⟩
  intro hmem
  obtain ⟨e, he, hek⟩ := List.mem_map.1 hmem
  have : m.hasKey k = true := (hasKey_iff m k).2 ⟨e, he, hek⟩
  rw [hk] at this
  exact Bool.noConfusion this

/-- The call `map.emplace(k, v)`: the keys stay pairwise distinct, the old entries stay,
and `(k, v)` is added exactly when `k` was not present. -/
theorem emplace_spec (slot : Slot) (m : ProxyMap) (k v : Object)
    (hm : (m.map Prod.fst).Nodup) :
    ((ProxyMap.emplace slot m k v).map Prod.fst).Nodup ∧
    ∀ e, e ∈ ProxyMap.emplace slot m k v ↔ e ∈ m ∨ (m.hasKey k = false ∧ e = (k, v)) := by
  unfold ProxyMap.emplace
  cases hk : m.hasKey k with
  | true => simp [hm]
  | false =>
    refine ⟨by simpa using insertNew_nodup slot m k v hm hk, ?_⟩
    intro e
    simp only [Bool.false_eq_true, if_false, insertNew_mem, true_and]
    exact Or.comm

/-- The statement `map[k] = v`: the keys stay pairwise distinct, `k` is bound to `v`, and
the entries of the other keys stay. -/
theorem assign_spec (slot : Slot) (m : ProxyMap) (k v : Object)
    (hm : (m.map Prod.fst).Nodup) :
    ((ProxyMap.assign slot m k v).map Prod.fst).Nodup ∧
    ∀ e, e ∈ ProxyMap.assign slot m k v ↔ e = (k, v) ∨ (e.1 ≠ k ∧ e ∈ m) := by
  unfold ProxyMap.assign
  cases hk : m.hasKey k with
  | false =>
    refine ⟨by simpa using insertNew_nodup slot m k v hm hk, ?_⟩
    intro e
    simp only [Bool.false_eq_true, if_false, insertNew_mem]
    constructor
    · rintro (h | h)
      · exact Or.inl h
      · refine Or.inr ⟨?_, h⟩
        intro hek
        have : m.hasKey k = true := (hasKey_iff m k).2 ⟨e, h, hek⟩
        rw [hk] at this
        exact Bool.noConfusion this
    · rintro (h | ⟨_, h⟩)
      · exact Or.inl h
      · exact Or.inr h
  | true =>
    simp only [if_true]
    have hkeys : (m.map (fun e => if e.1 == k then (e.1, v) else e)).map Prod.fst
        = m.map Prod.fst := by
      rw [List.map_map]
      apply List.map_congr_left
      intro e _
      simp only [Function.comp]
      split_ifs <;> rfl
    refine ⟨by rw [hkeys]; exact hm, ?_⟩
    intro e
    obtain ⟨e0, he0, he0k⟩ := (hasKey_iff m k).1 hk
    simp only [List.mem_map]
    constructor
    · rintro ⟨x, hx, hxe⟩
      by_cases hxk : x.1 = k
      · simp only [hxk, beq_self_eq_true, if_true] at hxe
        exact Or.inl hxe.symm
      · have hb : (x.1 == k) = false := by simpa using hxk
        simp only [hb, Bool.false_eq_true, if_false] at hxe
        subst hxe
        exact Or.inr ⟨hxk, hx⟩
    · rintro (h | ⟨hne, h⟩)
      · refine ⟨e0, he0, ?_⟩
        simp [he0k, h]
      · refine ⟨e, h, ?_⟩
        have hb : (e.1 == k) = false := by simpa using hne
        simp [hb]

/-- After a run of `emplace` calls the map holds its old entries and, for every key that
was not present, the value of the first call with that key. -/
theorem foldl_emplace_spec (slot : Slot) :
    ∀ (kvs : List (Object × Object)) (m : ProxyMap), (m.map Prod.fst).Nodup →
      ((kvs.foldl (fun acc e => ProxyMap.emplace slot acc e.1 e.2) m).map Prod.fst).Nodup ∧
      ∀ k v, (k, v) ∈ kvs.foldl (fun acc e => ProxyMap.emplace slot acc e.1 e.2) m ↔
        (k, v) ∈ m ∨ (m.hasKey k = false ∧ kvs.lookup k = some v)
  | [], m, hm => by simp [hm]
  | (k0, v0) :: rest, m, hm => by
      obtain ⟨hnd, hmem⟩ := emplace_spec slot m k0 v0 hm
      obtain ⟨ih1, ih2⟩ := foldl_emplace_spec slot rest (ProxyMap.emplace slot m k0 v0) hnd
      refine ⟨ih1, ?_⟩
      intro k v
      simp only [List.foldl_cons]
      rw [ih2 k v, hmem (k, v)]
      have hkey : (ProxyMap.emplace slot m k0 v0).hasKey k = false ↔
          (m.hasKey k = false ∧ k ≠ k0) := by
        rw [← Bool.not_eq_true, hasKey_iff, ← Bool.not_eq_true, hasKey_iff]
        constructor
        · intro h
          refine ⟨fun ⟨e, he, hek⟩ => h ⟨e, (hmem e).2 (Or.inl he), hek⟩, ?_⟩
          intro hkk
          subst hkk
          by_cases hk : m.hasKey k = true
          · obtain ⟨e, he, hek⟩ := (hasKey_iff m k).1 hk
            exact h ⟨e, (hmem e).2 (Or.inl he), hek⟩
          · exact h ⟨(k, v0), (hmem _).2 (Or.inr ⟨by simpa using hk, rfl⟩), rfl⟩
        · rintro ⟨h1, h2⟩ ⟨e, he, hek⟩
          rcases (hmem e).1 he with h | ⟨_, h⟩
          · exact h1 ⟨e, h, hek⟩
          · subst h
            exact h2 hek.symm
      rw [hkey, List.lookup_cons]
      by_cases hkk : k = k0
      · subst hkk
        simp only [Prod.mk.injEq, true_and, ne_eq, not_true_eq_false, and_false, false_and,
          or_false, beq_self_eq_true, Option.some.injEq]
        constructor
        · rintro (h | ⟨h1, h2⟩)
          · exact Or.inl h
          · exact Or.inr ⟨h1, h2.symm⟩
        · rintro (h | ⟨h1, h2⟩)
          · exact Or.inl h
          · exact Or.inr ⟨h1, h2.symm⟩
      · have hb : (k == k0) = false := by simpa using hkk
        simp only [Prod.mk.injEq, hkk, false_and, and_false, or_false, ne_eq,
          not_false_eq_true, and_true, hb]

/-- After a run of assignments `map[k] = v` the map holds, for every assigned key, the
value of the last assignment to it, and the old entries of the other keys. -/
theorem foldl_assign_spec (slot : Slot) :
    ∀ (pairs : List (Object × Object)) (m : ProxyMap), (m.map Prod.fst).Nodup →
      ((pairs.foldl (fun acc e => ProxyMap.assign slot acc e.1 e.2) m).map Prod.fst).Nodup ∧
      ∀ k v, (k, v) ∈ pairs.foldl (fun acc e => ProxyMap.assign slot acc e.1 e.2) m ↔
        pairs.reverse.lookup k = some v ∨ (pairs.reverse.lookup k = none ∧ (k, v) ∈ m)
  | [], m, hm => by simp [hm]
  | (k0, v0) :: rest, m, hm => by
      obtain ⟨hnd, hmem⟩ := assign_spec slot m k0 v0 hm
      obtain ⟨ih1, ih2⟩ := foldl_assign_spec slot rest (ProxyMap.assign slot m k0 v0) hnd
      refine ⟨ih1, ?_⟩
      intro k v
      simp only [List.foldl_cons, List.reverse_cons]
      rw [ih2 k v, hmem (k, v), List.lookup_append, List.lookup_cons, List.lookup_nil]
      cases hr : List.lookup k rest.reverse with
      | some w => simp
      | none =>
        by_cases hkk : k = k0
        · subst hkk
          simp only [Option.or, beq_self_eq_true, Prod.mk.injEq, true_and, ne_eq,
            not_true_eq_false, false_and, or_false, Option.some.injEq, reduceCtorEq,
            false_or]
          exact eq_comm
        · have hb : (k == k0) = false := by simpa using hkk
          simp [Option.or, hb, hkk]

/-- A key has a first entry in a list of entries exactly when it is the key of an
entry. -/
theorem lookup_some_iff :
    ∀ (kvs : List (Object × Object)) (k : Object),
      (∃ v, kvs.lookup k = some v) ↔ k ∈ kvs.map Prod.fst
  | [], k => by simp
  | (k0, v0) :: rest, k => by
      rw [List.lookup_cons]
      by_cases hkk : k = k0
      · subst hkk
        simp
      · have hb : (k == k0) = false := by simpa using hkk
        simp only [hb, List.map_cons, List.mem_cons, hkk, false_or]
        exact lookup_some_iff rest k

/-! ## The evaluator: the parser mode -/

/-- An expression that is not empty and is wrapped in neither brackets nor braces is
handed to the parser mode. -/
theorem eval_parser_mode (L : Lib) (p : ParserX) (expr : String) (hne : expr ≠ "")
    (h1 : inBrackets expr = false) (h2 : inBraces expr = false) :
    EvalEnvironment.eval L p expr = evalParser L p expr := by
  have h : expr.data ≠ [] := fun hd => hne (String.ext_iff.2 hd)
  unfold EvalEnvironment.eval
  rw [evalFuel]
  simp [h, h1, h2]

/-- C12: for a non-empty expression wrapped in neither `[...]` nor `{...}`, `eval` hands
exactly `expr` to the parser (one more text in the log of `SetExpr`, the constant table
untouched); if the parser returns the value `r`, `eval` returns `mupValueToObject r`; and
if the parser throws an error with message `m`, `eval` throws the exception made of the
name `EvalEnvironment::eval(<expr>)` and `m`. -/
theorem C12_parser_mode (L : Lib) (p : ParserX) (expr : String) (hne : expr ≠ "")
    (h1 : inBrackets expr = false) (h2 : inBraces expr = false) :
    (EvalEnvironment.eval L p expr).2 = { p with exprs := p.exprs ++ [expr] } ∧
    (∀ r, L.Eval p.consts expr = .ok r →
      (EvalEnvironment.eval L p expr).1 = mupValueToObject L.slot r) ∧
    (∀ m, L.Eval p.consts expr = .error m →
      (EvalEnvironment.eval L p expr).1 = .error (.exception (.make (evalName expr) m))) := by
  rw [eval_parser_mode L p expr hne h1 h2]
  unfold evalParser
  refine ⟨?_, ?_, ?_⟩
  · simp only
    cases L.Eval p.consts expr with
    | error m => rfl
    | ok r =>
      simp only
      cases hr : mupValueToObject L.slot r with
      | ok o => rfl
      | error f => cases f <;> rfl
  · intro r hr
    simp only [hr]
    cases hc : mupValueToObject L.slot r with
    | ok o => rfl
    | error f =>
      have := mupValueToObject_error L.slot r f hc
      subst this
      rfl
  · intro m hm
    simp only [hm]

/-- C12, at the text `"12"` (a value) and at the text `"x"` (a parser error) with the
small engine. -/
theorem C12_parser_mode_witness :
    ((EvalEnvironment.eval libSmall ⟨[], []⟩ "12").2 = ⟨[], ["12"]⟩ ∧
      (EvalEnvironment.eval libSmall ⟨[], []⟩ "12").1 = .ok (.int 12)) ∧
    (EvalEnvironment.eval libSmall ⟨[], []⟩ "x").1
      = .error (.exception (.make (evalName "x") "Undefined token x")) :=
  ⟨⟨(C12_parser_mode libSmall ⟨[], []⟩ "12" (by decide) (by decide) (by decide)).1,
    (C12_parser_mode libSmall ⟨[], []⟩ "12" (by decide) (by decide) (by decide)).2.1
      (.int 12) rfl⟩,
   (C12_parser_mode libSmall ⟨[], []⟩ "x" (by decide) (by decide) (by decide)).2.2
      "Undefined token x" rfl⟩

/-! ## The evaluator: the entries of a map literal -/

/-- The map loop over tokens that all split into a key and a value that evaluate: the
entries are put into the map with `emplace` in token order. -/
theorem evalMapLoop_ok (L : Lib) (n : Nat) (p : ParserX) (expr : String) :
    ∀ (toks : List String) (kvs : List (Object × Object)) (map : ProxyMap) (q : ParserX),
      q.consts = p.consts →
      (∀ t ∈ toks, ∀ s ∈ L.splitExpr t ':', s.length < n) →
      List.Forall₂ (fun tok e => ∃ k v, L.splitExpr tok ':' = [k, v] ∧
        (EvalEnvironment.eval L p k).1 = .ok e.1 ∧
        (EvalEnvironment.eval L p v).1 = .ok e.2) toks kvs →
      (evalMapLoop L (evalFuel L n) expr toks map q).1
        = .ok (.map (kvs.foldl (fun acc e => ProxyMap.emplace L.slot acc e.1 e.2) map))
  | [], kvs, map, q, _, _, h => by
      cases h
      simp [evalMapLoop]
  | t :: toks, kvs, map, q, hq, hlen, h => by
      cases h with
      | cons hhead htail =>
        rename_i e kvs2
        obtain ⟨k, v, hkv, ha, hb⟩ := hhead
        have hk := evalFuel_eq_eval L n p q k
          (hlen t (List.mem_cons_self _ _) k (by simp [hkv])) hq
        rw [evalMapLoop]
        simp only [hkv]
        rcases hevk : evalFuel L n q k with ⟨r, q1⟩
        rw [hevk] at hk
        simp only at hk
        rw [ha] at hk
        obtain ⟨hr, hq1⟩ := hk
        subst hr
        simp only
        have hv := evalFuel_eq_eval L n p q1 v
          (hlen t (List.mem_cons_self _ _) v (by simp [hkv])) hq1
        rcases hevv : evalFuel L n q1 v with ⟨s, q2⟩
        rw [hevv] at hv
        simp only at hv
        rw [hb] at hv
        obtain ⟨hs, hq2⟩ := hv
        subst hs
        simp only [List.foldl_cons]
        exact evalMapLoop_ok L n p expr toks kvs2 _ q2 hq2
          (fun t2 ht2 => hlen t2 (List.mem_cons_of_mem _ ht2)) htail

/-- C11: for a map literal whose tokens all split at `:` into a key and a value that both
evaluate (token `i` to the entry `kvs[i]`), `eval` returns a map with pairwise distinct
keys whose key set is exactly the set of evaluated keys, and which binds each key to the
value of the first token that evaluates to that key: a later token with the same key does
not overwrite it. -/
theorem C11_map_literal (L : Lib) (p : ParserX) (expr : String)
    (hb : inBraces expr = true) (kvs : List (Object × Object))
    (hok : List.Forall₂ (fun tok e => ∃ k v, L.splitExpr tok ':' = [k, v] ∧
        (EvalEnvironment.eval L p k).1 = .ok e.1 ∧
        (EvalEnvironment.eval L p v).1 = .ok e.2)
      (L.splitExpr (noBrackets expr) ',') kvs) :
    ∃ m, (EvalEnvironment.eval L p expr).1 = .ok (.map m) ∧
      (m.map Prod.fst).Nodup ∧
      (∀ k, k ∈ m.map Prod.fst ↔ k ∈ kvs.map Prod.fst) ∧
      (∀ k v, (k, v) ∈ m ↔ kvs.lookup k = some v) := by
  have hlen := wrappedIn_length _ _ expr hb
  have hne : expr.data ≠ [] := by
    intro h
    simp [String.length, h] at hlen
  have hnb := not_inBrackets_of_inBraces expr hb
  have hloop := evalMapLoop_ok L expr.length p expr (L.splitExpr (noBrackets expr) ',')
    kvs [] p rfl
    (by
      intro t ht s hs
      have h1 := token_lt L _ _ expr hb ',' t ht
      have h2 := L.splitExpr_le _ _ _ hs
      omega)
    hok
  obtain ⟨hnd, hmem⟩ := foldl_emplace_spec L.slot kvs [] (by simp)
  have hmem2 : ∀ k v, (k, v) ∈ kvs.foldl (fun acc e => ProxyMap.emplace L.slot acc e.1 e.2) []
      ↔ kvs.lookup k = some v := by
    intro k v
    rw [hmem k v]
    simp [ProxyMap.hasKey]
  refine ⟨_, ?_, hnd, ?_, hmem2⟩
  · unfold EvalEnvironment.eval
    rw [evalFuel]
    simp only [hne, if_false, hnb, Bool.false_eq_true, hb, if_true]
    exact hloop
  · intro k
    rw [← lookup_some_iff kvs k]
    constructor
    · intro hk
      obtain ⟨e, he, hek⟩ := List.mem_map.1 hk
      subst hek
      exact ⟨e.2, (hmem2 e.1 e.2).1 he⟩
    · rintro ⟨v, hv⟩
      exact List.mem_map.2 ⟨(k, v), (hmem2 k v).2 hv, rfl⟩

/-- C11, at `{1:2,3:4,1:5}` with the splitter modelled from the spec: the key `1` keeps
the value `2` of its first token. -/
theorem C11_map_literal_witness :
    inBraces "\x7b1:2,3:4,1:5\x7d" = true ∧
    (EvalEnvironment.eval libSmall ⟨[], []⟩ "\x7b1:2,3:4,1:5\x7d").1
      = .ok (.map [(.int 1, .int 2), (.int 3, .int 4)]) ∧
    ∃ m, (EvalEnvironment.eval libSmall ⟨[], []⟩ "\x7b1:2,3:4,1:5\x7d").1 = .ok (.map m) ∧
      (m.map Prod.fst).Nodup ∧
      (∀ k, k ∈ m.map Prod.fst ↔
        k ∈ [(Object.int 1, Object.int 2), (.int 3, .int 4), (.int 1, .int 5)].map Prod.fst) ∧
      (∀ k v, (k, v) ∈ m ↔
        [(Object.int 1, Object.int 2), (.int 3, .int 4), (.int 1, .int 5)].lookup k = some v) :=
  ⟨by decide, rfl,
    C11_map_literal libSmall ⟨[], []⟩ "\x7b1:2,3:4,1:5\x7d" (by decide)
      [(.int 1, .int 2), (.int 3, .int 4), (.int 1, .int 5)]
      (by
        have hs : libSmall.splitExpr (noBrackets "\x7b1:2,3:4,1:5\x7d") ','
            = ["1:2", "3:4", "1:5"] := by decide
        rw [hs]
        exact .cons ⟨"1", "2", by decide, rfl, rfl⟩
          (.cons ⟨"3", "4", by decide, rfl, rfl⟩
            (.cons ⟨"1", "5", by decide, rfl, rfl⟩ .nil)))⟩

/-! ## The evaluator: the trail of an error -/

/-- A handler that ends in an exception was given an exception, and made the new one of
the name of `expr` and the message of the given one. -/
theorem rethrow_exception (expr : String) (f : Failure) (ex : Exception)
    (h : rethrow expr f = .exception ex) :
    ∃ inner, f = .exception inner ∧ ex = .make (evalName expr) inner.message := by
  cases f with
  | exception inner =>
    simp only [rethrow, Failure.exception.injEq] at h
    exact ⟨inner, rfl, h.symm⟩
  | parserError m => simp [rethrow] at h
  | assertion => simp [rethrow] at h
  | outOfRange => simp [rethrow] at h
  | fuel => simp [rethrow] at h

/-- The argument of an exception is the end of its message. -/
theorem make_suffix (msg arg : String) :
    arg.data <:+ (Exception.make msg arg).message.data := by
  unfold Exception.make
  by_cases h : arg.data = []
  · simp [h]
  · simp only [h, if_false, String.data_append]
    exact List.suffix_append _ _

/-- The list loop ends in an exception only by the exception of one of its tokens, thrown
again under the name of `expr`. -/
theorem evalListLoop_exception (L : Lib) (n : Nat) (p : ParserX) (expr : String)
    (ex : Exception) :
    ∀ (toks : List String) (vec : List Object) (q : ParserX), q.consts = p.consts →
      (∀ t ∈ toks, t.length < n) →
      (evalListLoop (evalFuel L n) expr toks vec q).1 = .error (.exception ex) →
      ∃ sub ∈ toks, ∃ inner, (EvalEnvironment.eval L p sub).1 = .error (.exception inner) ∧
        ex = .make (evalName expr) inner.message
  | [], vec, q, _, _, h => by simp [evalListLoop] at h
  | tok :: rest, vec, q, hq, hlen, h => by
      have h1 := evalFuel_eq_eval L n p q tok (hlen tok (List.mem_cons_self _ _)) hq
      rw [evalListLoop] at h
      rcases hev : evalFuel L n q tok with ⟨r, q1⟩
      rw [hev] at h h1
      simp only at h1
      cases r with
      | error f =>
        simp only [Except.error.injEq] at h
        obtain ⟨inner, hf, hex⟩ := rethrow_exception expr f ex h
        subst hf
        exact ⟨tok, List.mem_cons_self _ _, inner, h1.1.symm, hex⟩
      | ok o =>
        obtain ⟨sub, hsub, inner, h2, h3⟩ := evalListLoop_exception L n p expr ex rest _ q1
          h1.2 (fun t ht => hlen t (List.mem_cons_of_mem _ ht)) h
        exact ⟨sub, List.mem_cons_of_mem _ hsub, inner, h2, h3⟩

/-- The map loop ends in an exception either by a token that does not split into two
parts, under the name of that token, or by the exception of a key or a value, thrown again
under the name of `expr`. -/
theorem evalMapLoop_exception (L : Lib) (n : Nat) (p : ParserX) (expr : String)
    (ex : Exception) :
    ∀ (toks : List String) (map : ProxyMap) (q : ParserX), q.consts = p.consts →
      (∀ t ∈ toks, ∀ s ∈ L.splitExpr t ':', s.length < n) →
      (evalMapLoop L (evalFuel L n) expr toks map q).1 = .error (.exception ex) →
      (∃ tok ∈ toks, (L.splitExpr tok ':').length ≠ 2 ∧
        ex = .make (evalName tok) "not key:value") ∨
      (∃ tok ∈ toks, ∃ sub ∈ L.splitExpr tok ':', ∃ inner,
        (EvalEnvironment.eval L p sub).1 = .error (.exception inner) ∧
        ex = .make (evalName expr) inner.message)
  | [], map, q, _, _, h => by simp [evalMapLoop] at h
  | tok :: rest, map, q, hq, hlen, h => by
      rw [evalMapLoop] at h
      split at h
      · rename_i k v hkv
        have hk := evalFuel_eq_eval L n p q k
          (hlen tok (List.mem_cons_self _ _) k (by simp [hkv])) hq
        rcases hevk : evalFuel L n q k with ⟨r, q1⟩
        rw [hevk] at h hk
        simp only at hk
        cases r with
        | error f =>
          simp only [Except.error.injEq] at h
          obtain ⟨inner, hf, hex⟩ := rethrow_exception expr f ex h
          subst hf
          exact Or.inr ⟨tok, List.mem_cons_self _ _, k, by simp [hkv], inner, hk.1.symm, hex⟩
        | ok key =>
          simp only at h
          have hv := evalFuel_eq_eval L n p q1 v
            (hlen tok (List.mem_cons_self _ _) v (by simp [hkv])) hk.2
          rcases hevv : evalFuel L n q1 v with ⟨s, q2⟩
          rw [hevv] at h hv
          simp only at hv
          cases s with
          | error f =>
            simp only [Except.error.injEq] at h
            obtain ⟨inner, hf, hex⟩ := rethrow_exception expr f ex h
            subst hf
            exact Or.inr
              ⟨tok, List.mem_cons_self _ _, v, by simp [hkv], inner, hv.1.symm, hex⟩
          | ok val =>
            rcases evalMapLoop_exception L n p expr ex rest _ q2 hv.2
              (fun t ht => hlen t (List.mem_cons_of_mem _ ht)) h with
              ⟨t, ht, h1, h2⟩ | ⟨t, ht, sub, hsub, inner, h1, h2⟩
            · exact Or.inl ⟨t, List.mem_cons_of_mem _ ht, h1, h2⟩
            · exact Or.inr ⟨t, List.mem_cons_of_mem _ ht, sub, hsub, inner, h1, h2⟩
      · rename_i hnot
        simp only [Except.error.injEq, Failure.exception.injEq] at h
        refine Or.inl ⟨tok, List.mem_cons_self _ _, ?_, h.symm⟩
        intro h2
        match hs : L.splitExpr tok ':', h2 with
        | [a, b], _ => exact hnot a b hs

/-- C13 fails as stated: `eval` of `{1}` fails with "not key:value" under the name of the
token `1`; the exception is thrown by the frame of `{1}` itself, outside its handler, and
its message does not contain the text `{1}`. -/
theorem C13_counterexample :
    (EvalEnvironment.eval libSmall ⟨[], []⟩ "\x7b1\x7d").1
      = .error (.exception ⟨"EvalEnvironment::eval(1): not key:value"⟩) ∧
    ¬ ("\x7b1\x7d".data <:+: "EvalEnvironment::eval(1): not key:value".data) :=
  ⟨rfl, by decide⟩

/-- C13, amended: an exception thrown by `eval(expr)` is either the "not key:value"
exception of a token of the map literal `expr` itself, which bears the name of that token,
or it is made of the name `EvalEnvironment::eval(<expr>)` and a cause, and so ends with
the cause. The cause is "expression is empty" for the empty expression, the message of the
parser error in parser mode, and otherwise the message of the exception that `eval` throws
on a strictly shorter sub-expression (a token of the list, a key or a value of the map),
for which the same holds again. -/
theorem C13_error_trail (L : Lib) (p : ParserX) (expr : String) (ex : Exception)
    (h : (EvalEnvironment.eval L p expr).1 = .error (.exception ex)) :
    (inBraces expr = true ∧ ∃ tok ∈ L.splitExpr (noBrackets expr) ',',
      (L.splitExpr tok ':').length ≠ 2 ∧ ex = .make (evalName tok) "not key:value") ∨
    (∃ cause : String, ex = .make (evalName expr) cause ∧
      cause.data <:+ ex.message.data ∧
      ((expr = "" ∧ cause = "expression is empty") ∨
       (inBrackets expr = false ∧ inBraces expr = false ∧
          L.Eval p.consts expr = .error cause) ∨
       (∃ sub inner, sub.length < expr.length ∧
          (EvalEnvironment.eval L p sub).1 = .error (.exception inner) ∧
          cause = inner.message))) := by
  unfold EvalEnvironment.eval at h
  rw [evalFuel] at h
  split_ifs at h with h0 h1 h2
  · right
    have he : expr = "" := String.ext_iff.2 h0
    subst he
    simp only [Except.error.injEq, Failure.exception.injEq] at h
    refine ⟨"expression is empty", ?_, ?_, Or.inl ⟨rfl, rfl⟩⟩
    · rw [← h]
      decide
    · rw [← h]
      decide
  · right
    obtain ⟨sub, hsub, inner, h3, h4⟩ := evalListLoop_exception L expr.length p expr ex _ [] p
      rfl (fun t ht => token_lt L _ _ expr h1 _ t ht) h
    refine ⟨inner.message, h4, ?_, Or.inr (Or.inr ⟨sub, inner, ?_, h3, rfl⟩)⟩
    · rw [h4]
      exact make_suffix _ _
    · exact token_lt L _ _ expr h1 _ sub hsub
  · have hlen : ∀ t ∈ L.splitExpr (noBrackets expr) ',', ∀ s ∈ L.splitExpr t ':',
        s.length < expr.length := by
      intro t ht s hs
      have g1 := token_lt L _ _ expr h2 ',' t ht
      have g2 := L.splitExpr_le _ _ _ hs
      omega
    rcases evalMapLoop_exception L expr.length p expr ex _ [] p rfl hlen h with
      ⟨t, ht, g1, g2⟩ | ⟨t, ht, sub, hsub, inner, g1, g2⟩
    · exact Or.inl ⟨h2, t, ht, g1, g2⟩
    · right
      refine ⟨inner.message, g2, ?_, Or.inr (Or.inr ⟨sub, inner, hlen t ht sub hsub, g1, rfl⟩)⟩
      rw [g2]
      exact make_suffix _ _
  · right
    unfold evalParser at h
    simp only at h
    cases hE : L.Eval p.consts expr with
    | error m =>
      rw [hE] at h
      simp only [Except.error.injEq, Failure.exception.injEq] at h
      refine ⟨m, h.symm, ?_, Or.inr (Or.inl ⟨by simpa using h1, by simpa using h2, rfl⟩)⟩
      rw [← h]
      exact make_suffix _ _
    | ok r =>
      rw [hE] at h
      simp only at h
      cases hr : mupValueToObject L.slot r with
      | ok o => simp [hr] at h
      | error f =>
        have := mupValueToObject_error L.slot r f hr
        subst this
        simp [hr] at h

/-- C13 amended, at `[{1}]` with the splitter modelled from the spec: the error of the
inner map literal is thrown again under the name of the list. -/
theorem C13_error_trail_witness :
    (EvalEnvironment.eval libSmall ⟨[], []⟩ "[\x7b1\x7d]").1
      = .error (.exception (.make (evalName "[\x7b1\x7d]")
          "EvalEnvironment::eval(1): not key:value")) ∧
    ((inBraces "[\x7b1\x7d]" = true ∧ ∃ tok ∈ libSmall.splitExpr (noBrackets "[\x7b1\x7d]") ',',
      (libSmall.splitExpr tok ':').length ≠ 2 ∧
      Exception.make (evalName "[\x7b1\x7d]") "EvalEnvironment::eval(1): not key:value"
        = .make (evalName tok) "not key:value") ∨
    (∃ cause : String,
      Exception.make (evalName "[\x7b1\x7d]") "EvalEnvironment::eval(1): not key:value"
        = .make (evalName "[\x7b1\x7d]") cause ∧
      cause.data <:+ (Exception.make (evalName "[\x7b1\x7d]")
        "EvalEnvironment::eval(1): not key:value").message.data ∧
      ((("[\x7b1\x7d]" : String) = "" ∧ cause = "expression is empty") ∨
       (inBrackets "[\x7b1\x7d]" = false ∧ inBraces "[\x7b1\x7d]" = false ∧
          libSmall.Eval [] "[\x7b1\x7d]" = .error cause) ∨
       (∃ sub inner, sub.length < ("[\x7b1\x7d]" : String).length ∧
          (EvalEnvironment.eval libSmall ⟨[], []⟩ sub).1 = .error (.exception inner) ∧
          cause = inner.message)))) :=
  ⟨rfl, C13_error_trail libSmall ⟨[], []⟩ "[\x7b1\x7d]" _ rfl⟩

/-! ## The evaluator: the texts handed to the parser -/

/-- The list loop adds to the log of `SetExpr` what it adds to an empty log, when `ev`
does. -/
theorem evalListLoop_exprs (ev : ParserX → String → Result Object × ParserX) (expr : String)
    (hc : ∀ (p q : ParserX) (t : String), p.consts = q.consts →
      (ev p t).1 = (ev q t).1 ∧ (ev p t).2.consts = p.consts)
    (he : ∀ (q : ParserX) (t : String),
      (ev q t).2.exprs = q.exprs ++ (ev ⟨q.consts, []⟩ t).2.exprs) :
    ∀ (toks : List String) (vec : List Object) (q : ParserX),
      (evalListLoop ev expr toks vec q).2.exprs
        = q.exprs ++ (evalListLoop ev expr toks vec ⟨q.consts, []⟩).2.exprs
  | [], vec, q => by simp [evalListLoop]
  | tok :: rest, vec, q => by
      have h1 := hc q ⟨q.consts, []⟩ tok rfl
      have h2 := hc ⟨q.consts, []⟩ q tok rfl
      have h3 := he q tok
      rw [evalListLoop, evalListLoop]
      rcases hq : ev q tok with ⟨r, q1⟩
      rcases hq0 : ev ⟨q.consts, []⟩ tok with ⟨r0, q0⟩
      rw [hq, hq0] at h1
      rw [hq0] at h2
      rw [hq, hq0] at h3
      simp only at h1 h2 h3
      obtain ⟨hr, hq1c⟩ := h1
      subst hr
      cases r with
      | error f => exact h3
      | ok o =>
        simp only
        have ih1 := evalListLoop_exprs ev expr hc he rest (vec ++ [o]) q1
        have ih0 := evalListLoop_exprs ev expr hc he rest (vec ++ [o]) q0
        rw [ih1, ih0, h3, hq1c, h2.2, List.append_assoc]

/-- The map loop adds to the log of `SetExpr` what it adds to an empty log, when `ev`
does. -/
theorem evalMapLoop_exprs (L : Lib) (ev : ParserX → String → Result Object × ParserX)
    (expr : String)
    (hc : ∀ (p q : ParserX) (t : String), p.consts = q.consts →
      (ev p t).1 = (ev q t).1 ∧ (ev p t).2.consts = p.consts)
    (he : ∀ (q : ParserX) (t : String),
      (ev q t).2.exprs = q.exprs ++ (ev ⟨q.consts, []⟩ t).2.exprs) :
    ∀ (toks : List String) (map : ProxyMap) (q : ParserX),
      (evalMapLoop L ev expr toks map q).2.exprs
        = q.exprs ++ (evalMapLoop L ev expr toks map ⟨q.consts, []⟩).2.exprs
  | [], map, q => by simp [evalMapLoop]
  | tok :: rest, map, q => by
      rw [evalMapLoop, evalMapLoop]
      split
      · rename_i k v hkv
        have h1 := hc q ⟨q.consts, []⟩ k rfl
        have h2 := hc ⟨q.consts, []⟩ q k rfl
        have h3 := he q k
        rcases hq : ev q k with ⟨r, q1⟩
        rcases hq0 : ev ⟨q.consts, []⟩ k with ⟨r0, q0⟩
        rw [hq, hq0] at h1
        rw [hq0] at h2
        rw [hq, hq0] at h3
        simp only at h1 h2 h3
        obtain ⟨hr, hq1c⟩ := h1
        subst hr
        cases r with
        | error f => exact h3
        | ok key =>
          simp only
          have hc10 : q1.consts = q0.consts := by rw [hq1c, h2.2]
          have g1 := hc q1 q0 v hc10
          have g2 := hc q0 q1 v hc10.symm
          have g3 := he q1 v
          have g4 := he q0 v
          have g5 := hc q1 ⟨q1.consts, []⟩ v rfl
          have g6 := hc q0 ⟨q0.consts, []⟩ v rfl
          rcases hv : ev q1 v with ⟨s, q2⟩
          rcases hv0 : ev q0 v with ⟨s0, q20⟩
          rw [hv, hv0] at g1
          rw [hv0] at g2
          rw [hv] at g3
          rw [hv0] at g4
          simp only at g1 g2 g3 g4
          obtain ⟨hs, hq2c⟩ := g1
          subst hs
          have hlog : q2.exprs = q.exprs ++ q20.exprs := by
            rw [g3, g4, h3, hc10, List.append_assoc]
          cases s with
          | error f => exact hlog
          | ok val =>
            simp only
            have ih1 := evalMapLoop_exprs L ev expr hc he rest
              (ProxyMap.emplace L.slot map key val) q2
            have ih0 := evalMapLoop_exprs L ev expr hc he rest
              (ProxyMap.emplace L.slot map key val) q20
            rw [ih1, ih0, hlog, hq2c, g2.2, hc10, List.append_assoc]
      · simp

/-- The method `eval` adds to the log of `SetExpr` what it adds to an empty log. -/
theorem evalFuel_exprs (L : Lib) :
    ∀ (n : Nat) (q : ParserX) (expr : String),
      (evalFuel L n q expr).2.exprs
        = q.exprs ++ (evalFuel L n ⟨q.consts, []⟩ expr).2.exprs
  | 0, q, expr => by simp [evalFuel]
  | n + 1, q, expr => by
      rw [evalFuel, evalFuel]
      split_ifs
      · simp
      · exact evalListLoop_exprs _ expr (evalFuel_consts L n) (evalFuel_exprs L n) _ _ q
      · exact evalMapLoop_exprs L _ expr (evalFuel_consts L n) (evalFuel_exprs L n) _ _ q
      · unfold evalParser
        simp only
        cases L.Eval q.consts expr with
        | error m => simp
        | ok r =>
          simp only
          cases mupValueToObject L.slot r with
          | ok o => simp
          | error f => cases f <;> simp

/-! ## The evaluator: a failing element of a list literal -/

/-- The list loop stops at the first token that fails: the tokens before it are
evaluated, the failure is handed to the handler, and the log of `SetExpr` gets the texts of
these tokens and of the failing one only. -/
theorem evalListLoop_fail (L : Lib) (n : Nat) (p : ParserX) (expr tok : String)
    (post : List String) (f : Failure)
    (hf : (EvalEnvironment.eval L p tok).1 = .error f) (htok : tok.length < n) :
    ∀ (pre : List String) (vec : List Object) (q : ParserX), q.consts = p.consts →
      (∀ t ∈ pre, t.length < n) →
      (∀ t ∈ pre, ∃ o, (EvalEnvironment.eval L p t).1 = .ok o) →
      (evalListLoop (evalFuel L n) expr (pre ++ tok :: post) vec q).1
        = .error (rethrow expr f) ∧
      (evalListLoop (evalFuel L n) expr (pre ++ tok :: post) vec q).2.exprs
        = q.exprs ++ (pre ++ [tok]).flatMap
            (fun t => (EvalEnvironment.eval L ⟨p.consts, []⟩ t).2.exprs)
  | [], vec, q, hq, _, _ => by
      have h1 := evalFuel_eq_eval L n p q tok htok hq
      have h2 := evalFuel_exprs L n q tok
      have h3 := evalFuel_budget L n (tok.length + 1) ⟨q.consts, []⟩ tok htok (by omega)
      rw [List.nil_append, evalListLoop]
      rcases hev : evalFuel L n q tok with ⟨r, q1⟩
      rw [hev] at h1 h2
      simp only at h1 h2
      rw [hf] at h1
      obtain ⟨hr, _⟩ := h1
      subst hr
      refine ⟨rfl, ?_⟩
      simp only [List.nil_append, List.flatMap_cons, List.flatMap_nil, List.append_nil]
      rw [h2, h3, hq]
      rfl
  | t :: pre, vec, q, hq, hlen, hok => by
      obtain ⟨o, ho⟩ := hok t (List.mem_cons_self _ _)
      have h1 := evalFuel_eq_eval L n p q t (hlen t (List.mem_cons_self _ _)) hq
      have h2 := evalFuel_exprs L n q t
      have h3 := evalFuel_budget L n (t.length + 1) ⟨q.consts, []⟩ t
        (hlen t (List.mem_cons_self _ _)) (by omega)
      rw [List.cons_append, evalListLoop]
      rcases hev : evalFuel L n q t with ⟨r, q1⟩
      rw [hev] at h1 h2
      simp only at h1 h2
      rw [ho] at h1
      obtain ⟨hr, hq1⟩ := h1
      subst hr
      obtain ⟨ih1, ih2⟩ := evalListLoop_fail L n p expr tok post f hf htok pre (vec ++ [o]) q1
        hq1 (fun t2 ht2 => hlen t2 (List.mem_cons_of_mem _ ht2))
        (fun t2 ht2 => hok t2 (List.mem_cons_of_mem _ ht2))
      refine ⟨ih1, ?_⟩
      simp only
      rw [ih2, h2, h3, hq]
      simp only [List.cons_append, List.flatMap_cons, List.append_assoc]
      rfl

/-- C14: for a list literal `expr`, if `eval` throws the exception `inner` on a token and
succeeds on every token before it, then `eval(expr)` throws the exception made of the name
`EvalEnvironment::eval(<expr>)` and the message of `inner`; and the tokens after the
failing one are not evaluated: the parser is handed the texts of the evaluation of the
tokens up to the failing one, and no other. -/
theorem C14_list_element_failure (L : Lib) (p : ParserX) (expr : String)
    (hb : inBrackets expr = true) (pre : List String) (tok : String) (post : List String)
    (hsplit : L.splitExpr (noBrackets expr) ',' = pre ++ tok :: post)
    (hpre : ∀ t ∈ pre, ∃ o, (EvalEnvironment.eval L p t).1 = .ok o)
    (inner : Exception)
    (hfail : (EvalEnvironment.eval L p tok).1 = .error (.exception inner)) :
    (EvalEnvironment.eval L p expr).1
      = .error (.exception (.make (evalName expr) inner.message)) ∧
    inner.message.data
      <:+ (Exception.make (evalName expr) inner.message).message.data ∧
    (EvalEnvironment.eval L p expr).2.consts = p.consts ∧
    (EvalEnvironment.eval L p expr).2.exprs
      = p.exprs ++ (pre ++ [tok]).flatMap
          (fun t => (EvalEnvironment.eval L ⟨p.consts, []⟩ t).2.exprs) := by
  have hlen := wrappedIn_length _ _ expr hb
  have hne : expr.data ≠ [] := by
    intro h
    simp [String.length, h] at hlen
  have hlt : ∀ t ∈ pre ++ tok :: post, t.length < expr.length := by
    intro t ht
    exact token_lt L _ _ expr hb ',' t (by rw [hsplit]; exact ht)
  obtain ⟨h1, h2⟩ := evalListLoop_fail L expr.length p expr tok post _ hfail
    (hlt tok (by simp)) pre [] p rfl (fun t ht => hlt t (by simp [ht])) hpre
  have h3 := (evalFuel_consts L (expr.length + 1) p p expr rfl).2
  have heq : EvalEnvironment.eval L p expr
      = evalListLoop (evalFuel L expr.length) expr (pre ++ tok :: post) [] p := by
    unfold EvalEnvironment.eval
    rw [evalFuel]
    simp only [hne, if_false, hb, if_true, hsplit]
  refine ⟨?_, make_suffix _ _, h3, ?_⟩
  · rw [heq, h1]
    rfl
  · rw [heq, h2]

/-- C14, at `[1,x,2]` with the small engine, in which `x` is no constant: the parser is
handed `1` and `x`, and not `2`. -/
theorem C14_list_element_failure_witness :
    (EvalEnvironment.eval libSmall ⟨[], []⟩ "[1,x,2]").1
      = .error (.exception (.make (evalName "[1,x,2]")
          (Exception.make (evalName "x") "Undefined token x").message)) ∧
    (EvalEnvironment.eval libSmall ⟨[], []⟩ "[1,x,2]").2.exprs = ["1", "x"] :=
  have h := C14_list_element_failure libSmall ⟨[], []⟩ "[1,x,2]" (by decide) ["1"] "x" ["2"]
    (by decide)
    (by
      intro t ht
      simp at ht
      subst ht
      exact ⟨_, rfl⟩)
    (.make (evalName "x") "Undefined token x") rfl
  ⟨h.1, h.2.2.2.trans (by decide)⟩

/-! ## Constant registration -/

/-- A name that was filtered out of the constant table has no binding. -/
theorem lookup_filter_self (key : String) :
    ∀ consts : List (String × MupValue),
      (consts.filter (fun e => !(e.1 == key))).lookup key = none
  | [] => rfl
  | (k0, v0) :: rest => by
      by_cases hk : k0 = key
      · subst hk
        simp [List.filter_cons, lookup_filter_self k0 rest]
      · have hb : (k0 == key) = false := by simpa using hk
        have hb2 : (key == k0) = false := by simpa using fun h => hk h.symm
        simp [List.filter_cons, hb, List.lookup_cons, hb2, lookup_filter_self key rest]

/-- Filtering a name out of the constant table keeps the bindings of the other names. -/
theorem lookup_filter_other (key name : String) (hne : name ≠ key) :
    ∀ consts : List (String × MupValue),
      (consts.filter (fun e => !(e.1 == key))).lookup name = consts.lookup name
  | [] => rfl
  | (k0, v0) :: rest => by
      by_cases hk : k0 = key
      · subst hk
        have hb2 : (name == k0) = false := by simpa using hne
        simp [List.filter_cons, List.lookup_cons, hb2, lookup_filter_other k0 name hne rest]
      · have hb : (k0 == key) = false := by simpa using hk
        simp only [List.filter_cons, hb, Bool.not_false, if_true, List.lookup_cons,
          lookup_filter_other key name hne rest]

/-- Lines 134-135 and 146-147 always succeed: the constant table loses the binding of
`key`, if any, and gets the new binding; the log of `SetExpr` is untouched. -/
theorem redefineConst_eq (p : ParserX) (key : String) (v : MupValue) :
    redefineConst p key v
      = (.ok (), ⟨p.consts.filter (fun e => !(e.1 == key)) ++ [(key, v)], p.exprs⟩) := by
  unfold redefineConst
  cases hd : p.IsConstDefined key with
  | true =>
    have hnot : (p.RemoveConst key).IsConstDefined key = false := by
      simp [ParserX.IsConstDefined, ParserX.RemoveConst]
    simp only [↓reduceIte]
    unfold ParserX.DefineConst
    rw [hnot]
    rfl
  | false =>
    have hfil : p.consts.filter (fun e => !(e.1 == key)) = p.consts := by
      rw [List.filter_eq_self]
      intro e he
      simp only [ParserX.IsConstDefined, List.any_eq_false] at hd
      simpa using hd e he
    simp [ParserX.DefineConst, hd, hfil]

/-- The constant table after lines 134-135 and 146-147 binds `key` to the new value and
every other name as before. -/
theorem lookup_redefined (consts : List (String × MupValue)) (key : String) (v : MupValue) :
    (consts.filter (fun e => !(e.1 == key)) ++ [(key, v)]).lookup key = some v ∧
    ∀ name, name ≠ key →
      (consts.filter (fun e => !(e.1 == key)) ++ [(key, v)]).lookup name
        = consts.lookup name := by
  constructor
  · rw [List.lookup_append, lookup_filter_self]
    simp [List.lookup_cons]
  · intro name hne
    have hb : (name == key) = false := by simpa using hne
    rw [List.lookup_append, lookup_filter_other key name hne]
    simp [List.lookup_cons, hb]

/-- Defining the same name twice in a row gives the same table as defining it once. -/
theorem filter_redefined (consts : List (String × MupValue)) (key : String) (v : MupValue) :
    (consts.filter (fun e => !(e.1 == key)) ++ [(key, v)]).filter (fun e => !(e.1 == key))
      = consts.filter (fun e => !(e.1 == key)) := by
  simp [List.filter_append, List.filter_filter]

/-- C15: `registerConstantObj(key, obj)` with a convertible `obj` succeeds, and afterwards
the constant table binds `key` to `objectToMupValue obj`, whether or not `key` was bound
before, and binds every other name as before; a second call with the same arguments
leaves the parser exactly as the first call left it. -/
theorem C15_registerConstantObj (V : ValueLib) (p : ParserX) (key : String) (obj : Object)
    (n : MupValue)
    (hn : objectToMupValue V obj = .ok n) :
    (EvalEnvironment.registerConstantObj V p key obj).1 = .ok () ∧
    (EvalEnvironment.registerConstantObj V p key obj).2.consts.lookup key = some n ∧
    (∀ name, name ≠ key →
      (EvalEnvironment.registerConstantObj V p key obj).2.consts.lookup name
        = p.consts.lookup name) ∧
    EvalEnvironment.registerConstantObj V (EvalEnvironment.registerConstantObj V p key obj).2
        key obj
      = (.ok (), (EvalEnvironment.registerConstantObj V p key obj).2) := by
  have h1 : EvalEnvironment.registerConstantObj V p key obj
      = (.ok (), ⟨p.consts.filter (fun e => !(e.1 == key)) ++ [(key, n)], p.exprs⟩) := by
    simp only [EvalEnvironment.registerConstantObj, hn, redefineConst_eq]
  obtain ⟨h2, h3⟩ := lookup_redefined p.consts key n
  refine ⟨by rw [h1], by rw [h1]; exact h2, fun name hne => by rw [h1]; exact h3 name hne, ?_⟩
  rw [h1]
  simp only [EvalEnvironment.registerConstantObj, hn, redefineConst_eq, filter_redefined]

/-- C15, at a table that binds `x` and `y`, with `x` registered anew. -/
theorem C15_registerConstantObj_witness :
    (EvalEnvironment.registerConstantObj valueByValue ⟨[("x", .int 1), ("y", .int 2)], []⟩ "x"
      (.vec [.int 7])).1 = .ok () ∧
    (EvalEnvironment.registerConstantObj valueByValue ⟨[("x", .int 1), ("y", .int 2)], []⟩ "x"
      (.vec [.int 7])).2.consts.lookup "x" = some (.matrix [.int 7]) ∧
    (∀ name, name ≠ "x" →
      (EvalEnvironment.registerConstantObj valueByValue ⟨[("x", .int 1), ("y", .int 2)], []⟩ "x"
        (.vec [.int 7])).2.consts.lookup name
        = (ParserX.mk [("x", .int 1), ("y", .int 2)] []).consts.lookup name) ∧
    EvalEnvironment.registerConstantObj valueByValue
        (EvalEnvironment.registerConstantObj valueByValue ⟨[("x", .int 1), ("y", .int 2)], []⟩
          "x" (.vec [.int 7])).2 "x" (.vec [.int 7])
      = (.ok (), (EvalEnvironment.registerConstantObj valueByValue
          ⟨[("x", .int 1), ("y", .int 2)], []⟩ "x" (.vec [.int 7])).2) :=
  C15_registerConstantObj valueByValue ⟨[("x", .int 1), ("y", .int 2)], []⟩ "x" (.vec [.int 7])
    (.matrix [.int 7]) rfl

/-- C16: when `eval(expr)` succeeds with a convertible object, `registerConstantExpr(key,
expr)` succeeds and leaves the constant table exactly as `registerConstantObj(key,
eval(expr))` would: `key` bound to the converted result, any earlier binding of `key`
replaced, every other name bound as before. -/
theorem C16_registerConstantExpr (L : Lib) (V : ValueLib) (p : ParserX) (key expr : String)
    (obj : Object) (n : MupValue) (hev : (EvalEnvironment.eval L p expr).1 = .ok obj)
    (hn : objectToMupValue V obj = .ok n) :
    (EvalEnvironment.registerConstantExpr L V p key expr).1 = .ok () ∧
    (EvalEnvironment.registerConstantExpr L V p key expr).2.consts
      = (EvalEnvironment.registerConstantObj V p key obj).2.consts ∧
    (EvalEnvironment.registerConstantExpr L V p key expr).2.consts.lookup key = some n ∧
    (∀ name, name ≠ key →
      (EvalEnvironment.registerConstantExpr L V p key expr).2.consts.lookup name
        = p.consts.lookup name) := by
  have hc := (evalFuel_consts L (expr.length + 1) p p expr rfl).2
  have h1 : EvalEnvironment.registerConstantObj V p key obj
      = (.ok (), ⟨p.consts.filter (fun e => !(e.1 == key)) ++ [(key, n)], p.exprs⟩) := by
    simp only [EvalEnvironment.registerConstantObj, hn, redefineConst_eq]
  have h2 : EvalEnvironment.registerConstantExpr L V p key expr
      = (.ok (), ⟨p.consts.filter (fun e => !(e.1 == key)) ++ [(key, n)],
          (EvalEnvironment.eval L p expr).2.exprs⟩) := by
    unfold EvalEnvironment.registerConstantExpr
    rcases hr : EvalEnvironment.eval L p expr with ⟨r, p1⟩
    rw [hr] at hev
    simp only at hev
    subst hev
    have hc1 : p1.consts = p.consts := by
      have := hc
      unfold EvalEnvironment.eval at hr
      rw [hr] at this
      exact this
    simp only [hn, redefineConst_eq, hc1]
  obtain ⟨h3, h4⟩ := lookup_redefined p.consts key n
  refine ⟨by rw [h2], by rw [h1, h2], by rw [h2]; exact h3, ?_⟩
  intro name hne
  rw [h2]
  exact h4 name hne

/-- C16, at `registerConstantExpr("x", "4")` on a table that binds `x` to 1: afterwards
`eval("x")` is 4. -/
theorem C16_registerConstantExpr_witness :
    (EvalEnvironment.registerConstantExpr libSmall valueByValue
      ⟨[("x", .int 1)], []⟩ "x" "4").1 = .ok () ∧
    (EvalEnvironment.registerConstantExpr libSmall valueByValue
      ⟨[("x", .int 1)], []⟩ "x" "4").2.consts
      = (EvalEnvironment.registerConstantObj valueByValue
          ⟨[("x", .int 1)], []⟩ "x" (.int 4)).2.consts ∧
    (EvalEnvironment.eval libSmall
      (EvalEnvironment.registerConstantExpr libSmall valueByValue
        ⟨[("x", .int 1)], []⟩ "x" "4").2 "x").1
      = .ok (.int 4) :=
  have h := C16_registerConstantExpr libSmall valueByValue ⟨[("x", .int 1)], []⟩ "x" "4"
    (.int 4) (.int 4) rfl rfl
  ⟨h.1, h.2.1, rfl⟩

/-- C18: registration changes the constant table only after the new value has been
computed. If `eval(expr)` fails, or succeeds with an object that does not convert,
`registerConstantExpr(key, expr)` fails and leaves the whole constant table, the binding
of `key` included, as it was; and `registerConstantObj(key, obj)` with an object that does
not convert fails with the failure of the conversion and leaves the parser as it was. -/
theorem C18_registration_atomic (L : Lib) (V : ValueLib) (p : ParserX) (key expr : String) :
    (∀ f, (EvalEnvironment.eval L p expr).1 = .error f →
      (EvalEnvironment.registerConstantExpr L V p key expr).1 = .error (catchParserError expr f) ∧
      (EvalEnvironment.registerConstantExpr L V p key expr).2.consts = p.consts) ∧
    (∀ obj f, (EvalEnvironment.eval L p expr).1 = .ok obj → objectToMupValue V obj = .error f →
      (EvalEnvironment.registerConstantExpr L V p key expr).1 = .error (catchParserError expr f) ∧
      (EvalEnvironment.registerConstantExpr L V p key expr).2.consts = p.consts) ∧
    (∀ obj f, objectToMupValue V obj = .error f →
      EvalEnvironment.registerConstantObj V p key obj = (.error f, p)) := by
  have hc := (evalFuel_consts L (expr.length + 1) p p expr rfl).2
  refine ⟨?_, ?_, ?_⟩
  · intro f hf
    unfold EvalEnvironment.registerConstantExpr
    rcases hr : EvalEnvironment.eval L p expr with ⟨r, p1⟩
    rw [hr] at hf
    simp only at hf
    subst hf
    have hc1 : p1.consts = p.consts := by
      unfold EvalEnvironment.eval at hr
      rw [hr] at hc
      exact hc
    exact ⟨rfl, hc1⟩
  · intro obj f hok hf
    unfold EvalEnvironment.registerConstantExpr
    rcases hr : EvalEnvironment.eval L p expr with ⟨r, p1⟩
    rw [hr] at hok
    simp only at hok
    subst hok
    have hc1 : p1.consts = p.consts := by
      unfold EvalEnvironment.eval at hr
      rw [hr] at hc
      exact hc
    simp [hf, hc1]
  · intro obj f hf
    simp only [EvalEnvironment.registerConstantObj, hf]

/-- C18, at a table that binds `x`: a failing expression, an expression whose object does
not convert, and an object that does not convert leave `x` bound as before. -/
theorem C18_registration_atomic_witness :
    ((EvalEnvironment.registerConstantExpr libSmall valueByValue
        ⟨[("x", .int 1)], []⟩ "x" "y").1
        = .error (catchParserError "y"
            (.exception (.make (evalName "y") "Undefined token y"))) ∧
      (EvalEnvironment.registerConstantExpr libSmall valueByValue
        ⟨[("x", .int 1)], []⟩ "x" "y").2.consts
        = [("x", .int 1)]) ∧
    EvalEnvironment.registerConstantObj valueByValue ⟨[("x", .int 1)], []⟩ "x"
        (.vec [.other "T"])
      = (.error (.exception (.make "EvalEnvironment::objectToMupValue()" "unknown type T")),
          ⟨[("x", .int 1)], []⟩) :=
  ⟨(C18_registration_atomic libSmall valueByValue ⟨[("x", .int 1)], []⟩ "x" "y").1 _ rfl,
   (C18_registration_atomic libSmall valueByValue ⟨[("x", .int 1)], []⟩ "x" "y").2.2 _ _ rfl⟩

/-! ## Cell accesses of the decoder -/

/-- The pair loop on a vector of odd length reads inside the vector: for every `i` it
runs with, the indices `i * 2 + 1` and `i * 2 + 2` are at most the last index. -/
theorem pair_indices (vec : List Object) (hodd : vec.length % 2 = 1) (i : Nat)
    (hi : i ∈ List.range (vec.length / 2)) :
    i * 2 + 2 ≤ vec.length - 1 ∧
    (∃ k, vecAt vec (i * 2 + 1) = .ok k) ∧ (∃ v, vecAt vec (i * 2 + 2) = .ok v) := by
  have hlt : i < vec.length / 2 := List.mem_range.1 hi
  have h1 : i * 2 + 1 < vec.length := by omega
  have h2 : i * 2 + 2 < vec.length := by omega
  refine ⟨by omega, ⟨vec[i * 2 + 1], ?_⟩, ⟨vec[i * 2 + 2], ?_⟩⟩
  · simp [vecAt, List.getElem?_eq_getElem h1]
  · simp [vecAt, List.getElem?_eq_getElem h2]

/-- The conversion loop makes one element per column, the `i`-th from the cell
`At(0, i)`, which is inside the array. -/
theorem conversion_cells (slot : Slot) (cells : List MupValue) (vec : List Object)
    (h : mupValuesToObjects slot cells = .ok vec) :
    vec.length = GetCols cells ∧
    ∀ i (hi : i < vec.length), ∃ c, At cells i = .ok c ∧ mupValueToObject slot c = .ok vec[i] := by
  have hf := (mupValuesToObjects_iff slot cells vec).1 h
  have hlen := hf.length_eq
  refine ⟨hlen.symm, ?_⟩
  intro i hi
  have hic : i < cells.length := by omega
  refine ⟨cells[i], by simp [At, List.getElem?_eq_getElem hic], ?_⟩
  have := (List.forall₂_iff_get.1 hf).2 i hic hi
  simpa using this

/-- C19: for an array of any column count `n`, `n = 0` included, every access of
`mupValueToObject` is in bounds. Cell 0 is read for the sentinel only when `n` is odd,
where it exists, and for other `n` the detection answers "no map" without a read; the
conversion loop makes one element per column from the cells `0 .. n - 1`; the pair loop
of the map mode reads `vec[i * 2 + 1]` and `vec[i * 2 + 2]` with `i * 2 + 2 ≤ n - 1`; and
at no nesting depth does the call end in an index error of `At` or of `vec[..]`. -/
theorem C19_accesses_in_bounds (slot : Slot) (cells : List MupValue) :
    (GetCols cells % 2 = 1 → ∃ c, At cells 0 = .ok c) ∧
    (GetCols cells % 2 ≠ 1 → isMapArray cells = .ok false) ∧
    (∃ b, isMapArray cells = .ok b) ∧
    (∀ vec, mupValuesToObjects slot cells = .ok vec →
      vec.length = GetCols cells ∧
      (∀ i (hi : i < vec.length),
        ∃ c, At cells i = .ok c ∧ mupValueToObject slot c = .ok vec[i]) ∧
      (isMapArray cells = .ok true →
        (∀ i ∈ List.range (vec.length / 2),
          i * 2 + 2 ≤ GetCols cells - 1 ∧
          (∃ k, vecAt vec (i * 2 + 1) = .ok k) ∧ (∃ v, vecAt vec (i * 2 + 2) = .ok v)) ∧
        ∃ m, fillMap slot vec (List.range (vec.length / 2)) [] = .ok m)) ∧
    (∀ f, mupValueToObject slot (.matrix cells) = .error f → f = .assertion) := by
  obtain ⟨b, hb, hiff⟩ := isMapArray_spec cells
  refine ⟨?_, ?_, ⟨b, hb⟩, ?_, fun f hf => mupValueToObject_error slot _ f hf⟩
  · intro hodd
    rcases cells with _ | ⟨c, cs⟩
    · simp [GetCols] at hodd
    · exact ⟨c, by simp [At]⟩
  · intro hne
    simp [isMapArray, hne]
  · intro vec hvec
    obtain ⟨h1, h2⟩ := conversion_cells slot cells vec hvec
    refine ⟨h1, h2, ?_⟩
    intro hmap
    rw [hb] at hmap
    have hbt : b = true := by simpa using hmap
    have hodd : vec.length % 2 = 1 := by
      rw [h1]
      exact (hiff.1 hbt).1
    constructor
    · intro i hi
      have := pair_indices vec hodd i hi
      rw [← h1]
      exact this
    · obtain ⟨pairs, hpl, hp⟩ := pairs_of_vec vec (vec.length / 2) (by omega)
      have hfill := fillMap_pairs slot vec pairs 0 [] (by
        intro j hj
        simpa using hp j hj)
      rw [hpl, ← List.range_eq_range'] at hfill
      exact ⟨_, hfill⟩

/-- C19, at the empty array and at the encoded map `[mapTypeId, 1, 2]`. -/
theorem C19_accesses_in_bounds_witness :
    isMapArray [] = .ok false ∧
    mupValueToObject slotEnd (.matrix []) = .ok (.vec []) ∧
    (∃ c, At [.str mapTypeId, .int 1, .int 2] 0 = .ok c) ∧
    ∀ f, mupValueToObject slotEnd (.matrix [.str mapTypeId, .int 1, .int 2]) = .error f →
      f = .assertion :=
  ⟨(C19_accesses_in_bounds slotEnd []).2.1 (by decide), rfl,
   (C19_accesses_in_bounds slotEnd [.str mapTypeId, .int 1, .int 2]).1 (by decide),
   (C19_accesses_in_bounds slotEnd [.str mapTypeId, .int 1, .int 2]).2.2.2.2⟩

/-! ## Duplicate keys in an encoded map -/

/-- C20: when `mupValueToObject` decodes an array that encodes a map (odd column count,
sentinel in cell 0, cells converted to `vec`), the map binds each key to the value of the
last pair with that key: a later pair overwrites an earlier one. So the array
`[sentinel, k, a, k, b]` decodes to the map `{k: b}`, whereas the `emplace` of the map
literal path keeps `{k: a}`. -/
theorem C20_last_pair_wins (slot : Slot) :
    (∀ (cells : List MupValue) (vec : List Object),
      List.Forall₂ (fun c o => mupValueToObject slot c = .ok o) cells vec →
      cells.length % 2 = 1 ∧ cells.head? = some (.str mapTypeId) →
      ∃ (pairs : List (Object × Object)) (m : ProxyMap),
        pairs.length = (cells.length - 1) / 2 ∧
        (∀ j (hj : j < pairs.length),
          vec[j * 2 + 1]? = some pairs[j].1 ∧ vec[j * 2 + 2]? = some pairs[j].2) ∧
        mupValueToObject slot (.matrix cells) = .ok (.map m) ∧
        (m.map Prod.fst).Nodup ∧
        ∀ k v, (k, v) ∈ m ↔ pairs.reverse.lookup k = some v) ∧
    (∀ (ck ca cb : MupValue) (k a b : Object),
      mupValueToObject slot ck = .ok k → mupValueToObject slot ca = .ok a →
      mupValueToObject slot cb = .ok b →
      mupValueToObject slot (.matrix [.str mapTypeId, ck, ca, ck, cb]) = .ok (.map [(k, b)])) ∧
    (∀ k a b : Object,
      ProxyMap.emplace slot (ProxyMap.emplace slot [] k a) k b = [(k, a)] ∧
      ProxyMap.assign slot (ProxyMap.assign slot [] k a) k b = [(k, b)]) := by
  have hpair : ∀ k a b : Object,
      ProxyMap.emplace slot (ProxyMap.emplace slot [] k a) k b = [(k, a)] ∧
      ProxyMap.assign slot (ProxyMap.assign slot [] k a) k b = [(k, b)] := by
    intro k a b
    have h1 : ProxyMap.insertNew slot [] k a = [(k, a)] := by simp [ProxyMap.insertNew]
    simp [ProxyMap.emplace, ProxyMap.assign, ProxyMap.hasKey, h1]
  refine ⟨?_, ?_, hpair⟩
  · intro cells vec hcells hcond
    obtain ⟨pairs, hpl, hp, hres⟩ := matrix_map_case slot cells vec hcells hcond
    obtain ⟨hnd, hmem⟩ := foldl_assign_spec slot pairs [] (by simp)
    refine ⟨pairs, _, hpl, hp, hres, hnd, ?_⟩
    intro k v
    rw [hmem k v]
    constructor
    · rintro (h | ⟨_, h⟩)
      · exact h
      · simp at h
    · exact Or.inl
  · intro ck ca cb k a b hk ha hb
    have hcells : List.Forall₂ (fun c o => mupValueToObject slot c = .ok o)
        [.str mapTypeId, ck, ca, ck, cb] [.str mapTypeId, k, a, k, b] :=
      .cons (by simp [mupValueToObject]) (.cons hk (.cons ha (.cons hk (.cons hb .nil))))
    have hvec := (mupValuesToObjects_iff slot _ _).2 hcells
    have hfill : fillMap slot [.str mapTypeId, k, a, k, b] (List.range 2) []
        = .ok [(k, b)] := by
      have := fillMap_pairs slot [.str mapTypeId, k, a, k, b] [(k, a), (k, b)] 0 [] (by
        intro j hj
        have hj2 : j = 0 ∨ j = 1 := by
          simp at hj
          omega
        rcases hj2 with rfl | rfl <;> simp)
      simp only [List.length_cons, List.length_nil, List.foldl_cons, List.foldl_nil,
        (hpair k a b).2] at this
      rw [List.range_eq_range']
      exact this
    obtain ⟨bb, hbb, hiff⟩ := isMapArray_spec [.str mapTypeId, ck, ca, ck, cb]
    have hbt : bb = true := hiff.2 ⟨by simp, by simp⟩
    subst hbt
    rw [mupValueToObject]
    simp only [hbb, hvec, List.length_cons, List.length_nil]
    simp [hfill]

/-- C20, at the array `[mapTypeId, 1, 2, 1, 3]`: the key `1` is bound to `3`. -/
theorem C20_last_pair_wins_witness :
    mupValueToObject slotEnd (.matrix [.str mapTypeId, .int 1, .int 2, .int 1, .int 3])
      = .ok (.map [(.int 1, .int 3)]) :=
  (C20_last_pair_wins slotEnd).2.1 (.int 1) (.int 2) (.int 3) (.int 1) (.int 2) (.int 3)
    rfl rfl rfl

/-! ## Round trip of nested objects -/

/-- The flattened entries are twice as many as the entries. -/
theorem flatten_length :
    ∀ m : List (Object × Object), (m.flatMap (fun e => [e.1, e.2])).length = 2 * m.length
  | [] => rfl
  | e :: rest => by
      simp only [List.flatMap_cons, List.length_append, List.length_cons, List.length_nil,
        flatten_length rest]
      omega

/-- An array made of the sentinel and cells that decode to the flattened entries of `m`
decodes to the map that the entries of `m`, assigned in order, make up. -/
theorem matrix_of_entries (slot : Slot) (m : List (Object × Object)) (cells : List MupValue)
    (h : mupValuesToObjects slot cells = .ok (m.flatMap (fun e => [e.1, e.2]))) :
    mupValueToObject slot (.matrix (.str mapTypeId :: cells))
      = .ok (.map (m.foldl (fun acc e => ProxyMap.assign slot acc e.1 e.2) [])) := by
  have hlen : cells.length = 2 * m.length := by
    rw [((mupValuesToObjects_iff slot cells _).1 h).length_eq, flatten_length]
  obtain ⟨b, hb, hiff⟩ := isMapArray_spec (.str mapTypeId :: cells)
  have hbt : b = true := hiff.2 ⟨by simp [hlen]; omega, by simp⟩
  subst hbt
  have hvec : mupValuesToObjects slot (.str mapTypeId :: cells)
      = .ok (.str mapTypeId :: m.flatMap (fun e => [e.1, e.2])) := by
    rw [mupValuesToObjects]
    simp [mupValueToObject, h]
  have hfill := fillMap_pairs slot (.str mapTypeId :: m.flatMap (fun e => [e.1, e.2])) m 0 []
    (by
      intro j hj
      have := flatten_getElem m j hj
      simpa using this)
  have hr : List.range ((Object.str mapTypeId :: m.flatMap (fun e => [e.1, e.2])).length / 2)
      = List.range' 0 m.length := by
    rw [List.range_eq_range']
    congr 1
    simp only [List.length_cons, flatten_length]
    omega
  rw [mupValueToObject]
  simp only [hb, hvec, hr, hfill, Bool.not_true, Bool.false_eq_true, if_false]

/-- The skeletons of the elements are the skeletons taken one by one. -/
theorem skeletonList_eq_map : ∀ xs : List Object, Object.skeletonList xs = xs.map Object.skeleton
  | [] => rfl
  | x :: xs => by simp [Object.skeletonList, skeletonList_eq_map xs]

/-- Objects that are the same up to the order of the entries of their maps have the same
skeleton: the same scalars in the same places of the same sequences. -/
theorem same_skeleton {a b : Object} (h : Object.Same a b) : a.skeleton = b.skeleton := by
  induction h with
  | refl a => rfl
  | symm _ ih => exact ih.symm
  | trans _ _ ih1 ih2 => exact ih1.trans ih2
  | perm _ => simp [Object.skeleton]
  | elem pre post _ ih => simp [Object.skeleton, skeletonList_eq_map, ih]
  | key pre post v _ _ => simp [Object.skeleton]
  | val pre post k _ _ => simp [Object.skeleton]

/-- A list holds no map when none of its elements does. -/
theorem mapFreeList_iff :
    ∀ xs : List Object, Object.mapFreeList xs = true ↔ ∀ x ∈ xs, x.mapFree = true
  | [] => by simp [Object.mapFreeList]
  | x :: xs => by simp [Object.mapFreeList, mapFreeList_iff xs]

/-- Objects that are the same up to the order of the entries of their maps are equal when
one of them holds no map. -/
theorem same_mapFree {a b : Object} (h : Object.Same a b) :
    (a.mapFree = true → a = b) ∧ (b.mapFree = true → a = b) := by
  induction h with
  | refl a => exact ⟨fun _ => rfl, fun _ => rfl⟩
  | symm _ ih => exact ⟨fun h => (ih.2 h).symm, fun h => (ih.1 h).symm⟩
  | trans _ _ ih1 ih2 =>
    constructor
    · intro h
      have e := ih1.1 h
      subst e
      exact ih2.1 h
    · intro h
      have e := ih2.2 h
      subst e
      exact ih1.2 h
  | perm _ => simp [Object.mapFree]
  | elem pre post _ ih =>
    constructor
    · intro h
      simp only [Object.mapFree, mapFreeList_iff] at h
      rw [ih.1 (h _ (by simp))]
    · intro h
      simp only [Object.mapFree, mapFreeList_iff] at h
      rw [ih.2 (h _ (by simp))]
  | key pre post v _ _ => simp [Object.mapFree]
  | val pre post k _ _ => simp [Object.mapFree]

/-- Sequences whose elements are the same one by one, in order, are the same. -/
theorem same_vec {xs ys : List Object} (h : List.Forall₂ Object.Same xs ys) :
    ∀ pre : List Object, Object.Same (.vec (pre ++ xs)) (.vec (pre ++ ys)) := by
  induction h with
  | nil => exact fun pre => .refl _
  | @cons x y xs ys hxy _ ih =>
    intro pre
    have h1 := Object.Same.elem pre xs hxy
    have h2 := ih (pre ++ [y])
    simp only [List.append_assoc, List.singleton_append] at h2
    exact .trans h1 h2

/-- Maps whose entries have the same keys and the same values one by one are the same. -/
theorem same_map {m m2 : List (Object × Object)}
    (h : List.Forall₂ (fun e f => Object.Same e.1 f.1 ∧ Object.Same e.2 f.2) m m2) :
    ∀ pre : List (Object × Object), Object.Same (.map (pre ++ m)) (.map (pre ++ m2)) := by
  induction h with
  | nil => exact fun pre => .refl _
  | @cons e f m m2 hef _ ih =>
    intro pre
    obtain ⟨k1, v1⟩ := e
    obtain ⟨k2, v2⟩ := f
    have h1 := Object.Same.key pre m v1 hef.1
    have h2 := Object.Same.val pre m k2 hef.2
    have h3 := ih (pre ++ [(k2, v2)])
    simp only [List.append_assoc, List.singleton_append] at h3
    exact .trans (.trans h1 h2) h3

/-- Every entry of the second of two lists related entry by entry has a partner in the
first. -/
theorem entries_related {R : Object × Object → Object × Object → Prop}
    {m m2 : List (Object × Object)} (h : List.Forall₂ R m m2) :
    ∀ g ∈ m2, ∃ e ∈ m, R e g := by
  induction h with
  | nil => simp
  | cons hef _ ih =>
    intro g hg
    rcases List.mem_cons.1 hg with rfl | hg
    · exact ⟨_, List.mem_cons_self _ _, hef⟩
    · obtain ⟨e, he, hr⟩ := ih g hg
      exact ⟨e, List.mem_cons_of_mem _ he, hr⟩

/-- Keys that are the same as pairwise different keys are pairwise different. -/
theorem keys_nodup_of_same {m m2 : List (Object × Object)}
    (h : List.Forall₂ (fun e f => Object.Same e.1 f.1 ∧ Object.Same e.2 f.2) m m2)
    (hd : (m.map Prod.fst).Pairwise (fun a b => ¬ Object.Same a b)) :
    (m2.map Prod.fst).Nodup := by
  induction h with
  | nil => simp
  | cons hef hrest ih =>
    simp only [List.map_cons, List.pairwise_cons] at hd
    simp only [List.map_cons, List.nodup_cons]
    refine ⟨?_, ih hd.2⟩
    intro hmem
    obtain ⟨g, hg, hgk⟩ := List.mem_map.1 hmem
    obtain ⟨e2, he2, hr⟩ := entries_related hrest g hg
    refine hd.1 e2.1 (List.mem_map_of_mem _ he2) (.trans hef.1 ?_)
    rw [← hgk]
    exact .symm hr.1

mutual
/-- An object built from the supported variants, without a sequence that looks like an
encoded map, with floats and complex numbers that keep their tags and with pairwise
different keys in every map, is encoded as a parser value that decodes to the same object
up to the order of the entries of its maps. -/
theorem deep_same (V : ValueLib) (slot : Slot) :
    ∀ v : Object, v.supported = true → v.plain = true → v.keepsTag V = true →
      v.distinctKeys →
      ∃ n w, objectToMupValue V v = .ok n ∧ mupValueToObject slot n = .ok w ∧
        Object.Same v w ∧ (n = .str mapTypeId ↔ v = .str mapTypeId)
  | .str s, _, _, ht, _ => by
      obtain ⟨c, y, h1, h2, _, h4, h5⟩ := scalar_encode V slot (.str s) rfl
      exact ⟨c, y, h1, h2, by rw [h5.2 ht]; exact .refl _, h4⟩
  | .float f, _, _, ht, _ => by
      obtain ⟨c, y, h1, h2, _, h4, h5⟩ := scalar_encode V slot (.float f) rfl
      exact ⟨c, y, h1, h2, by rw [h5.2 ht]; exact .refl _, h4⟩
  | .bool b, _, _, ht, _ => by
      obtain ⟨c, y, h1, h2, _, h4, h5⟩ := scalar_encode V slot (.bool b) rfl
      exact ⟨c, y, h1, h2, by rw [h5.2 ht]; exact .refl _, h4⟩
  | .int i, _, _, ht, _ => by
      obtain ⟨c, y, h1, h2, _, h4, h5⟩ := scalar_encode V slot (.int i) rfl
      exact ⟨c, y, h1, h2, by rw [h5.2 ht]; exact .refl _, h4⟩
  | .cmplx z, _, _, ht, _ => by
      obtain ⟨c, y, h1, h2, _, h4, h5⟩ := scalar_encode V slot (.cmplx z) rfl
      exact ⟨c, y, h1, h2, by rw [h5.2 ht]; exact .refl _, h4⟩
  | .other t, hs, _, _, _ => by simp [Object.supported] at hs
  | .vec xs, hs, hp, ht, hd => by
      simp only [Object.supported] at hs
      simp only [Object.plain, Bool.and_eq_true, Bool.not_eq_true', Bool.and_eq_false_iff,
        decide_eq_false_iff_not] at hp
      simp only [Object.keepsTag] at ht
      simp only [Object.distinctKeys] at hd
      obtain ⟨cells, ys, h1, h2, h3, h4⟩ := deep_same_list V slot xs hs hp.2 ht hd
      have hf := (mupValuesToObjects_iff slot cells ys).1 h2
      have hcond : ¬ (cells.length % 2 = 1 ∧ cells.head? = some (.str mapTypeId)) := by
        rw [hf.length_eq, ← h3.length_eq, h4]
        rintro ⟨g1, g2⟩
        rcases hp.1 with g | g
        · exact g g1
        · simp [g2] at g
      refine ⟨.matrix cells, .vec ys, by simp [objectToMupValue, h1],
        matrix_seq_case slot cells ys hf hcond, ?_, by simp⟩
      have := same_vec h3 []
      simpa using this
  | .map m, hs, hp, ht, hd => by
      simp only [Object.supported] at hs
      simp only [Object.plain] at hp
      simp only [Object.keepsTag] at ht
      simp only [Object.distinctKeys] at hd
      obtain ⟨cells, m2, h1, h2, h3⟩ := deep_same_pairs V slot m hs hp ht hd.1
      have hperm := foldl_assign_perm slot m2 [] (keys_nodup_of_same h3 hd.2)
        (by intro e _; rfl)
      simp only [List.nil_append] at hperm
      refine ⟨.matrix (.str mapTypeId :: cells), _, by simp [objectToMupValue, h1],
        matrix_of_entries slot m2 cells h2, ?_, by simp⟩
      have := same_map h3 []
      simp only [List.nil_append] at this
      exact .trans this (.perm hperm.symm)
/-- The elements of such a sequence are encoded as cells that decode to the same elements,
in order, and cell 0 is the sentinel string exactly when the first element is. -/
theorem deep_same_list (V : ValueLib) (slot : Slot) :
    ∀ xs : List Object, Object.supportedList xs = true → Object.plainList xs = true →
      Object.keepsTagList V xs = true → Object.distinctKeysList xs →
      ∃ cells ys, objectsToMupValues V xs = .ok cells ∧
        mupValuesToObjects slot cells = .ok ys ∧ List.Forall₂ Object.Same xs ys ∧
        (cells.head? = some (.str mapTypeId) ↔ xs.head? = some (.str mapTypeId))
  | [], _, _, _, _ => ⟨[], [], by simp [objectsToMupValues, mupValuesToObjects]⟩
  | x :: xs, hs, hp, ht, hd => by
      simp only [Object.supportedList, Bool.and_eq_true] at hs
      simp only [Object.plainList, Bool.and_eq_true] at hp
      simp only [Object.keepsTagList, Bool.and_eq_true] at ht
      simp only [Object.distinctKeysList] at hd
      obtain ⟨c, y, g1, g2, g3, g4⟩ := deep_same V slot x hs.1 hp.1 ht.1 hd.1
      obtain ⟨cells, ys, h1, h2, h3, _⟩ := deep_same_list V slot xs hs.2 hp.2 ht.2 hd.2
      refine ⟨c :: cells, y :: ys, by simp [objectsToMupValues, g1, h1],
        by simp [mupValuesToObjects, g2, h2], .cons g3 h3, ?_⟩
      simp only [List.head?_cons, Option.some.injEq]
      exact g4
/-- The entries of such a map are encoded as cells that decode to keys and values that are
the same as the keys and values of the entries, in order. -/
theorem deep_same_pairs (V : ValueLib) (slot : Slot) :
    ∀ m : List (Object × Object), Object.supportedPairs m = true →
      Object.plainPairs m = true → Object.keepsTagPairs V m = true →
      Object.distinctKeysPairs m →
      ∃ (cells : List MupValue) (m2 : List (Object × Object)),
        pairsToMupValues V m = .ok cells ∧
        mupValuesToObjects slot cells = .ok (m2.flatMap (fun e => [e.1, e.2])) ∧
        List.Forall₂ (fun e f => Object.Same e.1 f.1 ∧ Object.Same e.2 f.2) m m2
  | [], _, _, _, _ => ⟨[], [], by simp [pairsToMupValues, mupValuesToObjects]⟩
  | (k, v) :: rest, hs, hp, ht, hd => by
      simp only [Object.supportedPairs, Bool.and_eq_true] at hs
      simp only [Object.plainPairs, Bool.and_eq_true] at hp
      simp only [Object.keepsTagPairs, Bool.and_eq_true] at ht
      simp only [Object.distinctKeysPairs] at hd
      obtain ⟨a, k2, ga1, ga2, ga3, _⟩ := deep_same V slot k hs.1 hp.1 ht.1 hd.1
      obtain ⟨b, v2, gb1, gb2, gb3, _⟩ := deep_same V slot v hs.2.1 hp.2.1 ht.2.1 hd.2.1
      obtain ⟨cells, m2, h1, h2, h3⟩ :=
        deep_same_pairs V slot rest hs.2.2 hp.2.2 ht.2.2 hd.2.2
      exact ⟨a :: b :: cells, (k2, v2) :: m2, by simp [pairsToMupValues, ga1, gb1, h1],
        by simp [mupValuesToObjects, ga2, gb2, h2, List.flatMap_cons], .cons ⟨ga3, gb3⟩ h3⟩
end

/-- A sequence of supported objects is encoded cell by cell, and cell 0 is the sentinel
string when the first element is. -/
theorem encode_then_decode_list (V : ValueLib) :
    ∀ xs : List Object, Object.supportedList xs = true →
      ∃ cells, objectsToMupValues V xs = .ok cells ∧ cells.length = xs.length ∧
        (xs.head? = some (.str mapTypeId) → cells.head? = some (.str mapTypeId))
  | [], _ => ⟨[], by simp [objectsToMupValues]⟩
  | x :: xs, hs => by
      simp only [Object.supportedList, Bool.and_eq_true] at hs
      obtain ⟨c, hc⟩ := (objectToMupValue_cases V x).1 hs.1
      obtain ⟨cells, h1, h2, _⟩ := encode_then_decode_list V xs hs.2
      refine ⟨c :: cells, by simp [objectsToMupValues, hc, h1], by simp [h2], ?_⟩
      intro hx
      simp only [List.head?_cons, Option.some.injEq] at hx ⊢
      subst hx
      simp [objectToMupValue] at hc
      exact hc.symm

/-- An array whose cells decode is decoded, to a map or to a sequence. -/
theorem matrix_decodes (slot : Slot) (cells : List MupValue) (vec : List Object)
    (h : mupValuesToObjects slot cells = .ok vec) :
    ∃ o, mupValueToObject slot (.matrix cells) = .ok o := by
  have hf := (mupValuesToObjects_iff slot cells vec).1 h
  by_cases hcond : cells.length % 2 = 1 ∧ cells.head? = some (.str mapTypeId)
  · obtain ⟨pairs, _, _, hres⟩ := matrix_map_case slot cells vec hf hcond
    exact ⟨_, hres⟩
  · exact ⟨_, matrix_seq_case slot cells vec hf hcond⟩

mutual
/-- What `objectToMupValue` returns is decoded by `mupValueToObject` without failure. -/
theorem encoding_decodes (V : ValueLib) (slot : Slot) :
    ∀ (v : Object) (n : MupValue), objectToMupValue V v = .ok n →
      ∃ o, mupValueToObject slot n = .ok o
  | .str s, n, h => by
      obtain ⟨c, y, h1, h2, _⟩ := scalar_encode V slot (.str s) rfl
      rw [h1] at h
      cases h
      exact ⟨y, h2⟩
  | .float f, n, h => by
      obtain ⟨c, y, h1, h2, _⟩ := scalar_encode V slot (.float f) rfl
      rw [h1] at h
      cases h
      exact ⟨y, h2⟩
  | .bool b, n, h => by
      obtain ⟨c, y, h1, h2, _⟩ := scalar_encode V slot (.bool b) rfl
      rw [h1] at h
      cases h
      exact ⟨y, h2⟩
  | .int i, n, h => by
      obtain ⟨c, y, h1, h2, _⟩ := scalar_encode V slot (.int i) rfl
      rw [h1] at h
      cases h
      exact ⟨y, h2⟩
  | .cmplx z, n, h => by
      obtain ⟨c, y, h1, h2, _⟩ := scalar_encode V slot (.cmplx z) rfl
      rw [h1] at h
      cases h
      exact ⟨y, h2⟩
  | .other t, n, h => by simp [objectToMupValue] at h
  | .vec xs, n, h => by
      rw [objectToMupValue] at h
      cases hc : objectsToMupValues V xs with
      | error f => simp [hc] at h
      | ok cells =>
        simp only [hc, Except.ok.injEq] at h
        subst h
        obtain ⟨vec, hvec⟩ := encoding_decodes_list V slot xs cells hc
        exact matrix_decodes slot cells vec hvec
  | .map m, n, h => by
      rw [objectToMupValue] at h
      cases hc : pairsToMupValues V m with
      | error f => simp [hc] at h
      | ok cells =>
        simp only [hc, Except.ok.injEq] at h
        subst h
        obtain ⟨vec, hvec⟩ := encoding_decodes_pairs V slot m cells hc
        exact matrix_decodes slot (.str mapTypeId :: cells) (.str mapTypeId :: vec)
          (by rw [mupValuesToObjects]; simp [mupValueToObject, hvec])
/-- The cells that the element loop returns are decoded without failure. -/
theorem encoding_decodes_list (V : ValueLib) (slot : Slot) :
    ∀ (xs : List Object) (cells : List MupValue), objectsToMupValues V xs = .ok cells →
      ∃ vec, mupValuesToObjects slot cells = .ok vec
  | [], cells, h => by
      simp [objectsToMupValues] at h
      subst h
      exact ⟨[], rfl⟩
  | x :: xs, cells, h => by
      rw [objectsToMupValues] at h
      cases hx : objectToMupValue V x with
      | error f => simp [hx] at h
      | ok c =>
        cases hxs : objectsToMupValues V xs with
        | error f => simp [hx, hxs] at h
        | ok cs =>
          simp only [hx, hxs, Except.ok.injEq] at h
          subst h
          obtain ⟨o, ho⟩ := encoding_decodes V slot x c hx
          obtain ⟨vec, hvec⟩ := encoding_decodes_list V slot xs cs hxs
          exact ⟨o :: vec, by simp [mupValuesToObjects, ho, hvec]⟩
/-- The cells that the entry loop returns are decoded without failure. -/
theorem encoding_decodes_pairs (V : ValueLib) (slot : Slot) :
    ∀ (m : List (Object × Object)) (cells : List MupValue), pairsToMupValues V m = .ok cells →
      ∃ vec, mupValuesToObjects slot cells = .ok vec
  | [], cells, h => by
      simp [pairsToMupValues] at h
      subst h
      exact ⟨[], rfl⟩
  | (k, v) :: rest, cells, h => by
      rw [pairsToMupValues] at h
      cases hk : objectToMupValue V k with
      | error f => simp [hk] at h
      | ok a =>
        cases hv : objectToMupValue V v with
        | error f => simp [hk, hv] at h
        | ok b =>
          cases hr : pairsToMupValues V rest with
          | error f => simp [hk, hv, hr] at h
          | ok cs =>
            simp only [hk, hv, hr, Except.ok.injEq] at h
            subst h
            obtain ⟨o1, ho1⟩ := encoding_decodes V slot k a hk
            obtain ⟨o2, ho2⟩ := encoding_decodes V slot v b hv
            obtain ⟨vec, hvec⟩ := encoding_decodes_pairs V slot rest cs hr
            exact ⟨o1 :: o2 :: vec, by simp [mupValuesToObjects, ho1, ho2, hvec]⟩
end

/-- C17 fails as stated: with a library that tags a `double` by value, the sequence
`[[2.0]]`, in which no sequence starts with the sentinel string, comes back from the round
trip as `[[2]]`, whose inner element is an integer: another object, also when maps are
compared as sets of entries. -/
theorem C17_counterexample :
    (Object.vec [.vec [.float ⟨4611686018427387904⟩]]).supported = true ∧
    (Object.vec [.vec [.float ⟨4611686018427387904⟩]]).plain = true ∧
    roundTrip valueByValue slotEnd (.vec [.vec [.float ⟨4611686018427387904⟩]])
      = .ok (.vec [.vec [.int 2]]) ∧
    ¬ Object.Same (.vec [.vec [.float ⟨4611686018427387904⟩]]) (.vec [.vec [.int 2]]) := by
  refine ⟨rfl, rfl, rfl, ?_⟩
  intro h
  have := same_skeleton h
  simp [Object.skeleton, Object.skeletonList] at this

/-- C17, amended: an object built, to any depth, from supported scalars, sequences and
maps, in which no sequence has odd length and the sentinel string as first element, every
float and complex number is built by `mup::Value` with the tag of its kind, and the keys
of every map are pairwise different objects (as the keys of a `std::map` are), comes back
from the round trip as the same object: sequences element by element in order, maps as
sets of entries (`Object.Same`), which for an object without maps is the object itself.
Conversely a sequence of supported objects that has odd
length and the sentinel string as first element comes back as a map, not as that
sequence. -/
theorem C17_nested_round_trip (V : ValueLib) (slot : Slot) :
    (∀ v : Object, v.supported = true → v.plain = true → v.keepsTag V = true →
      v.distinctKeys →
      ∃ w, roundTrip V slot v = .ok w ∧ Object.Same v w ∧ (v.mapFree = true → w = v)) ∧
    (∀ xs : List Object, Object.supportedList xs = true → xs.length % 2 = 1 →
      xs.head? = some (.str mapTypeId) →
      ∃ m, roundTrip V slot (.vec xs) = .ok (.map m)) := by
  constructor
  · intro v hs hp ht hd
    obtain ⟨n, w, h1, h2, h3, _⟩ := deep_same V slot v hs hp ht hd
    exact ⟨w, by simp only [roundTrip, h1, h2], h3, fun hm => ((same_mapFree h3).1 hm).symm⟩
  · intro xs hs hodd hhead
    obtain ⟨cells, h1, h2, h3⟩ := encode_then_decode_list V xs hs
    obtain ⟨vec, hvec⟩ := encoding_decodes_list V slot xs cells h1
    have hf := (mupValuesToObjects_iff slot cells vec).1 hvec
    obtain ⟨pairs, _, _, hres⟩ := matrix_map_case slot cells vec hf
      ⟨by rw [h2]; exact hodd, h3 hhead⟩
    exact ⟨pairs.foldl (fun acc e => ProxyMap.assign slot acc e.1 e.2) [],
      by simp only [roundTrip, objectToMupValue, h1, hres]⟩

/-- C17 amended, at a map that holds a sequence with a float and a map, and at the
sequence `[mapTypeId, [1], 2]`, with the library that tags by value. -/
theorem C17_nested_round_trip_witness :
    (∃ w, roundTrip valueByValue slotEnd
        (.map [(.int 1, .vec [.float ⟨4612811918334230528⟩, .str mapTypeId]),
               (.str "k", .map [(.bool true, .vec [])])]) = .ok w ∧
      Object.Same
        (.map [(.int 1, .vec [.float ⟨4612811918334230528⟩, .str mapTypeId]),
               (.str "k", .map [(.bool true, .vec [])])]) w) ∧
    roundTrip valueByValue slotEnd (.vec [.vec [.float ⟨4612811918334230528⟩], .int 2])
      = .ok (.vec [.vec [.float ⟨4612811918334230528⟩], .int 2]) ∧
    ∃ m, roundTrip valueByValue slotEnd (.vec [.str mapTypeId, .vec [.int 1], .int 2])
      = .ok (.map m) :=
  ⟨(fun ⟨w, h1, h2, _⟩ => ⟨w, h1, h2⟩)
    ((C17_nested_round_trip valueByValue slotEnd).1
      (.map [(.int 1, .vec [.float ⟨4612811918334230528⟩, .str mapTypeId]),
             (.str "k", .map [(.bool true, .vec [])])]) rfl rfl rfl
      (by
        simp only [Object.distinctKeys, Object.distinctKeysPairs, Object.distinctKeysList,
          List.map_cons, List.map_nil, List.pairwise_cons, List.Pairwise.nil, and_true,
          true_and, List.mem_cons, List.mem_singleton, forall_eq, List.not_mem_nil,
          false_implies, implies_true, List.mem_nil_iff, or_false]
        intro h
        have := same_skeleton h
        simp [Object.skeleton] at this)),
   (by
      obtain ⟨w, h1, _, h3⟩ := (C17_nested_round_trip valueByValue slotEnd).1
        (.vec [.vec [.float ⟨4612811918334230528⟩], .int 2]) rfl rfl rfl
        (by simp [Object.distinctKeys, Object.distinctKeysList])
      rw [h1, h3 rfl]),
   (C17_nested_round_trip valueByValue slotEnd).2 [.str mapTypeId, .vec [.int 1], .int 2]
      rfl (by decide) rfl⟩
